import Mathlib

/-! # The list / query engine of `src/list.c`

A shallow embedding of the list engine (static linked lists, lazily filtered
dynamic lists, set algebra on queries) together with theorems about it.

Memory model:

* An address (a natural number, `0` is `NULL`) names one allocation.
  The three pointers the C code derives from one allocation by fixed offsets,
  the header pointer `lh`, the item pointer `&lh->data` and the handle
  `&lh->self`, are all represented by the address of the allocation, so
  `mapper_list_header_by_data` and `mapper_list_header_by_self` are the
  identity.  Dereferencing an address that holds no live cell is a fault.
* `malloc` never fails and never reuses an address (a bump allocator);
  memory returned by `malloc` reads as zero until it is written.
* Function pointers are the constructors of small enumerations; a user supplied
  comparison function is a Lean function of the encoded context bytes and the
  item address (what the function reads from the item payload is a function of
  the item).
* Loops and recursions of the C code that walk the heap take a fuel argument;
  running out of fuel is the error `Err.fuel`, distinct from a fault.
* `int` and `size_t` arithmetic is done in `Nat`; pointers are 8 bytes and
  `int` is 4 bytes, little endian.
-/

namespace GuitarAMI

/-- Ways a run can fail: undefined behaviour (`fault`), a failed `die_unless`
(`die`), or exhausted fuel of the model (`fuel`). -/
inductive Err
  | fault
  | die
  | fuel
deriving DecidableEq, Repr

/-- The enum `query_type_t`. -/
inductive query_type_t
  | QUERY_STATIC
  | QUERY_DYNAMIC
deriving DecidableEq, Repr

/-- Contents of the field `void *next` of a header: a data pointer (the next
item, possibly null) or the address of `mapper_list_query_continuation`. -/
inductive next_t
  | data (p : Nat)
  | mapper_list_query_continuation
deriving DecidableEq, Repr

/-- The struct `mapper_list_header_t` without its payload. -/
structure mapper_list_header_t where
  next : next_t
  self : Nat
  start : Nat
  query_context : Nat
  query_type : query_type_t
deriving DecidableEq, Repr

/-- Values of a `query_compare_func_t *`: null, the address of
`cmp_parallel_query`, or a comparison function of the caller. -/
inductive query_compare_func_t
  | null
  | cmp_parallel_query
  | user (f : List Nat → Nat → Bool)

/-- Values of a `query_free_func_t *`: null or the address of
`free_query_single_context`. -/
inductive query_free_func_t
  | null
  | free_query_single_context
deriving DecidableEq, Repr

/-- The struct `query_info_t`; `data` is the byte buffer that follows it. -/
structure query_info_t where
  size : Nat
  query_compare : query_compare_func_t
  query_free : query_free_func_t
  data : List Nat

/-- The heap: live list headers, live query contexts, and the last address
handed out by `malloc`. -/
structure Heap where
  hdr : Nat → Option mapper_list_header_t
  ctx : Nat → Option query_info_t
  brk : Nat

/-- The heap with nothing allocated. -/
def Heap.empty : Heap := ⟨fun _ => none, fun _ => none, 0⟩

/-- Read the header stored at `a`. -/
def Heap.read_hdr (heap : Heap) (a : Nat) : Except Err mapper_list_header_t :=
  match heap.hdr a with
  | some h => .ok h
  | none => .error .fault

/-- Read the query context stored at `a`. -/
def Heap.read_ctx (heap : Heap) (a : Nat) : Except Err query_info_t :=
  match heap.ctx a with
  | some c => .ok c
  | none => .error .fault

/-- Overwrite the header cell at `a`. -/
def Heap.set_hdr (heap : Heap) (a : Nat) (h : Option mapper_list_header_t) : Heap :=
  { heap with hdr := fun x => if x = a then h else heap.hdr x }

/-- Overwrite the context cell at `a`. -/
def Heap.set_ctx (heap : Heap) (a : Nat) (c : Option query_info_t) : Heap :=
  { heap with ctx := fun x => if x = a then c else heap.ctx x }

/-- Allocate a header cell holding `h`; returns the new heap and the address. -/
def Heap.malloc_hdr (heap : Heap) (h : mapper_list_header_t) : Heap × Nat :=
  ({ hdr := fun x => if x = heap.brk + 1 then some h else heap.hdr x,
     ctx := heap.ctx, brk := heap.brk + 1 }, heap.brk + 1)

/-- Allocate a context cell holding `c`; returns the new heap and the address. -/
def Heap.malloc_ctx (heap : Heap) (c : query_info_t) : Heap × Nat :=
  ({ hdr := heap.hdr,
     ctx := fun x => if x = heap.brk + 1 then some c else heap.ctx x,
     brk := heap.brk + 1 }, heap.brk + 1)

/-- Release the header at `a`; freeing what is not live is a fault. -/
def Heap.free_hdr (heap : Heap) (a : Nat) : Except Err Heap :=
  match heap.hdr a with
  | some _ => .ok (heap.set_hdr a none)
  | none => .error .fault

/-- Release the context at `a`; freeing what is not live is a fault. -/
def Heap.free_ctx (heap : Heap) (a : Nat) : Except Err Heap :=
  match heap.ctx a with
  | some _ => .ok (heap.set_ctx a none)
  | none => .error .fault

/-! ## Byte encodings -/

/-- The `k` little-endian bytes of `v`. -/
def le_bytes : Nat → Nat → List Nat
  | 0, _ => []
  | k + 1, v => v % 256 :: le_bytes k (v / 256)

/-- The value of a little-endian byte string. -/
def le_val : List Nat → Nat
  | [] => 0
  | b :: bs => b + 256 * le_val bs

/-- The 4 bytes of an `int` (two's complement). -/
def int_bytes (v : Int) : List Nat := le_bytes 4 (v % 2 ^ 32).toNat

/-- The 8 bytes of an `int64_t` (two's complement). -/
def int64_bytes (v : Int) : List Nat := le_bytes 8 (v % 2 ^ 64).toNat

/-- The 8 bytes of a pointer. -/
def ptr_bytes (p : Nat) : List Nat := le_bytes 8 p

/-- Load a pointer from offset `off` of a buffer (`*(void**)(data + off)`). -/
def read_ptr (data : List Nat) (off : Nat) : Except Err Nat :=
  if off + 8 ≤ data.length then .ok (le_val ((data.drop off).take 8)) else .error .fault

/-- Load a 4-byte enum value from offset `off` of a buffer. -/
def read_int (data : List Nat) (off : Nat) : Except Err Nat :=
  if off + 4 ≤ data.length then .ok (le_val ((data.drop off).take 4)) else .error .fault

/-- `memcpy(d + offset, bytes, bytes.length)` into the buffer `d`; writing past
the end of the buffer is a fault. -/
def memcpy_at (d : List Nat) (offset : Nat) (bytes : List Nat) : Except Err (List Nat) :=
  if offset + bytes.length ≤ d.length then
    .ok (d.take offset ++ bytes ++ d.drop (offset + bytes.length))
  else .error .fault

/-- The value `sizeof(query_info_t)`: an `unsigned int`, padding, two pointers. -/
def sizeof_query_info_t : Nat := 24

/-- `OP_UNION` of `binary_op_t`. -/
def OP_UNION : Nat := 0

/-- `OP_INTERSECTION` of `binary_op_t`. -/
def OP_INTERSECTION : Nat := 1

/-- `OP_DIFFERENCE` of `binary_op_t`. -/
def OP_DIFFERENCE : Nat := 2

/-! ## Item store -/

/-- The function `mapper_list_new_item`: a zeroed header with `self` and `start`
at its own payload; returns the payload pointer.  The `size` bytes of payload
are not part of the model. -/
def mapper_list_new_item (heap : Heap) (_size : Nat) : Heap × Nat :=
  heap.malloc_hdr ⟨.data 0, heap.brk + 1, heap.brk + 1, 0, .QUERY_STATIC⟩

/-- The function `mapper_list_from_data`. -/
def mapper_list_from_data (heap : Heap) (data : Nat) : Except Err Nat :=
  if data = 0 then .ok 0
  else do
    let lh ← heap.read_hdr data
    if lh.self = data then .ok data else .error .die

/-- The function `mapper_list_set_next`. -/
def mapper_list_set_next (heap : Heap) (mem : Nat) (next : Nat) : Except Err Heap := do
  let lh ← heap.read_hdr mem
  .ok (heap.set_hdr mem (some { lh with next := .data next }))

/-- The function `mapper_list_next_internal`; a header whose `next` holds the
continuation has no data pointer to return, which is a fault here. -/
def mapper_list_next_internal (heap : Heap) (mem : Nat) : Except Err Nat := do
  let lh ← heap.read_hdr mem
  match lh.next with
  | .data p => .ok p
  | .mapper_list_query_continuation => .error .fault

/-- The function `mapper_list_prepend_item`; `list` is the value of `*list`, the
new value of `*list` is returned with the heap. -/
def mapper_list_prepend_item (heap : Heap) (item : Nat) (list : Nat) :
    Except Err (Heap × Nat) := do
  let heap ← mapper_list_set_next heap item list
  .ok (heap, item)

/-- The function `mapper_list_add_item`; returns the heap, the new `*list` and
the new item. -/
def mapper_list_add_item (heap : Heap) (list : Nat) (size : Nat) :
    Except Err (Heap × Nat × Nat) := do
  let (heap, lh) := mapper_list_new_item heap size
  let (heap, list) ← mapper_list_prepend_item heap lh list
  .ok (heap, list, lh)

/-- The scanning loop of `mapper_list_remove_item`; returns `(prev_node, node)`. -/
def mapper_list_remove_item_scan : Nat → Heap → Nat → Nat → Nat → Except Err (Nat × Nat)
  | 0, _, _, _, _ => .error .fuel
  | n + 1, heap, item, prev_node, node =>
    if node = 0 then .ok (prev_node, node)
    else if node = item then .ok (prev_node, node)
    else do
      let nx ← mapper_list_next_internal heap node
      mapper_list_remove_item_scan n heap item node nx

/-- The function `mapper_list_remove_item`; `head` is the value of `*head`, the
new value of `*head` is returned with the heap. -/
def mapper_list_remove_item (fuel : Nat) (heap : Heap) (head : Nat) (item : Nat) :
    Except Err (Heap × Nat) := do
  let (prev_node, node) ← mapper_list_remove_item_scan fuel heap item 0 head
  if node = 0 then .ok (heap, head)
  else if prev_node ≠ 0 then do
    let nx ← mapper_list_next_internal heap node
    let heap ← mapper_list_set_next heap prev_node nx
    .ok (heap, head)
  else do
    let nx ← mapper_list_next_internal heap node
    .ok (heap, nx)

/-- The function `mapper_list_free_item`. -/
def mapper_list_free_item (heap : Heap) (item : Nat) : Except Err Heap :=
  if item ≠ 0 then heap.free_hdr item else .ok heap

/-! ## Query contexts and continuation -/

/-- A call `c->query_compare(&c->data, item)` through the context at `c`; `rec`
is what runs when the stored pointer is `cmp_parallel_query`. -/
def call_query_compare (rec : Heap → List Nat → Nat → Except Err Bool)
    (heap : Heap) (c : Nat) (item : Nat) : Except Err Bool := do
  let ci ← heap.read_ctx c
  match ci.query_compare with
  | .null => .error .fault
  | .user f => .ok (f ci.data item)
  | .cmp_parallel_query => rec heap ci.data item

/-- The function `cmp_parallel_query`; the fuel bounds the nesting depth. -/
def cmp_parallel_query : Nat → Heap → List Nat → Nat → Except Err Bool
  | 0, _, _, _ => .error .fuel
  | n + 1, heap, context_data, list => do
    let lh1 ← read_ptr context_data 0
    let lh2 ← read_ptr context_data 8
    let op ← read_int context_data 16
    let c1 := (← heap.read_hdr lh1).query_context
    let c2 := (← heap.read_hdr lh2).query_context
    if op = OP_UNION then do
      if ← call_query_compare (cmp_parallel_query n) heap c1 list then .ok true
      else call_query_compare (cmp_parallel_query n) heap c2 list
    else if op = OP_INTERSECTION then do
      if ← call_query_compare (cmp_parallel_query n) heap c1 list then
        call_query_compare (cmp_parallel_query n) heap c2 list
      else .ok false
    else if op = OP_DIFFERENCE then do
      if ← call_query_compare (cmp_parallel_query n) heap c1 list then do
        let b ← call_query_compare (cmp_parallel_query n) heap c2 list
        .ok (!b)
      else .ok false
    else .ok false

/-- The function `free_query_single_context`; the fuel bounds the nesting depth. -/
def free_query_single_context : Nat → Heap → Nat → Except Err Heap
  | 0, _, _ => .error .fuel
  | n + 1, heap, lh => do
    let c ← heap.read_ctx (← heap.read_hdr lh).query_context
    let heap ← match c.query_compare with
      | .cmp_parallel_query => do
        let lh1 ← read_ptr c.data 0
        let lh2 ← read_ptr c.data 8
        let heap ← free_query_single_context n heap lh1
        free_query_single_context n heap lh2
      | _ => .ok heap
    let heap ← heap.free_ctx (← heap.read_hdr lh).query_context
    heap.free_hdr lh

/-- The `while (item)` loop of `mapper_list_query_continuation`; `cfuel` is the
fuel of each comparison. -/
def mapper_list_query_continuation_loop :
    Nat → Nat → Heap → Nat → Nat → Except Err Nat
  | 0, _, _, _, _ => .error .fuel
  | n + 1, cfuel, heap, lh, item =>
    if item = 0 then .ok 0
    else do
      let c := (← heap.read_hdr lh).query_context
      if ← call_query_compare (cmp_parallel_query cfuel) heap c item then .ok item
      else do
        let nx ← mapper_list_next_internal heap item
        mapper_list_query_continuation_loop n cfuel heap lh nx

/-- The function `mapper_list_query_continuation`; returns the heap and the
handle, `0` at the end. -/
def mapper_list_query_continuation (fuel : Nat) (heap : Heap) (lh : Nat) :
    Except Err (Heap × Nat) := do
  let h ← heap.read_hdr lh
  let item ← mapper_list_next_internal heap h.self
  let item ← mapper_list_query_continuation_loop fuel fuel heap lh item
  if item ≠ 0 then
    .ok (heap.set_hdr lh (some { h with self := item }), lh)
  else do
    let c ← heap.read_ctx h.query_context
    match c.query_free with
    | .free_query_single_context => do
      let heap ← free_query_single_context fuel heap lh
      .ok (heap, 0)
    | .null => .ok (heap, 0)

/-! ## Argument codec -/

/-- Modelled from the spec: the tag constant `MAPPER_INT32` (legal tag `i`) of
the absent header `mapper_constants.h`. -/
def MAPPER_INT32 : Char := 'i'

/-- Modelled from the spec: the tag constant `MAPPER_INT64` (legal tag `h`). -/
def MAPPER_INT64 : Char := 'h'

/-- Modelled from the spec: the tag constant `MAPPER_CHAR` (legal tag `c`). -/
def MAPPER_CHAR : Char := 'c'

/-- Modelled from the spec: the tag constant `MAPPER_STRING` (legal tag `s`). -/
def MAPPER_STRING : Char := 's'

/-- Modelled from the spec: the tag constant `MAPPER_PTR` (legal tag `v`). -/
def MAPPER_PTR : Char := 'v'

/-- One variadic argument, by the type it is read with: `int` (also a promoted
`char`), `int64_t`, a pointer to an array of either, a string (possibly null, its
bytes without the terminator), a pointer to an array of strings, a pointer to
an array of pointers. -/
inductive arg_t
  | int (v : Int)
  | int64 (v : Int)
  | int_ptr (val : List Int)
  | int64_ptr (val : List Int)
  | str (val : Option (List Nat))
  | str_ptr (val : List (List Nat))
  | ptr_ptr (val : List Nat)

/-- The function `atoi` on a string that starts with a digit: the value of the
longest prefix of decimal digits. -/
def atoi (s : List Char) : Nat :=
  (s.takeWhile Char.isDigit).foldl (fun n c => 10 * n + (c.toNat - 48)) 0

/-- One case of the switch of `get_query_size` for the tag `c`; `num` is the
repeat count when a digit follows the tag.  Returns the bytes added to `size`
and the rest of the argument list, or `none` in the `default` case; reading an
argument with another type than it was passed with is a fault. -/
def get_query_size_case (c : Char) (num : Option Nat) (aq : List arg_t) :
    Except Err (Option (Nat × List arg_t)) :=
  if c = MAPPER_INT32 ∨ c = MAPPER_CHAR then
    match num, aq with
    | some num_args, .int_ptr _ :: aq => .ok (some (num_args * 4, aq))
    | none, .int _ :: aq => .ok (some (1 * 4, aq))
    | _, _ => .error .fault
  else if c = MAPPER_INT64 then
    match num, aq with
    | some num_args, .int64_ptr _ :: aq => .ok (some (num_args * 8, aq))
    | none, .int64 _ :: aq => .ok (some (1 * 8, aq))
    | _, _ => .error .fault
  else if c = MAPPER_STRING then
    match num, aq with
    | some num_args, .str_ptr val :: aq =>
      if num_args ≤ val.length then
        .ok (some (((val.take num_args).map (fun s => s.length + 1)).sum, aq))
      else .error .fault
    | none, .str val :: aq =>
      .ok (some ((match val with | some s => s.length | none => 0) + 1, aq))
    | _, _ => .error .fault
  else if c = MAPPER_PTR then
    match num, aq with
    | some num_args, .ptr_ptr _ :: aq => .ok (some (num_args * 8, aq))
    | none, .ptr_ptr _ :: aq => .ok (some (1 * 8, aq))
    | _, _ => .error .fault
  else .ok none

/-- The `while (types[i])` loop of `get_query_size` on the rest of the tag
string from position `i`; the `default` case returns 0.  The size is summed in
`Nat`: this is the `int size` of the code as long as the total stays below
`2 ^ 31`, where the `int` wraps. -/
def get_query_size_loop : List Char → List arg_t → Nat → Except Err Nat
  | [], _, size => .ok size
  | [c], aq, size =>
    match get_query_size_case c none aq with
    | .error e => .error e
    | .ok none => .ok 0
    | .ok (some (n, _)) => .ok (size + n)
  | c :: d :: ts, aq, size =>
    if d.isDigit then
      match get_query_size_case c (some (atoi (d :: ts))) aq with
      | .error e => .error e
      | .ok none => .ok 0
      | .ok (some (n, aq)) => get_query_size_loop ts aq (size + n)
    else
      match get_query_size_case c none aq with
      | .error e => .error e
      | .ok none => .ok 0
      | .ok (some (n, aq)) => get_query_size_loop (d :: ts) aq (size + n)

/-- The function `get_query_size`; `types` is `none` for a null pointer. -/
def get_query_size (types : Option (List Char)) (aq : List arg_t) : Except Err Nat :=
  match types with
  | none => .ok 0
  | some types => get_query_size_loop types aq 0

/-- The call `snprintf(d + offset, size - offset, "%s", s)`: `size - offset` is
converted to `size_t`, so it is unbounded when `offset` exceeds `size`. -/
def snprintf_at (d : List Nat) (size offset : Nat) (s : List Nat) : Except Err (List Nat) :=
  if size < offset then memcpy_at d offset (s ++ [0])
  else if size - offset = 0 then .ok d
  else memcpy_at d offset (s.take (size - offset - 1) ++ [0])

/-- One case of the switch of `new_query_internal` for the tag `c`; `num` is
the repeat count when a digit follows the tag.  Returns the buffer, the new
offset and the rest of the argument list, or `none` in the `default` case.
Reading past the end of an argument array, and `%s` of a null string (undefined
in C, whatever the C library prints for it), are faults. -/
def new_query_internal_case (c : Char) (num : Option Nat) (aq : List arg_t)
    (d : List Nat) (size offset : Nat) :
    Except Err (Option (List Nat × Nat × List arg_t)) :=
  if c = MAPPER_INT32 ∨ c = MAPPER_CHAR then
    match num, aq with
    | some num_args, .int_ptr val :: aq =>
      if num_args ≤ val.length then do
        let d ← memcpy_at d offset ((val.take num_args).flatMap int_bytes)
        .ok (some (d, offset + 4 * num_args, aq))
      else .error .fault
    | none, .int val :: aq => do
      let d ← memcpy_at d offset (int_bytes val)
      .ok (some (d, offset + 4 * 1, aq))
    | _, _ => .error .fault
  else if c = MAPPER_INT64 then
    match num, aq with
    | some num_args, .int64_ptr val :: aq =>
      if num_args ≤ val.length then do
        let d ← memcpy_at d offset ((val.take num_args).flatMap int64_bytes)
        .ok (some (d, offset + 8 * num_args, aq))
      else .error .fault
    | none, .int64 val :: aq => do
      let d ← memcpy_at d offset (int64_bytes val)
      .ok (some (d, offset + 8 * 1, aq))
    | _, _ => .error .fault
  else if c = MAPPER_STRING then
    match num, aq with
    | some num_args, .str_ptr val :: aq =>
      if num_args < val.length then do
        let d ← (val.take num_args).foldlM (fun d s => snprintf_at d size offset s) d
        .ok (some (d, offset + ((val.getD num_args []).length + 1), aq))
      else .error .fault
    | none, .str (some val) :: aq => do
      let d ← snprintf_at d size offset val
      .ok (some (d, offset + (val.length + 1), aq))
    | _, _ => .error .fault
  else if c = MAPPER_PTR then
    match num, aq with
    | some num_args, .ptr_ptr val :: aq =>
      if num_args ≤ val.length then do
        let d ← memcpy_at d offset ((val.take num_args).flatMap ptr_bytes)
        .ok (some (d, offset + 8 * num_args, aq))
      else .error .fault
    | none, .ptr_ptr val :: aq =>
      if 1 ≤ val.length then do
        let d ← memcpy_at d offset ((val.take 1).flatMap ptr_bytes)
        .ok (some (d, offset + 8 * 1, aq))
      else .error .fault
    | _, _ => .error .fault
  else .ok none

/-- The `while (types[i])` loop of `new_query_internal` on the rest of the tag
string; returns the filled buffer and the final offset, or `none` when the
`default` case was reached. -/
def new_query_internal_loop :
    List Char → List arg_t → List Nat → Nat → Nat → Except Err (Option (List Nat × Nat))
  | [], _, d, _, offset => .ok (some (d, offset))
  | [c], aq, d, size, offset =>
    match new_query_internal_case c none aq d size offset with
    | .error e => .error e
    | .ok none => .ok none
    | .ok (some (d, offset, _)) => .ok (some (d, offset))
  | c :: t :: ts, aq, d, size, offset =>
    if t.isDigit then
      match new_query_internal_case c (some (atoi (t :: ts))) aq d size offset with
      | .error e => .error e
      | .ok none => .ok none
      | .ok (some (d, offset, aq)) => new_query_internal_loop ts aq d size offset
    else
      match new_query_internal_case c none aq d size offset with
      | .error e => .error e
      | .ok none => .ok none
      | .ok (some (d, offset, aq)) => new_query_internal_loop (t :: ts) aq d size offset

/-- The function `new_query_internal`; returns the heap and the handle (`0`
when absent). -/
def new_query_internal (fuel : Nat) (heap : Heap) (list : Nat) (size : Nat)
    (compare_func : query_compare_func_t) (types : Option (List Char))
    (aq : List arg_t) : Except Err (Heap × Nat) :=
  match types, compare_func with
  | none, _ => .ok (heap, 0)
  | some _, .null => .ok (heap, 0)
  | some types, compare_func =>
    if list = 0 ∨ size = 0 then .ok (heap, 0)
    else
      let (heap, lh) :=
        heap.malloc_hdr ⟨.mapper_list_query_continuation, 0, 0, 0, .QUERY_DYNAMIC⟩
      let (heap, qc) := heap.malloc_ctx ⟨0, .null, .null, List.replicate size 0⟩
      let heap :=
        heap.set_hdr lh (some ⟨.mapper_list_query_continuation, 0, 0, qc, .QUERY_DYNAMIC⟩)
      match new_query_internal_loop types aq (List.replicate size 0) size 0 with
      | .error e => .error e
      | .ok none => do
        let heap ← heap.free_ctx qc
        let heap ← heap.free_hdr lh
        .ok (heap, 0)
      | .ok (some (d, _)) =>
        let heap := heap.set_ctx qc
          (some ⟨sizeof_query_info_t + size, compare_func, .free_query_single_context, d⟩)
        let heap := heap.set_hdr lh
          (some ⟨.mapper_list_query_continuation, list, list, qc, .QUERY_DYNAMIC⟩)
        do
          if ← call_query_compare (cmp_parallel_query fuel) heap qc list then .ok (heap, lh)
          else mapper_list_query_continuation fuel heap lh

/-- The function `mapper_list_new_query`. -/
def mapper_list_new_query (fuel : Nat) (heap : Heap) (list : Nat)
    (compare_func : query_compare_func_t) (types : Option (List Char))
    (aq : List arg_t) : Except Err (Heap × Nat) := do
  let size ← get_query_size types aq
  new_query_internal fuel heap list size compare_func types aq

/-! ## Iteration -/

/-- The function `mapper_list_next`; returns the heap and the next handle, `0`
at the end.  A static header whose `next` is not a data pointer, and a dynamic
header whose `next` is not the continuation, are faults. -/
def mapper_list_next (fuel : Nat) (heap : Heap) (list : Nat) : Except Err (Heap × Nat) :=
  if list = 0 then .ok (heap, 0)
  else do
    let lh ← heap.read_hdr list
    if lh.self = 0 then .ok (heap, 0)
    else if lh.next = .data 0 then .ok (heap, 0)
    else
      match lh.query_type, lh.next with
      | .QUERY_STATIC, .data p => do
        let r ← mapper_list_from_data heap p
        .ok (heap, r)
      | .QUERY_DYNAMIC, .mapper_list_query_continuation =>
        mapper_list_query_continuation fuel heap list
      | _, _ => .error .fault

/-- The function `mapper_list_free`. -/
def mapper_list_free (fuel : Nat) (heap : Heap) (list : Nat) : Except Err Heap :=
  if list = 0 then .ok heap
  else do
    let lh ← heap.read_hdr list
    if lh.self = 0 then .ok heap
    else
      match lh.query_type with
      | .QUERY_DYNAMIC => do
        let c ← heap.read_ctx lh.query_context
        match c.query_free with
        | .free_query_single_context => free_query_single_context fuel heap list
        | .null => .ok heap
      | .QUERY_STATIC => .ok heap

/-- The `while ((list = mapper_list_next(list)))` loop of
`mapper_list_get_index`; `cfuel` is the fuel of each call of `next`. -/
def mapper_list_get_index_loop :
    Nat → Nat → Heap → Nat → Int → Int → Except Err (Heap × Nat)
  | 0, _, _, _, _, _ => .error .fuel
  | n + 1, cfuel, heap, list, index, i => do
    let (heap, list) ← mapper_list_next cfuel heap list
    if list = 0 then .ok (heap, 0)
    else if i = index then do
      let lh ← heap.read_hdr list
      .ok (heap, lh.self)
    else mapper_list_get_index_loop n cfuel heap list index (i + 1)

/-- The function `mapper_list_get_index`; returns the heap and the item, `0` for
none. -/
def mapper_list_get_index (fuel : Nat) (heap : Heap) (list : Nat) (index : Int) :
    Except Err (Heap × Nat) :=
  if list = 0 ∨ index < 0 then .ok (heap, 0)
  else do
    let lh ← heap.read_hdr list
    if index = 0 then .ok (heap, lh.start)
    else
      let heap := heap.set_hdr list (some { lh with self := lh.start })
      mapper_list_get_index_loop fuel fuel heap list index 1

/-! ## Copy and set algebra -/

/-- The function `mapper_list_header_copy`; the fuel bounds the nesting depth.
`memcpy` of `size` bytes of a context copies `size - sizeof(query_info_t)` bytes
of its buffer; a `size` that does not cover the struct or exceeds the buffer is
a fault. -/
def mapper_list_header_copy : Nat → Heap → Nat → Except Err (Heap × Nat)
  | 0, _, _ => .error .fuel
  | n + 1, heap, lh => do
    let h ← heap.read_hdr lh
    let (heap, copy) := heap.malloc_hdr h
    if h.query_context = 0 then .ok (heap, copy)
    else do
      let c ← heap.read_ctx h.query_context
      if c.size < sizeof_query_info_t ∨ sizeof_query_info_t + c.data.length < c.size then
        .error .fault
      else
        let c' : query_info_t := { c with data := c.data.take (c.size - sizeof_query_info_t) }
        let (heap, qc) := heap.malloc_ctx c'
        let heap := heap.set_hdr copy (some { h with query_context := qc })
        match c'.query_compare with
        | .cmp_parallel_query => do
          let lh1 ← read_ptr c'.data 0
          let lh2 ← read_ptr c'.data 8
          let (heap, lh1) ← mapper_list_header_copy n heap lh1
          let (heap, lh2) ← mapper_list_header_copy n heap lh2
          let data ← memcpy_at c'.data 0 (ptr_bytes lh1)
          let data ← memcpy_at data 8 (ptr_bytes lh2)
          .ok (heap.set_ctx qc (some { c' with data := data }), copy)
        | _ => .ok (heap, copy)

/-- The function `mapper_list_copy`. -/
def mapper_list_copy (fuel : Nat) (heap : Heap) (list : Nat) : Except Err (Heap × Nat) :=
  if list = 0 then .ok (heap, 0)
  else mapper_list_header_copy fuel heap list

/-- The tag string of the three set operations. -/
def vvi : List Char := ['v', 'v', 'i']

/-- The function `mapper_list_union`. -/
def mapper_list_union (fuel : Nat) (heap : Heap) (list1 list2 : Nat) :
    Except Err (Heap × Nat) :=
  if list1 = 0 then .ok (heap, list2)
  else if list2 = 0 then .ok (heap, list1)
  else do
    let lh1 ← heap.read_hdr list1
    mapper_list_new_query fuel heap lh1.start .cmp_parallel_query (some vvi)
      [.ptr_ptr [list1], .ptr_ptr [list2], .int OP_UNION]

/-- The function `mapper_list_intersection`. -/
def mapper_list_intersection (fuel : Nat) (heap : Heap) (list1 list2 : Nat) :
    Except Err (Heap × Nat) :=
  if list1 = 0 ∨ list2 = 0 then .ok (heap, 0)
  else do
    let lh1 ← heap.read_hdr list1
    mapper_list_new_query fuel heap lh1.start .cmp_parallel_query (some vvi)
      [.ptr_ptr [list1], .ptr_ptr [list2], .int OP_INTERSECTION]

/-- The function `mapper_list_filter`.  The header of the fresh query is taken
from its handle without a test, also when the handle is null. -/
def mapper_list_filter (fuel : Nat) (heap : Heap) (list : Nat)
    (compare_func : query_compare_func_t) (types : Option (List Char))
    (aq : List arg_t) : Except Err (Heap × Nat) :=
  if list = 0 then .ok (heap, 0)
  else do
    let size ← get_query_size types aq
    let lh1 ← heap.read_hdr list
    let (heap, filter) ← new_query_internal fuel heap lh1.start size compare_func types aq
    match lh1.query_type with
    | .QUERY_STATIC => .ok (heap, filter)
    | .QUERY_DYNAMIC =>
      mapper_list_new_query fuel heap lh1.start .cmp_parallel_query (some vvi)
        [.ptr_ptr [list], .ptr_ptr [filter], .int OP_INTERSECTION]

/-- The function `mapper_list_difference`. -/
def mapper_list_difference (fuel : Nat) (heap : Heap) (list1 list2 : Nat) :
    Except Err (Heap × Nat) :=
  if list1 = 0 then .ok (heap, 0)
  else if list2 = 0 then .ok (heap, list1)
  else do
    let lh1 ← heap.read_hdr list1
    mapper_list_new_query fuel heap lh1.start .cmp_parallel_query (some vvi)
      [.ptr_ptr [list1], .ptr_ptr [list2], .int OP_DIFFERENCE]

/-- The `for` loop of `mapper_list_length` from the handle `list` on; `cfuel`
is the fuel of each call of `next`. -/
def mapper_list_length_loop : Nat → Nat → Heap → Nat → Nat → Except Err (Heap × Nat)
  | 0, _, _, _, _ => .error .fuel
  | n + 1, cfuel, heap, list, length =>
    if list = 0 then .ok (heap, length)
    else do
      let (heap, list) ← mapper_list_next cfuel heap list
      mapper_list_length_loop n cfuel heap list (length + 1)

/-- The function `mapper_list_length`; returns the heap and the length. -/
def mapper_list_length (fuel : Nat) (heap : Heap) (list : Nat) : Except Err (Heap × Nat) := do
  let (heap, list) ← mapper_list_copy fuel heap list
  mapper_list_length_loop fuel fuel heap list 0

/-- The loop of a caller that visits a list: `while (list) { visit(*list);
list = mapper_list_next(list); }`; returns the heap and the items visited. -/
def drain : Nat → Nat → Heap → Nat → Except Err (Heap × List Nat)
  | 0, _, _, _ => .error .fuel
  | n + 1, cfuel, heap, list =>
    if list = 0 then .ok (heap, [])
    else do
      let item := (← heap.read_hdr list).self
      let (heap, list) ← mapper_list_next cfuel heap list
      let (heap, rest) ← drain n cfuel heap list
      .ok (heap, item :: rest)

/-! ## Static lists in the heap -/

/-- The chain of static items from `a`: following the `next` links from `a`
visits exactly `xs` and ends at null; every item is a live static header whose
`self` is its own payload and which has no query context. -/
def IsList (heap : Heap) : Nat → List Nat → Prop
  | a, [] => a = 0
  | a, x :: xs => a = x ∧ x ≠ 0 ∧ ∃ nx s,
      heap.hdr x = some ⟨.data nx, x, s, 0, .QUERY_STATIC⟩ ∧ IsList heap nx xs

/-- One operation of the item store, as a caller issues it on a list head. -/
inductive ItemOp
  | add (size : Nat)
  | remove (item : Nat)
  | free_item (item : Nat)

/-- Run a sequence of item store operations on the list head `head`. -/
def run_ops (fuel : Nat) : Heap → Nat → List ItemOp → Except Err (Heap × Nat)
  | heap, head, [] => .ok (heap, head)
  | heap, head, .add size :: ops => do
    let (heap, head, _) ← mapper_list_add_item heap head size
    run_ops fuel heap head ops
  | heap, head, .remove item :: ops => do
    let (heap, head) ← mapper_list_remove_item fuel heap head item
    run_ops fuel heap head ops
  | heap, head, .free_item item :: ops => do
    let heap ← mapper_list_free_item heap item
    run_ops fuel heap head ops

/-- The items that were added and not removed afterwards, most recently added
first, when the list holds `l` and `n` allocations were made before the
operations start: the item returned by the next add is `n + 1`. -/
def survivors : Nat → List Nat → List ItemOp → List Nat
  | _, l, [] => l
  | n, l, .add _ :: ops => survivors (n + 1) ((n + 1) :: l) ops
  | n, l, .remove item :: ops => survivors n (l.erase item) ops
  | n, l, .free_item _ :: ops => survivors n l ops

/-- Every `free_item` of the sequence is applied to null or to an item that was
removed from the list before and not freed yet; `det` lists the items that are
removed and not freed. -/
def frees_ok : Nat → List Nat → List Nat → List ItemOp → Prop
  | _, _, _, [] => True
  | n, l, det, .add _ :: ops => frees_ok (n + 1) ((n + 1) :: l) det ops
  | n, l, det, .remove item :: ops =>
    frees_ok n (l.erase item) (if item ∈ l then item :: det else det) ops
  | n, l, det, .free_item item :: ops =>
    (item = 0 ∨ item ∈ det) ∧ frees_ok n l (det.erase item) ops

/-- The state of a static list: the head walks through `l` without repetition,
nothing lives above the last allocation, and the detached items `det` are live
items outside the list. -/
def StaticInv (heap : Heap) (head : Nat) (l det : List Nat) : Prop :=
  IsList heap head l ∧ l.Nodup ∧ (∀ a, heap.brk < a → heap.hdr a = none) ∧
    det.Nodup ∧ ∀ a ∈ det, a ∉ l ∧ a ≠ 0 ∧ heap.hdr a ≠ none

/-! ## Ownership trees of dynamic handles -/

/-- The shape of a dynamic handle in the heap: a leaf is a header `lh` with a
context `qc` that holds a comparison function of the caller and its encoded
arguments; a node is a header with a context that holds `cmp_parallel_query`,
the headers of two children and an operator. -/
inductive QTree
  | leaf (lh qc : Nat) (f : List Nat → Nat → Bool) (data : List Nat)
  | node (lh qc : Nat) (op : Nat) (l r : QTree)

/-- The header at the root of the tree. -/
def QTree.root : QTree → Nat
  | .leaf lh _ _ _ => lh
  | .node lh _ _ _ _ => lh

/-- The query context at the root of the tree. -/
def QTree.ctx : QTree → Nat
  | .leaf _ qc _ _ => qc
  | .node _ qc _ _ _ => qc

/-- The predicate of the handle: that of the caller on its encoded arguments
for a leaf, the boolean combination of the children for a node. -/
def QTree.sem : QTree → Nat → Bool
  | .leaf _ _ f data, x => f data x
  | .node _ _ op l r, x =>
    if op = OP_UNION then l.sem x || r.sem x
    else if op = OP_INTERSECTION then l.sem x && r.sem x
    else if op = OP_DIFFERENCE then l.sem x && !r.sem x
    else false

/-- The nesting depth of the tree. -/
def QTree.depth : QTree → Nat
  | .leaf _ _ _ _ => 0
  | .node _ _ _ l r => max l.depth r.depth + 1

/-- The headers of the tree. -/
def QTree.hdrs : QTree → List Nat
  | .leaf lh _ _ _ => [lh]
  | .node lh _ _ l r => lh :: (l.hdrs ++ r.hdrs)

/-- The query contexts of the tree. -/
def QTree.ctxs : QTree → List Nat
  | .leaf _ qc _ _ => [qc]
  | .node _ qc _ l r => qc :: (l.ctxs ++ r.ctxs)

/-- The heap holds the tree: every header is live and points to its context,
every context is live with the contents `new_query_internal` gives it. -/
def QTree.holds (heap : Heap) : QTree → Prop
  | .leaf lh qc f data =>
    lh ≠ 0 ∧ qc ≠ 0 ∧ (∃ h, heap.hdr lh = some h ∧ h.query_context = qc) ∧
    heap.ctx qc = some ⟨sizeof_query_info_t + data.length, .user f,
      .free_query_single_context, data⟩
  | .node lh qc op l r =>
    lh ≠ 0 ∧ qc ≠ 0 ∧ (∃ h, heap.hdr lh = some h ∧ h.query_context = qc) ∧
    heap.ctx qc = some ⟨sizeof_query_info_t + 20, .cmp_parallel_query,
      .free_query_single_context, ptr_bytes l.root ++ ptr_bytes r.root ++ int_bytes op⟩ ∧
    l.root < 2 ^ 64 ∧ r.root < 2 ^ 64 ∧ op ≤ 2 ∧ l.holds heap ∧ r.holds heap

/-- The heap `heap'` is `heap` with the headers `hdrs` and the contexts `ctxs`
released and nothing else changed. -/
def Freed (heap heap' : Heap) (hdrs ctxs : List Nat) : Prop :=
  heap'.brk = heap.brk ∧ (∀ a, heap'.hdr a = if a ∈ hdrs then none else heap.hdr a) ∧
    ∀ a, heap'.ctx a = if a ∈ ctxs then none else heap.ctx a

/-- A dynamic handle in the heap: the root header of the tree `t` is a dynamic
header with cursor `self` and origin `start`, the heap holds the tree, no header
or context occurs twice in it, and the cursor is an item of a static list that
continues with `rest`. -/
def DynAt (heap : Heap) (t : QTree) (self start : Nat) (rest : List Nat) : Prop :=
  heap.hdr t.root =
      some ⟨.mapper_list_query_continuation, self, start, t.ctx, .QUERY_DYNAMIC⟩ ∧
    t.holds heap ∧ t.hdrs.Nodup ∧ t.ctxs.Nodup ∧ IsList heap self (self :: rest)

/-- Nothing is live above the last address handed out by `malloc`. -/
def HeapWf (heap : Heap) : Prop :=
  ∀ a, heap.brk < a → heap.hdr a = none ∧ heap.ctx a = none

/-- The heap after `new_query_internal` has initialised the header at
`heap.brk + 1` and the context at `heap.brk + 2` of a new query over `list`. -/
def query_heap (heap : Heap) (list size : Nat) (compare_func : query_compare_func_t)
    (d : List Nat) : Heap :=
  ((((heap.malloc_hdr ⟨.mapper_list_query_continuation, 0, 0, 0, .QUERY_DYNAMIC⟩).1.malloc_ctx
    ⟨0, .null, .null, List.replicate size 0⟩).1.set_hdr (heap.brk + 1)
    (some ⟨.mapper_list_query_continuation, 0, 0, heap.brk + 2, .QUERY_DYNAMIC⟩)).set_ctx
    (heap.brk + 2)
    (some ⟨sizeof_query_info_t + size, compare_func, .free_query_single_context, d⟩)).set_hdr
    (heap.brk + 1)
    (some ⟨.mapper_list_query_continuation, list, list, heap.brk + 2, .QUERY_DYNAMIC⟩)

/-! ## The example of the specification: ten items, two queries -/

/-- The static list of the ten items 10, 9, ..., 1, linked in this order; the
item at address `a` has index `10 - a`. -/
def example_list : Heap :=
  { hdr := fun a =>
      if 1 ≤ a ∧ a ≤ 10 then some ⟨.data (a - 1), a, a, 0, .QUERY_STATIC⟩ else none,
    ctx := fun _ => none,
    brk := 10 }

/-- The items of `example_list` in list order, indices 0 to 9. -/
def example_items : List Nat := [10, 9, 8, 7, 6, 5, 4, 3, 2, 1]

/-- The predicate "even index" on the items of `example_list`. -/
def even_index : List Nat → Nat → Bool := fun _ a => (10 - a) % 2 == 0

/-- The predicate "index below the encoded argument" on the items of
`example_list`. -/
def index_lt : List Nat → Nat → Bool := fun d a => decide (10 - a < le_val d)

/-- The heap `example_list` with two queries over the list: `A` at header 11
(even index) and `B` at header 13 (index below 5), both with their cursor on
the first item, as `mapper_list_new_query` leaves them. -/
def example_queries : Heap :=
  { hdr := fun a =>
      if 1 ≤ a ∧ a ≤ 10 then some ⟨.data (a - 1), a, a, 0, .QUERY_STATIC⟩
      else if a = 11 then some ⟨.mapper_list_query_continuation, 10, 10, 12, .QUERY_DYNAMIC⟩
      else if a = 13 then some ⟨.mapper_list_query_continuation, 10, 10, 14, .QUERY_DYNAMIC⟩
      else none,
    ctx := fun a =>
      if a = 12 then
        some ⟨sizeof_query_info_t + 4, .user even_index, .free_query_single_context, int_bytes 0⟩
      else if a = 14 then
        some ⟨sizeof_query_info_t + 4, .user index_lt, .free_query_single_context, int_bytes 5⟩
      else none,
    brk := 14 }

/-- The tree of the query `A` of `example_queries`. -/
def example_A : QTree := .leaf 11 12 even_index (int_bytes 0)

/-- The tree of the query `B` of `example_queries`. -/
def example_B : QTree := .leaf 13 14 index_lt (int_bytes 5)

/-! ## Copies -/

/-- The number of headers and contexts of a tree. -/
def QTree.cells : QTree → Nat
  | .leaf _ _ _ _ => 2
  | .node _ _ _ l r => 2 + l.cells + r.cells

/-- The heap `heap'` has every address that `heap` has handed out with the same
contents. -/
def Preserved (heap heap' : Heap) : Prop :=
  ∀ a, a ≤ heap.brk → heap'.hdr a = heap.hdr a ∧ heap'.ctx a = heap.ctx a

/-- The tree `t'` in `heap'` is a copy of the tree `t` of `heap`: it computes
the same predicate, all its headers and contexts were allocated after `heap`,
none occurs twice, and `heap'` keeps what `heap` holds. -/
structure IsCopy (heap : Heap) (t : QTree) (heap' : Heap) (t' : QTree) : Prop where
  root : t'.root = heap.brk + 1
  holds : t'.holds heap'
  sem : t'.sem = t.sem
  depth : t'.depth = t.depth
  cells : t'.cells = t.cells
  nodup_hdrs : t'.hdrs.Nodup
  nodup_ctxs : t'.ctxs.Nodup
  fresh_hdrs : ∀ a ∈ t'.hdrs, heap.brk < a ∧ a ≤ heap'.brk
  fresh_ctxs : ∀ a ∈ t'.ctxs, heap.brk < a ∧ a ≤ heap'.brk
  wf : HeapWf heap'
  brk : heap'.brk = heap.brk + t.cells
  preserved : Preserved heap heap'
  hdr : ∀ hd, heap.hdr t.root = some hd →
    heap'.hdr t'.root = some { hd with query_context := t'.ctx }

/-- A static handle: the header `h` is a static header without a context whose
cursor is the item `self` and whose link leads to the items `rest`.  This is the
header of an item of a static list, or a copy of one. -/
def StatAt (heap : Heap) (h self : Nat) (rest : List Nat) : Prop :=
  h ≠ 0 ∧ self ≠ 0 ∧ ∃ nx s,
    heap.hdr h = some ⟨.data nx, self, s, 0, .QUERY_STATIC⟩ ∧ IsList heap nx rest

/-- The heap after `mapper_list_header_copy` has allocated the copy of the
header `hd` at `heap.brk + 1` and the copy `c` of its context at
`heap.brk + 2`. -/
def copy_heap (heap : Heap) (hd : mapper_list_header_t) (c : query_info_t) : Heap :=
  ((heap.malloc_hdr hd).1.malloc_ctx c).1.set_hdr (heap.brk + 1)
    (some { hd with query_context := heap.brk + 2 })

/-! ## Tag strings -/

/-- The legal tags of the tag string. -/
def is_tag (c : Char) : Bool :=
  c = MAPPER_INT32 || c = MAPPER_INT64 || c = MAPPER_CHAR || c = MAPPER_STRING || c = MAPPER_PTR

/-- Whether the rest of a tag string has, at a tag position, a character that
is no legal tag; `after_tag` says that the rest follows a tag or a digit of
its repeat count, where further digits belong to the count. -/
def bad_tag_from : Bool → List Char → Bool
  | _, [] => false
  | after_tag, c :: ts =>
    if after_tag && c.isDigit then bad_tag_from true ts
    else if is_tag c then bad_tag_from true ts
    else true

/-- Whether a tag string has, at a tag position, a character other than `i`,
`h`, `c`, `s` or `v`. -/
def has_bad_tag (types : List Char) : Bool := bad_tag_from false types

/-! ## Lengths of set operations -/

/-- The length of the result of a set operation on independent copies of two
handles: copy both, combine the copies, take the length. -/
def composite_length (setop : Nat → Heap → Nat → Nat → Except Err (Heap × Nat))
    (fuel : Nat) (heap : Heap) (A B : Nat) : Except Err (Heap × Nat) := do
  let (heap, a) ← mapper_list_copy fuel heap A
  let (heap, b) ← mapper_list_copy fuel heap B
  let (heap, u) ← setop fuel heap a b
  mapper_list_length fuel heap u

/-- The predicate "odd index" on the items of `example_list`; the first item
of the list does not satisfy it. -/
def odd_index : List Nat → Nat → Bool := fun _ a => (10 - a) % 2 == 1

/-- The pointer argument that the tag `c` followed by a repeat count is read
with. -/
def array_arg (c : Char) : arg_t → Bool
  | .int_ptr _ => c = MAPPER_INT32 || c = MAPPER_CHAR
  | .int64_ptr _ => c = MAPPER_INT64
  | .str_ptr _ => c = MAPPER_STRING
  | .ptr_ptr _ => c = MAPPER_PTR
  | _ => false

/-- The argument list starts with one array argument for each tag of `tags`. -/
def array_args : List Char → List arg_t → Bool
  | [], _ => true
  | _ :: _, [] => false
  | c :: tags, a :: aq => array_arg c a && array_args tags aq

/-- The tag string in which every tag of `tags` is an array with repeat count
0. -/
def zero_count_types : List Char → List Char
  | [] => []
  | c :: tags => c :: '0' :: zero_count_types tags

/-- A static handle whose origin is its own cursor, as `mapper_list_new_item`
makes the header of an item (`lh->self = lh->start = &lh->data`) and as a copy
of it keeps it; its link leads to the items `rest`. -/
def StatOwn (heap : Heap) (h self : Nat) (rest : List Nat) : Prop :=
  h ≠ 0 ∧ self ≠ 0 ∧ ∃ nx,
    heap.hdr h = some ⟨.data nx, self, self, 0, .QUERY_STATIC⟩ ∧ IsList heap nx rest

/-- The predicate that matches every item. -/
def match_all : List Nat → Nat → Bool := fun _ _ => true

/-! # Theorems -/

/-! ## Static lists -/

theorem bind_ok {α β : Type} (x : α) (f : α → Except Err β) :
    (Except.ok x >>= f) = f x := rfl

theorem bind_error {α β : Type} (e : Err) (f : α → Except Err β) :
    ((Except.error e : Except Err α) >>= f) = .error e := rfl

theorem pure_ok {α : Type} (x : α) : (pure x : Except Err α) = .ok x := rfl

theorem read_hdr_some {heap : Heap} {a : Nat} {h : mapper_list_header_t}
    (hh : heap.hdr a = some h) : heap.read_hdr a = .ok h := by
  simp [Heap.read_hdr, hh]

theorem read_ctx_some {heap : Heap} {a : Nat} {c : query_info_t}
    (hc : heap.ctx a = some c) : heap.read_ctx a = .ok c := by
  simp [Heap.read_ctx, hc]

theorem IsList.frame {heap heap' : Heap} {a : Nat} {xs : List Nat}
    (h : IsList heap a xs) (hf : ∀ x ∈ xs, heap'.hdr x = heap.hdr x) :
    IsList heap' a xs := by
  induction xs generalizing a with
  | nil => exact h
  | cons x xs ih =>
    obtain ⟨ha, hx, nx, s, hcell, hrest⟩ := h
    refine ⟨ha, hx, nx, s, ?_, ih hrest (fun y hy => hf y (List.mem_cons_of_mem _ hy))⟩
    rw [hf x (List.mem_cons_self _ _)]; exact hcell

theorem IsList.next_eq {heap : Heap} {x nx s : Nat} {xs : List Nat} {q : Nat} {t : query_type_t}
    (h : IsList heap x (x :: xs)) (hcell : heap.hdr x = some ⟨.data nx, x, s, q, t⟩) :
    IsList heap nx xs := by
  obtain ⟨_, _, nx', s', hcell', hrest⟩ := h
  rw [hcell] at hcell'
  cases hcell'
  exact hrest

/-- Calling `next` on the handle of a static item gives the handle of its
successor and changes nothing. -/
theorem next_static {heap : Heap} {x : Nat} {xs : List Nat} (cfuel : Nat)
    (h : IsList heap x (x :: xs)) :
    ∃ nx, mapper_list_next cfuel heap x = .ok (heap, nx) ∧ IsList heap nx xs := by
  obtain ⟨_, hx, nx, s, hcell, hrest⟩ := h
  refine ⟨nx, ?_, hrest⟩
  unfold mapper_list_next
  rw [if_neg hx, read_hdr_some hcell, bind_ok]
  simp only [hx, if_false]
  by_cases hnx : nx = 0
  · subst hnx; simp
  · have : (next_t.data nx = next_t.data 0) = False := by simp [hnx]
    simp only [this, if_false]
    cases xs with
    | nil => exact absurd hrest hnx
    | cons y ys =>
      obtain ⟨hy, hy0, ny, sy, hcy, _⟩ := hrest
      subst hy
      simp [mapper_list_from_data, hy0, read_hdr_some hcy, bind, Except.bind]

/-- Draining a static list visits its items in order and changes nothing. -/
theorem drain_static {heap : Heap} (cfuel : Nat) :
    ∀ (xs : List Nat) (a : Nat) (fuel : Nat), IsList heap a xs → xs.length < fuel →
      drain fuel cfuel heap a = .ok (heap, xs) := by
  intro xs
  induction xs with
  | nil =>
    intro a fuel h hf
    cases fuel with
    | zero => omega
    | succ n => simp [IsList] at h; simp [drain, h]
  | cons x xs ih =>
    intro a fuel h hf
    cases fuel with
    | zero => omega
    | succ n =>
      have ha : a = x := h.1
      subst ha
      obtain ⟨nx, hnext, hrest⟩ := next_static cfuel h
      obtain ⟨_, hx, nx', s, hcell, _⟩ := h
      unfold drain
      rw [if_neg hx, read_hdr_some hcell]
      simp only [bind_ok, hnext]
      rw [ih nx n hrest (by simpa using hf)]
      rfl

theorem IsList.ne_zero {heap : Heap} {a : Nat} {xs : List Nat} (h : IsList heap a xs) :
    ∀ x ∈ xs, x ≠ 0 := by
  induction xs generalizing a with
  | nil => simp
  | cons y ys ih =>
    obtain ⟨_, hy, nx, s, _, hrest⟩ := h
    intro x hx
    rcases List.mem_cons.1 hx with rfl | hx
    · exact hy
    · exact ih hrest x hx

theorem IsList.live {heap : Heap} {a : Nat} {xs : List Nat} (h : IsList heap a xs) :
    ∀ x ∈ xs, heap.hdr x ≠ none := by
  induction xs generalizing a with
  | nil => simp
  | cons y ys ih =>
    obtain ⟨_, hy, nx, s, hc, hrest⟩ := h
    intro x hx
    rcases List.mem_cons.1 hx with rfl | hx
    · simp [hc]
    · exact ih hrest x hx

theorem IsList.head_eq {heap : Heap} {a x : Nat} {xs : List Nat}
    (h : IsList heap a (x :: xs)) : a = x := h.1

theorem next_internal_of_list {heap : Heap} {x : Nat} {xs : List Nat}
    (h : IsList heap x (x :: xs)) :
    ∃ nx, mapper_list_next_internal heap x = .ok nx ∧ IsList heap nx xs := by
  obtain ⟨_, _, nx, s, hc, hrest⟩ := h
  exact ⟨nx, by simp [mapper_list_next_internal, read_hdr_some hc, bind, Except.bind], hrest⟩

/-- The scan of `remove` over a list that does not hold the item ends at null. -/
theorem scan_absent {heap : Heap} {item : Nat} :
    ∀ (xs : List Nat) (node prev fuel : Nat), IsList heap node xs → item ∉ xs →
      xs.length < fuel →
      mapper_list_remove_item_scan fuel heap item prev node = .ok (xs.getLastD prev, 0) := by
  intro xs
  induction xs with
  | nil =>
    intro node prev fuel h _ hf
    cases fuel with
    | zero => omega
    | succ n => simp [IsList] at h; simp [mapper_list_remove_item_scan, h]
  | cons x xs ih =>
    intro node prev fuel h hni hf
    cases fuel with
    | zero => omega
    | succ n =>
      have hnode : node = x := h.1
      subst hnode
      obtain ⟨nx, hnx, hrest⟩ := next_internal_of_list h
      have hx0 : node ≠ 0 := h.2.1
      have hxi : node ≠ item := fun e => hni (by simp [e])
      unfold mapper_list_remove_item_scan
      rw [if_neg hx0, if_neg hxi, hnx, bind_ok,
        ih nx node n hrest (fun hm => hni (List.mem_cons_of_mem _ hm)) (by simpa using hf),
        List.getLastD_cons]

/-- The scan of `remove` stops at the item, with its predecessor. -/
theorem scan_present {heap : Heap} {item : Nat} {post : List Nat} :
    ∀ (pre : List Nat) (node prev fuel : Nat), IsList heap node (pre ++ item :: post) →
      item ∉ pre → pre.length < fuel →
      mapper_list_remove_item_scan fuel heap item prev node = .ok (pre.getLastD prev, item) := by
  intro pre
  induction pre with
  | nil =>
    intro node prev fuel h _ hf
    cases fuel with
    | zero => omega
    | succ n =>
      have hnode : node = item := h.1
      have h0 : item ≠ 0 := h.2.1
      subst hnode
      simp [mapper_list_remove_item_scan, h0]
  | cons x pre ih =>
    intro node prev fuel h hni hf
    cases fuel with
    | zero => omega
    | succ n =>
      have hnode : node = x := h.1
      subst hnode
      obtain ⟨nx, hnx, hrest⟩ := next_internal_of_list h
      have hx0 : node ≠ 0 := h.2.1
      have hxi : node ≠ item := fun e => hni (by simp [e])
      unfold mapper_list_remove_item_scan
      rw [if_neg hx0, if_neg hxi, hnx, bind_ok,
        ih nx node n hrest (fun hm => hni (List.mem_cons_of_mem _ hm)) (by simpa using hf),
        List.getLastD_cons]

/-- Redirecting the link of the predecessor `p` of `x` to the successor of `x`
takes `x` out of the chain. -/
theorem IsList.unlink {heap : Heap} {p x : Nat} {post : List Nat} :
    ∀ (pre : List Nat) (a : Nat), IsList heap a (pre ++ p :: x :: post) →
      (pre ++ p :: x :: post).Nodup →
      ∃ nx lh, mapper_list_next_internal heap x = .ok nx ∧ heap.hdr p = some lh ∧
        IsList (heap.set_hdr p (some { lh with next := .data nx })) a (pre ++ p :: post) := by
  intro pre
  induction pre with
  | nil =>
    intro a h hnd
    obtain ⟨ha, hp0, np, s, hcp, hrest⟩ := h
    have hnp : np = x := hrest.1
    subst hnp
    obtain ⟨nx, hnx, hpost⟩ := next_internal_of_list hrest
    refine ⟨nx, _, hnx, hcp, ?_⟩
    refine ⟨ha, hp0, nx, s, by simp [Heap.set_hdr], ?_⟩
    refine hpost.frame (fun y hy => ?_)
    have hyp : y ≠ p := by
      rintro rfl
      simp only [List.nil_append, List.nodup_cons, List.mem_cons] at hnd
      exact hnd.1 (Or.inr hy)
    simp [Heap.set_hdr, hyp]
  | cons q pre ih =>
    intro a h hnd
    obtain ⟨ha, hq0, nq, s, hcq, hrest⟩ := h
    have hnd' : (pre ++ p :: x :: post).Nodup := (List.nodup_cons.1 hnd).2
    obtain ⟨nx, lh, hnx, hcp, hl⟩ := ih nq hrest hnd'
    refine ⟨nx, lh, hnx, hcp, ha, hq0, nq, s, ?_, hl⟩
    have hqp : q ≠ p := by
      rintro rfl
      exact (List.nodup_cons.1 hnd).1 (by simp)
    simp [Heap.set_hdr, hqp, hcq]

theorem StaticInv.addr_le_brk {heap : Heap} {head : Nat} {l det : List Nat}
    (hinv : StaticInv heap head l det) {a : Nat} (ha : heap.hdr a ≠ none) : a ≤ heap.brk := by
  by_contra hlt
  exact ha (hinv.2.2.1 a (by omega))

theorem add_step {heap : Heap} {head : Nat} {l det : List Nat} (size : Nat)
    (hinv : StaticInv heap head l det) :
    ∃ heap', mapper_list_add_item heap head size = .ok (heap', heap.brk + 1, heap.brk + 1) ∧
      heap'.brk = heap.brk + 1 ∧ StaticInv heap' (heap.brk + 1) ((heap.brk + 1) :: l) det := by
  have hfresh : ∀ a, heap.hdr a ≠ none → a ≠ heap.brk + 1 := fun a ha e => by
    have := hinv.addr_le_brk ha
    omega
  obtain ⟨hl, hnd, hbrk, hdn, hdet⟩ := hinv
  refine ⟨(heap.malloc_hdr ⟨.data 0, heap.brk + 1, heap.brk + 1, 0, .QUERY_STATIC⟩).1.set_hdr
    (heap.brk + 1) (some ⟨.data head, heap.brk + 1, heap.brk + 1, 0, .QUERY_STATIC⟩), ?_, ?_, ?_⟩
  · simp [mapper_list_add_item, mapper_list_new_item, Heap.malloc_hdr,
      mapper_list_prepend_item, mapper_list_set_next, Heap.read_hdr, bind, Except.bind]
  · rfl
  · refine ⟨⟨rfl, by omega, head, heap.brk + 1, by simp [Heap.set_hdr, Heap.malloc_hdr], ?_⟩, ?_, ?_, hdn, ?_⟩
    · refine hl.frame (fun x hx => ?_)
      have := hfresh x (hl.live x hx)
      simp [Heap.set_hdr, Heap.malloc_hdr, this]
    · refine List.nodup_cons.2 ⟨fun hm => hfresh _ (hl.live _ hm) rfl, hnd⟩
    · intro a ha
      have ha' : heap.brk < a := by simp only [Heap.set_hdr, Heap.malloc_hdr] at ha; omega
      have hne : a ≠ heap.brk + 1 := by simp only [Heap.set_hdr, Heap.malloc_hdr] at ha; omega
      simp [Heap.set_hdr, Heap.malloc_hdr, hne, hbrk a ha']
    · intro a ha
      obtain ⟨h1, h2, h3⟩ := hdet a ha
      have hne := hfresh a h3
      refine ⟨?_, h2, ?_⟩
      · simp [hne, h1]
      · simp [Heap.set_hdr, Heap.malloc_hdr, hne, h3]

theorem remove_step {heap : Heap} {head : Nat} {l det : List Nat} (item : Nat) (fuel : Nat)
    (hinv : StaticInv heap head l det) (hf : l.length < fuel) :
    ∃ heap' head', mapper_list_remove_item fuel heap head item = .ok (heap', head') ∧
      heap'.brk = heap.brk ∧
      StaticInv heap' head' (l.erase item) (if item ∈ l then item :: det else det) ∧
      (item ∉ l → heap' = heap ∧ head' = head) := by
  obtain ⟨hl, hnd, hbrk, hdn, hdet⟩ := hinv
  by_cases hmem : item ∈ l
  · obtain ⟨pre, post, hsplit, hnpre⟩ := List.eq_append_cons_of_mem hmem
    subst hsplit
    have hlen : pre.length < fuel := by
      simp only [List.length_append, List.length_cons] at hf; omega
    have hscan := scan_present pre head 0 fuel hl hnpre hlen
    have herase : (pre ++ item :: post).erase item = pre ++ post := by
      rw [List.erase_append_right _ hnpre]; simp
    have hi0 : item ≠ 0 := hl.ne_zero item hmem
    have hnpost : item ∉ post := by
      have := (List.nodup_append.1 hnd).2.1
      exact (List.nodup_cons.1 this).1
    have hnd' : (pre ++ post).Nodup := by
      have := List.nodup_append.1 hnd
      refine List.nodup_append.2 ⟨this.1, (List.nodup_cons.1 this.2.1).2, ?_⟩
      intro a ha hb
      exact this.2.2 ha (List.mem_cons_of_mem _ hb)
    have hdet' : ∀ (hp : Heap), (∀ a, hp.hdr a ≠ none ↔ heap.hdr a ≠ none) →
        ∀ a ∈ item :: det, a ∉ pre ++ post ∧ a ≠ 0 ∧ hp.hdr a ≠ none := by
      intro hp hlive a ha
      rcases List.mem_cons.1 ha with rfl | ha
      · exact ⟨by simp [hnpre, hnpost], hi0, (hlive _).2 (hl.live _ hmem)⟩
      · obtain ⟨h1, h2, h3⟩ := hdet a ha
        refine ⟨fun hm => h1 ?_, h2, (hlive _).2 h3⟩
        rcases List.mem_append.1 hm with hm | hm
        · exact List.mem_append_left _ hm
        · exact List.mem_append_right _ (List.mem_cons_of_mem _ hm)
    have hdn' : (item :: det).Nodup :=
      List.nodup_cons.2 ⟨fun hm => (hdet item hm).1 hmem, hdn⟩
    rcases List.eq_nil_or_concat pre with hpre | ⟨pre', p, hpre⟩
    · subst hpre
      have hhead : head = item := hl.1
      subst hhead
      obtain ⟨nx, hnx, hpost⟩ := next_internal_of_list hl
      refine ⟨heap, nx, ?_, rfl, ?_, fun h => absurd hmem h⟩
      · simp only [mapper_list_remove_item, hscan, bind_ok, List.getLastD_nil, hnx]
        simp [hi0]
      · rw [if_pos hmem, herase]
        exact ⟨hpost, hnd', hbrk, hdn', hdet' heap (fun _ => Iff.rfl)⟩
    · rw [List.concat_eq_append] at hpre
      subst hpre
      have hl' : IsList heap head (pre' ++ p :: item :: post) := by simpa using hl
      have hnd2 : (pre' ++ p :: item :: post).Nodup := by simpa using hnd
      obtain ⟨nx, lh, hnx, hcp, hnew⟩ := IsList.unlink pre' head hl' hnd2
      have hp0 : p ≠ 0 := hl.ne_zero p (by simp)
      refine ⟨heap.set_hdr p (some { lh with next := .data nx }), head, ?_, ?_, ?_,
        fun h => absurd hmem h⟩
      · simp only [mapper_list_remove_item, hscan, bind_ok, hnx, mapper_list_set_next,
          read_hdr_some hcp]
        simp [hi0, hp0, read_hdr_some hcp, bind, Except.bind]
      · rfl
      · rw [if_pos hmem, herase]
        refine ⟨by simpa using hnew, hnd', ?_, hdn', hdet' _ ?_⟩
        · intro a ha
          have hap : a ≠ p := by
            rintro rfl
            have := hbrk a ha
            simp [hcp] at this
          simp only [Heap.set_hdr, hap, if_false]
          exact hbrk a ha
        · intro a
          by_cases hap : a = p
          · subst hap; simp [Heap.set_hdr, hcp]
          · simp [Heap.set_hdr, hap]
  · have hscan := scan_absent l head 0 fuel hl hmem hf
    refine ⟨heap, head, ?_, rfl, ?_, fun _ => ⟨rfl, rfl⟩⟩
    · simp [mapper_list_remove_item, hscan, bind, Except.bind]
    · rw [if_neg hmem, List.erase_of_not_mem hmem]
      exact ⟨hl, hnd, hbrk, hdn, hdet⟩

theorem free_step {heap : Heap} {head : Nat} {l det : List Nat} (item : Nat)
    (hinv : StaticInv heap head l det) (hok : item = 0 ∨ item ∈ det) :
    ∃ heap', mapper_list_free_item heap item = .ok heap' ∧ heap'.brk = heap.brk ∧
      StaticInv heap' head l (det.erase item) := by
  obtain ⟨hl, hnd, hbrk, hdn, hdet⟩ := hinv
  by_cases h0 : item = 0
  · subst h0
    refine ⟨heap, by simp [mapper_list_free_item], rfl, hl, hnd, hbrk, hdn.erase _, ?_⟩
    intro a ha
    exact hdet a (List.mem_of_mem_erase ha)
  · have hmem : item ∈ det := hok.resolve_left h0
    obtain ⟨h1, _, h3⟩ := hdet item hmem
    obtain ⟨c, hc⟩ := Option.ne_none_iff_exists'.1 h3
    refine ⟨heap.set_hdr item none, ?_, rfl, ?_, hnd, ?_, hdn.erase _, ?_⟩
    · simp [mapper_list_free_item, h0, Heap.free_hdr, hc]
    · refine hl.frame (fun x hx => ?_)
      have : x ≠ item := fun e => h1 (e ▸ hx)
      simp [Heap.set_hdr, this]
    · intro a ha
      by_cases hai : a = item
      · simp [Heap.set_hdr, hai]
      · simp only [Heap.set_hdr, hai, if_false]
        exact hbrk a ha
    · intro a ha
      have hne : a ≠ item := fun e => by
        subst e
        exact (List.Nodup.mem_erase_iff hdn).1 ha |>.1 rfl
      obtain ⟨g1, g2, g3⟩ := hdet a (List.mem_of_mem_erase ha)
      exact ⟨g1, g2, by simp [Heap.set_hdr, hne, g3]⟩

theorem survivors_length (ops : List ItemOp) :
    ∀ (n : Nat) (l : List Nat), (survivors n l ops).length ≤ l.length + ops.length := by
  induction ops with
  | nil => intro n l; simp [survivors]
  | cons op ops ih =>
    intro n l
    cases op with
    | add size =>
      have := ih (n + 1) ((n + 1) :: l)
      simp only [survivors, List.length_cons] at this ⊢
      omega
    | remove item =>
      have := ih n (l.erase item)
      have hle := List.length_erase_le item l
      simp only [survivors, List.length_cons] at this ⊢
      omega
    | free_item item =>
      have := ih n l
      simp only [survivors, List.length_cons] at this ⊢
      omega

/-- Running a sequence of operations keeps the state of the static list in
step with the list of survivors. -/
theorem run_ops_spec (fuel : Nat) (ops : List ItemOp) :
    ∀ (heap : Heap) (head : Nat) (l det : List Nat), StaticInv heap head l det →
      frees_ok heap.brk l det ops → l.length + ops.length < fuel →
      ∃ heap' head' det', run_ops fuel heap head ops = .ok (heap', head') ∧
        StaticInv heap' head' (survivors heap.brk l ops) det' := by
  induction ops with
  | nil =>
    intro heap head l det hinv _ _
    exact ⟨heap, head, det, rfl, hinv⟩
  | cons op ops ih =>
    intro heap head l det hinv hok hf
    simp only [List.length_cons] at hf
    cases op with
    | add size =>
      obtain ⟨heap1, hrun, hb, hinv1⟩ := add_step size hinv
      have hok1 : frees_ok heap1.brk ((heap.brk + 1) :: l) det ops := by
        rw [hb]; exact hok
      obtain ⟨heap', head', det', hrun', hinv'⟩ :=
        ih heap1 (heap.brk + 1) ((heap.brk + 1) :: l) det hinv1 hok1
          (by simp only [List.length_cons]; omega)
      refine ⟨heap', head', det', ?_, ?_⟩
      · simp only [run_ops, hrun, bind_ok]; exact hrun'
      · simpa only [survivors, hb] using hinv'
    | remove item =>
      obtain ⟨heap1, head1, hrun, hb, hinv1, _⟩ := remove_step item fuel hinv (by omega)
      have hok1 : frees_ok heap1.brk (l.erase item) (if item ∈ l then item :: det else det) ops := by
        rw [hb]; exact hok
      have hle := List.length_erase_le item l
      obtain ⟨heap', head', det', hrun', hinv'⟩ :=
        ih heap1 head1 (l.erase item) _ hinv1 hok1 (by omega)
      refine ⟨heap', head', det', ?_, ?_⟩
      · simp only [run_ops, hrun, bind_ok]; exact hrun'
      · simpa only [survivors, hb] using hinv'
    | free_item item =>
      obtain ⟨heap1, hrun, hb, hinv1⟩ := free_step item hinv hok.1
      have hok1 : frees_ok heap1.brk l (det.erase item) ops := by
        rw [hb]; exact hok.2
      obtain ⟨heap', head', det', hrun', hinv'⟩ :=
        ih heap1 head l _ hinv1 hok1 (by omega)
      refine ⟨heap', head', det', ?_, ?_⟩
      · simp only [run_ops, hrun, bind_ok]; exact hrun'
      · simpa only [survivors, hb] using hinv'

theorem from_data_of_list {heap : Heap} {head : Nat} {l : List Nat} (h : IsList heap head l) :
    mapper_list_from_data heap head = .ok head := by
  cases l with
  | nil => simp [IsList] at h; simp [mapper_list_from_data, h]
  | cons x xs =>
    obtain ⟨hx, h0, nx, s, hc, _⟩ := h
    subst hx
    simp [mapper_list_from_data, h0, read_hdr_some hc, bind, Except.bind]

/-- C2: for any sequence of add and remove operations on a static list head,
with `free_item` applied only to items removed before, the sequence runs, and
iterating from the head with `next` visits exactly the items that were added
and not removed afterwards, each once, most recently added first; removing an
item that is not in the list leaves the heap and the head unchanged. -/
theorem static_list_add_remove (heap : Heap) (head : Nat) (l det : List Nat)
    (ops : List ItemOp) (hinv : StaticInv heap head l det)
    (hok : frees_ok heap.brk l det ops) :
    (survivors heap.brk l ops).Nodup ∧
    (∀ fuel, l.length + ops.length < fuel →
      ∃ heap' head', run_ops fuel heap head ops = .ok (heap', head') ∧
        mapper_list_from_data heap' head' = .ok head' ∧
        drain fuel fuel heap' head' = .ok (heap', survivors heap.brk l ops)) ∧
    (∀ fuel item, l.length < fuel → item ∉ l →
      mapper_list_remove_item fuel heap head item = .ok (heap, head)) := by
  refine ⟨?_, ?_, ?_⟩
  · obtain ⟨_, _, _, _, hinv'⟩ :=
      run_ops_spec (l.length + ops.length + 1) ops heap head l det hinv hok (by omega)
    exact hinv'.2.1
  · intro fuel hf
    obtain ⟨heap', head', det', hrun, hinv'⟩ := run_ops_spec fuel ops heap head l det hinv hok hf
    refine ⟨heap', head', hrun, from_data_of_list hinv'.1, ?_⟩
    have := survivors_length ops heap.brk l
    exact drain_static fuel _ head' fuel hinv'.1 (by omega)
  · intro fuel item hf hni
    obtain ⟨heap1, head1, hrun, _, _, hsame⟩ := remove_step item fuel hinv hf
    obtain ⟨e1, e2⟩ := hsame hni
    rw [hrun, e1, e2]

/-- C2 at the empty heap: add three items, remove the second, free it, remove
it once more; the items 3 and 1 are left, the last added first. -/
theorem static_list_add_remove_witness :
    StaticInv Heap.empty 0 [] [] ∧
    frees_ok Heap.empty.brk [] []
      [.add 4, .add 4, .add 4, .remove 2, .free_item 2, .remove 2] ∧
    ∃ heap' head', run_ops 7 Heap.empty 0
        [.add 4, .add 4, .add 4, .remove 2, .free_item 2, .remove 2] = .ok (heap', head') ∧
      drain 7 7 heap' head' = .ok (heap', [3, 1]) := by
  have hinv : StaticInv Heap.empty 0 [] [] :=
    ⟨rfl, List.nodup_nil, fun _ _ => rfl, List.nodup_nil, by simp⟩
  have hok : frees_ok Heap.empty.brk [] []
      [.add 4, .add 4, .add 4, .remove 2, .free_item 2, .remove 2] := by
    simp [frees_ok, Heap.empty]
  obtain ⟨_, hrun, _⟩ := static_list_add_remove Heap.empty 0 [] []
    [.add 4, .add 4, .add 4, .remove 2, .free_item 2, .remove 2] hinv hok
  obtain ⟨heap', head', h1, _, h3⟩ := hrun 7 (by decide)
  exact ⟨hinv, hok, heap', head', h1, h3⟩

/-! ## Bytes -/

theorem le_bytes_length (k : Nat) : ∀ v, (le_bytes k v).length = k := by
  induction k with
  | zero => intro v; rfl
  | succ k ih => intro v; simp [le_bytes, ih]

theorem le_val_le_bytes (k : Nat) : ∀ v, le_val (le_bytes k v) = v % 256 ^ k := by
  induction k with
  | zero => intro v; simp [le_bytes, le_val, Nat.mod_one]
  | succ k ih =>
    intro v
    simp only [le_bytes, le_val, ih]
    rw [pow_succ, mul_comm (256 ^ k) 256, Nat.mod_mul]

theorem ptr_bytes_length (p : Nat) : (ptr_bytes p).length = 8 := le_bytes_length 8 p

theorem int_bytes_length (v : Int) : (int_bytes v).length = 4 := le_bytes_length 4 _

theorem le_val_ptr_bytes {p : Nat} (hp : p < 2 ^ 64) : le_val (ptr_bytes p) = p := by
  rw [ptr_bytes, le_val_le_bytes]
  exact Nat.mod_eq_of_lt (by norm_num at hp ⊢; exact hp)

theorem read_ptr_fst {a b rest : List Nat} (ha : a.length = 8) :
    read_ptr (a ++ b ++ rest) 0 = .ok (le_val a) := by
  have h1 : 0 + 8 ≤ (a ++ b ++ rest).length := by
    simp only [List.length_append, ha]; omega
  rw [read_ptr, if_pos h1, List.drop_zero, List.append_assoc, List.take_left' ha]

theorem read_ptr_snd {a b rest : List Nat} (ha : a.length = 8) (hb : b.length = 8) :
    read_ptr (a ++ b ++ rest) 8 = .ok (le_val b) := by
  have h1 : 8 + 8 ≤ (a ++ b ++ rest).length := by
    simp only [List.length_append, ha, hb]; omega
  rw [read_ptr, if_pos h1, List.append_assoc, List.drop_left' ha, List.take_left' hb]

theorem read_int_third {a b c : List Nat} (ha : a.length = 8) (hb : b.length = 8)
    (hc : c.length = 4) : read_int (a ++ b ++ c) 16 = .ok (le_val c) := by
  have h1 : 16 + 4 ≤ (a ++ b ++ c).length := by simp [ha, hb, hc]
  have h2 : (a ++ b).length = 16 := by simp [ha, hb]
  rw [read_int, if_pos h1, List.drop_left' h2, List.take_of_length_le (by omega)]

theorem le_val_int_bytes_op {op : Nat} (h : op ≤ 2) : le_val (int_bytes (op : Int)) = op := by
  interval_cases op <;> rfl

/-! ## Query trees -/

theorem QTree.holds_root {heap : Heap} {t : QTree} (h : t.holds heap) :
    ∃ hd, heap.hdr t.root = some hd ∧ hd.query_context = t.ctx := by
  cases t with
  | leaf lh qc f data => exact h.2.2.1
  | node lh qc op l r => exact h.2.2.1

theorem QTree.root_ne_zero {heap : Heap} {t : QTree} (h : t.holds heap) : t.root ≠ 0 := by
  cases t with
  | leaf lh qc f data => exact h.1
  | node lh qc op l r => exact h.1

theorem QTree.ctx_ne_zero {heap : Heap} {t : QTree} (h : t.holds heap) : t.ctx ≠ 0 := by
  cases t with
  | leaf lh qc f data => exact h.2.1
  | node lh qc op l r => exact h.2.1

theorem QTree.root_mem_hdrs (t : QTree) : t.root ∈ t.hdrs := by
  cases t <;> simp [QTree.root, QTree.hdrs]

theorem QTree.ctx_mem_ctxs (t : QTree) : t.ctx ∈ t.ctxs := by
  cases t <;> simp [QTree.ctx, QTree.ctxs]

/-- The predicate stored in the heap for a tree computes the predicate of the
tree, given fuel for its depth. -/
theorem QTree.eval {heap : Heap} :
    ∀ (t : QTree) (fuel : Nat), t.holds heap → t.depth ≤ fuel → ∀ x,
      call_query_compare (cmp_parallel_query fuel) heap t.ctx x = .ok (t.sem x) := by
  intro t
  induction t with
  | leaf lh qc f data =>
    intro fuel h _ x
    obtain ⟨_, _, _, hc⟩ := h
    simp [call_query_compare, QTree.ctx, read_ctx_some hc, QTree.sem, bind, Except.bind]
  | node lh qc op l r ihl ihr =>
    intro fuel h hd x
    obtain ⟨_, _, _, hc, hl64, hr64, hop, hl, hr⟩ := h
    cases fuel with
    | zero => simp [QTree.depth] at hd
    | succ n =>
      have hdl : l.depth ≤ n := by simp only [QTree.depth] at hd; omega
      have hdr : r.depth ≤ n := by simp only [QTree.depth] at hd; omega
      obtain ⟨h1, hh1, hq1⟩ := l.holds_root hl
      obtain ⟨h2, hh2, hq2⟩ := r.holds_root hr
      have e1 := ihl n hl hdl x
      have e2 := ihr n hr hdr x
      have hctx : (QTree.node lh qc op l r).ctx = qc := rfl
      unfold call_query_compare
      rw [hctx]
      simp only [read_ctx_some hc, bind_ok, cmp_parallel_query,
        read_ptr_fst (ptr_bytes_length _), read_ptr_snd (ptr_bytes_length _) (ptr_bytes_length _),
        read_int_third (ptr_bytes_length _) (ptr_bytes_length _) (int_bytes_length _),
        le_val_ptr_bytes hl64, le_val_ptr_bytes hr64, le_val_int_bytes_op hop,
        read_hdr_some hh1, read_hdr_some hh2, hq1, hq2]
      rw [e1]
      simp only [bind_ok, e2, QTree.sem]
      have hops : op = 0 ∨ op = 1 ∨ op = 2 := by omega
      rcases hops with rfl | rfl | rfl <;>
        cases l.sem x <;> cases r.sem x <;>
          simp [OP_UNION, OP_INTERSECTION, OP_DIFFERENCE, bind, Except.bind]

/-- A heap that keeps the contexts of a tree and the context pointers of its
headers holds the tree. -/
theorem QTree.holds_frame {heap heap' : Heap} :
    ∀ (t : QTree), t.holds heap →
      (∀ a ∈ t.hdrs, ∀ h, heap.hdr a = some h →
        ∃ h', heap'.hdr a = some h' ∧ h'.query_context = h.query_context) →
      (∀ a ∈ t.ctxs, heap'.ctx a = heap.ctx a) → t.holds heap' := by
  intro t
  induction t with
  | leaf lh qc f data =>
    intro h hh hc
    obtain ⟨h1, h2, ⟨hd, hhd, hq⟩, h4⟩ := h
    obtain ⟨hd', hhd', hq'⟩ := hh lh (by simp [QTree.hdrs]) hd hhd
    exact ⟨h1, h2, ⟨hd', hhd', hq'.trans hq⟩, by rw [hc qc (by simp [QTree.ctxs])]; exact h4⟩
  | node lh qc op l r ihl ihr =>
    intro h hh hc
    obtain ⟨h1, h2, ⟨hd, hhd, hq⟩, h4, h5, h6, h7, hl, hr⟩ := h
    obtain ⟨hd', hhd', hq'⟩ := hh lh (by simp [QTree.hdrs]) hd hhd
    refine ⟨h1, h2, ⟨hd', hhd', hq'.trans hq⟩, by rw [hc qc (by simp [QTree.ctxs])]; exact h4,
      h5, h6, h7, ?_, ?_⟩
    · exact ihl hl (fun a ha => hh a (by simp [QTree.hdrs, ha]))
        (fun a ha => hc a (by simp [QTree.ctxs, ha]))
    · exact ihr hr (fun a ha => hh a (by simp [QTree.hdrs, ha]))
        (fun a ha => hc a (by simp [QTree.ctxs, ha]))

theorem Freed.holds_other {heap heap' : Heap} {hdrs ctxs : List Nat} (hf : Freed heap heap' hdrs ctxs)
    {t : QTree} (h : t.holds heap) (hh : ∀ a ∈ t.hdrs, a ∉ hdrs) (hc : ∀ a ∈ t.ctxs, a ∉ ctxs) :
    t.holds heap' := by
  refine t.holds_frame h (fun a ha hd hhd => ⟨hd, ?_, rfl⟩) (fun a ha => ?_)
  · rw [hf.2.1 a, if_neg (hh a ha)]; exact hhd
  · rw [hf.2.2 a, if_neg (hc a ha)]

/-- Releasing a tree whose headers and contexts are pairwise distinct succeeds
and releases exactly its headers and contexts. -/
theorem free_spec :
    ∀ (t : QTree) (fuel : Nat) (heap : Heap), t.holds heap → t.hdrs.Nodup → t.ctxs.Nodup →
      t.depth < fuel →
      ∃ heap', free_query_single_context fuel heap t.root = .ok heap' ∧
        Freed heap heap' t.hdrs t.ctxs := by
  intro t
  induction t with
  | leaf lh qc f data =>
    intro fuel heap h _ _ hd
    obtain ⟨_, _, ⟨hdr, hhdr, hq⟩, hc⟩ := h
    cases fuel with
    | zero => omega
    | succ n =>
      refine ⟨(heap.set_ctx qc none).set_hdr lh none, ?_, rfl, ?_, ?_⟩
      · simp [free_query_single_context, QTree.root, read_hdr_some hhdr, hq, read_ctx_some hc,
          Heap.free_ctx, hc, Heap.free_hdr, Heap.set_ctx, hhdr, bind, Except.bind]
      · intro a; simp [Heap.set_hdr, Heap.set_ctx, QTree.hdrs]
      · intro a; simp [Heap.set_hdr, Heap.set_ctx, QTree.ctxs]
  | node lh qc op l r ihl ihr =>
    intro fuel heap h hnh hnc hd
    obtain ⟨_, _, ⟨hdr, hhdr, hq⟩, hc, hl64, hr64, hop, hl, hr⟩ := h
    cases fuel with
    | zero => omega
    | succ n =>
      have hdl : l.depth < n := by simp only [QTree.depth] at hd; omega
      have hdr' : r.depth < n := by simp only [QTree.depth] at hd; omega
      simp only [QTree.hdrs, List.nodup_cons, List.mem_append, not_or] at hnh
      simp only [QTree.ctxs, List.nodup_cons, List.mem_append, not_or] at hnc
      obtain ⟨⟨hlh1, hlh2⟩, hnh'⟩ := hnh
      obtain ⟨⟨hqc1, hqc2⟩, hnc'⟩ := hnc
      have hnhl := (List.nodup_append.1 hnh').1
      have hnhr := (List.nodup_append.1 hnh').2.1
      have hdh := (List.nodup_append.1 hnh').2.2
      have hncl := (List.nodup_append.1 hnc').1
      have hncr := (List.nodup_append.1 hnc').2.1
      have hdc := (List.nodup_append.1 hnc').2.2
      obtain ⟨heap1, hfree1, hF1⟩ := ihl n heap hl hnhl hncl hdl
      have hr1 : r.holds heap1 :=
        hF1.holds_other hr (fun a ha hb => hdh hb ha) (fun a ha hb => hdc hb ha)
      obtain ⟨heap2, hfree2, hF2⟩ := ihr n heap1 hr1 hnhr hncr hdr'
      have hh2 : heap2.hdr lh = some hdr := by
        rw [hF2.2.1 lh, if_neg hlh2, hF1.2.1 lh, if_neg hlh1]; exact hhdr
      have hc2 : heap2.ctx qc = heap.ctx qc := by
        rw [hF2.2.2 qc, if_neg hqc2, hF1.2.2 qc, if_neg hqc1]
      refine ⟨(heap2.set_ctx qc none).set_hdr lh none, ?_, ?_, ?_, ?_⟩
      · have hroot : (QTree.node lh qc op l r).root = lh := rfl
        rw [hroot]
        simp only [free_query_single_context, read_hdr_some hhdr, hq,
          read_ctx_some hc, bind_ok, read_ptr_fst (ptr_bytes_length _),
          read_ptr_snd (ptr_bytes_length _) (ptr_bytes_length _),
          le_val_ptr_bytes hl64, le_val_ptr_bytes hr64, hfree1, hfree2, read_hdr_some hh2]
        simp [Heap.free_ctx, hc2, hc, Heap.free_hdr, Heap.set_ctx, hh2, bind, Except.bind]
      · show heap2.brk = heap.brk
        rw [hF2.1, hF1.1]
      · intro a
        simp only [Heap.set_hdr, Heap.set_ctx, QTree.hdrs, List.mem_cons, List.mem_append]
        by_cases ha : a = lh
        · simp [ha]
        · simp only [ha, if_false, false_or, hF2.2.1 a, hF1.2.1 a]
          by_cases hal : a ∈ l.hdrs <;> by_cases har : a ∈ r.hdrs <;> simp [hal, har]
      · intro a
        simp only [Heap.set_hdr, Heap.set_ctx, QTree.ctxs, List.mem_cons, List.mem_append]
        by_cases ha : a = qc
        · simp [ha]
        · simp only [ha, if_false, false_or, hF2.2.2 a, hF1.2.2 a]
          by_cases hal : a ∈ l.ctxs <;> by_cases har : a ∈ r.ctxs <;> simp [hal, har]

theorem IsList.suffix {heap : Heap} {y : Nat} {post : List Nat} :
    ∀ (pre : List Nat) (a : Nat), IsList heap a (pre ++ y :: post) → IsList heap y (y :: post) := by
  intro pre
  induction pre with
  | nil => intro a h; have e : a = y := h.1; subst e; exact h
  | cons x pre ih =>
    intro a h
    obtain ⟨_, _, nx, s, _, hrest⟩ := h
    exact ih nx hrest

theorem dropWhile_not_nil {p : Nat → Bool} :
    ∀ (rest : List Nat), rest.dropWhile (fun x => !p x) = [] → rest.filter p = [] := by
  intro rest
  induction rest with
  | nil => intro _; rfl
  | cons x xs ih =>
    intro h
    cases hp : p x with
    | true => simp [List.dropWhile, hp] at h
    | false =>
      simp only [List.dropWhile, hp, Bool.not_false] at h
      simp [List.filter, hp, ih h]

theorem dropWhile_not_cons {p : Nat → Bool} {y : Nat} {post : List Nat} :
    ∀ (rest : List Nat), rest.dropWhile (fun x => !p x) = y :: post →
      p y = true ∧ rest.filter p = y :: post.filter p ∧ post.length < rest.length ∧
        ∃ pre, rest = pre ++ y :: post := by
  intro rest
  induction rest with
  | nil => intro h; simp at h
  | cons x xs ih =>
    intro h
    cases hp : p x with
    | true =>
      simp only [List.dropWhile, hp, Bool.not_true] at h
      obtain ⟨rfl, rfl⟩ := List.cons.inj h
      exact ⟨hp, by simp [List.filter, hp], by simp, [], rfl⟩
    | false =>
      simp only [List.dropWhile, hp, Bool.not_false] at h
      obtain ⟨h1, h2, h3, pre, h4⟩ := ih h
      exact ⟨h1, by simp [List.filter, hp, h2], by simp only [List.length_cons]; omega,
        x :: pre, by rw [h4]; rfl⟩

/-- The loop of the continuation stops at the first item of the chain that
satisfies the predicate, or at null. -/
theorem continuation_loop_spec {heap : Heap} {lh : Nat} {h : mapper_list_header_t}
    (p : Nat → Bool) (cfuel : Nat) (hh : heap.hdr lh = some h)
    (hev : ∀ x, call_query_compare (cmp_parallel_query cfuel) heap h.query_context x
      = .ok (p x)) :
    ∀ (xs : List Nat) (item fuel : Nat), IsList heap item xs → xs.length < fuel →
      mapper_list_query_continuation_loop fuel cfuel heap lh item =
        .ok ((xs.dropWhile (fun x => !p x)).headD 0) := by
  intro xs
  induction xs with
  | nil =>
    intro item fuel hl hf
    cases fuel with
    | zero => omega
    | succ n => simp [IsList] at hl; simp [mapper_list_query_continuation_loop, hl]
  | cons x xs ih =>
    intro item fuel hl hf
    cases fuel with
    | zero => omega
    | succ n =>
      have hx : item = x := hl.1
      subst hx
      have h0 : item ≠ 0 := hl.2.1
      obtain ⟨nx, hnx, hrest⟩ := next_internal_of_list hl
      unfold mapper_list_query_continuation_loop
      rw [if_neg h0]
      simp only [read_hdr_some hh, bind_ok, hev item]
      cases hp : p item with
      | true => simp [List.dropWhile, hp]
      | false =>
        simp only [hnx, bind_ok, List.dropWhile, hp, Bool.not_false]
        simpa using ih nx n hrest (by simpa using hf)

theorem IsList.cell {heap : Heap} {a : Nat} {xs : List Nat} (h : IsList heap a xs) :
    ∀ x ∈ xs, ∃ nx s, heap.hdr x = some ⟨.data nx, x, s, 0, .QUERY_STATIC⟩ := by
  induction xs generalizing a with
  | nil => simp
  | cons y ys ih =>
    obtain ⟨_, _, nx, s, hc, hrest⟩ := h
    intro x hx
    rcases List.mem_cons.1 hx with rfl | hx
    · exact ⟨nx, s, hc⟩
    · exact ih hrest x hx

theorem QTree.holds_ctx_free {heap : Heap} {t : QTree} (h : t.holds heap) :
    ∃ c, heap.ctx t.ctx = some c ∧ c.query_free = .free_query_single_context := by
  cases t with
  | leaf lh qc f data => exact ⟨_, h.2.2.2, rfl⟩
  | node lh qc op l r => exact ⟨_, h.2.2.2.1, rfl⟩

theorem DynAt.root_not_item {heap : Heap} {t : QTree} {self start : Nat} {rest : List Nat}
    (h : DynAt heap t self start rest) : ∀ x ∈ self :: rest, x ≠ t.root := by
  intro x hx e
  obtain ⟨nx, s, hc⟩ := h.2.2.2.2.cell x hx
  rw [e, h.1] at hc
  cases hc

/-- Moving the cursor of a dynamic handle keeps the handle. -/
theorem DynAt.move {heap : Heap} {t : QTree} {self start : Nat} {rest : List Nat}
    (h : DynAt heap t self start rest) {pre post : List Nat} {y : Nat}
    (hsplit : rest = pre ++ y :: post) :
    DynAt (heap.set_hdr t.root
      (some ⟨.mapper_list_query_continuation, y, start, t.ctx, .QUERY_DYNAMIC⟩)) t y start post := by
  have hni := h.root_not_item
  obtain ⟨hroot, hholds, hn1, hn2, hl⟩ := h
  refine ⟨by simp [Heap.set_hdr], ?_, hn1, hn2, ?_⟩
  · refine t.holds_frame hholds (fun a _ hd hhd => ?_) (fun a _ => rfl)
    by_cases ha : a = t.root
    · subst ha
      rw [hroot] at hhd
      cases hhd
      exact ⟨⟨.mapper_list_query_continuation, y, start, t.ctx, .QUERY_DYNAMIC⟩,
        by simp [Heap.set_hdr], rfl⟩
    · exact ⟨hd, by simp [Heap.set_hdr, ha, hhd], rfl⟩
  · have hs : IsList heap y (y :: post) := by
      subst hsplit
      exact IsList.suffix (self :: pre) self hl
    refine hs.frame (fun x hx => ?_)
    have : x ≠ t.root := hni x (by
      subst hsplit
      rcases List.mem_cons.1 hx with rfl | hx
      · simp
      · simp [hx])
    simp [Heap.set_hdr, this]

/-- One call of the continuation on a dynamic handle: it moves the cursor to
the next item that satisfies the predicate, or releases the handle when there
is none. -/
theorem continuation_spec {heap : Heap} {t : QTree} {self start : Nat} {rest : List Nat}
    (cfuel : Nat) (h : DynAt heap t self start rest) (hf : rest.length + t.depth + 1 < cfuel) :
    (rest.dropWhile (fun x => !t.sem x) = [] →
      ∃ heap', mapper_list_query_continuation cfuel heap t.root = .ok (heap', 0) ∧
        Freed heap heap' t.hdrs t.ctxs) ∧
    (∀ y post, rest.dropWhile (fun x => !t.sem x) = y :: post →
      mapper_list_query_continuation cfuel heap t.root =
        .ok (heap.set_hdr t.root
          (some ⟨.mapper_list_query_continuation, y, start, t.ctx, .QUERY_DYNAMIC⟩), t.root)) := by
  obtain ⟨hroot, hholds, hn1, hn2, hl⟩ := h
  obtain ⟨nx, hnx, hrest⟩ := next_internal_of_list hl
  have hloop := continuation_loop_spec (h := ⟨.mapper_list_query_continuation, self, start,
    t.ctx, .QUERY_DYNAMIC⟩) t.sem cfuel hroot
    (fun x => t.eval cfuel hholds (by omega) x) rest nx cfuel hrest (by omega)
  constructor
  · intro hnil
    obtain ⟨heap', hfree, hF⟩ := free_spec t cfuel heap hholds hn1 hn2 (by omega)
    obtain ⟨c, hc, hcf⟩ := QTree.holds_ctx_free hholds
    refine ⟨heap', ?_, hF⟩
    simp only [mapper_list_query_continuation, read_hdr_some hroot, bind_ok, hnx, hloop, hnil,
      List.headD_nil, read_ctx_some hc, hcf, hfree]
    simp
  · intro y post hcons
    have hy0 : y ≠ 0 := by
      obtain ⟨_, _, _, pre, hsplit⟩ := dropWhile_not_cons rest hcons
      exact hrest.ne_zero y (by simp [hsplit])
    simp only [mapper_list_query_continuation, read_hdr_some hroot, bind_ok, hnx, hloop, hcons,
      List.headD_cons]
    simp [hy0]

/-- Draining a dynamic handle visits its cursor and then the later items of the
source that satisfy the predicate, and ends with the handle released. -/
theorem drain_dynamic {t : QTree} (cfuel : Nat) :
    ∀ (n : Nat) (rest : List Nat), rest.length ≤ n → ∀ (heap : Heap) (self start fuel : Nat),
      DynAt heap t self start rest → rest.length + t.depth + 1 < cfuel →
      rest.length + 1 < fuel →
      ∃ heap', drain fuel cfuel heap t.root = .ok (heap', self :: rest.filter t.sem) ∧
        Freed heap heap' t.hdrs t.ctxs := by
  intro n
  induction n with
  | zero =>
    intro rest hlen heap self start fuel h hcf hf
    have hrest : rest = [] := List.length_eq_zero.1 (by omega)
    subst hrest
    obtain ⟨hnil, _⟩ := continuation_spec cfuel h hcf
    obtain ⟨heap', hcont, hF⟩ := hnil rfl
    have hself0 : self ≠ 0 := h.2.2.2.2.2.1
    obtain ⟨m, rfl⟩ : ∃ m, fuel = m + 2 := ⟨fuel - 2, by simp at hf; omega⟩
    refine ⟨heap', ?_, hF⟩
    simp [drain, QTree.root_ne_zero h.2.1, read_hdr_some h.1, mapper_list_next, hself0, hcont,
      bind, Except.bind]
  | succ n ih =>
    intro rest hlen heap self start fuel h hcf hf
    have hself0 : self ≠ 0 := h.2.2.2.2.2.1
    obtain ⟨hnil, hcons⟩ := continuation_spec cfuel h hcf
    obtain ⟨m, rfl⟩ : ∃ m, fuel = m + 1 := ⟨fuel - 1, by omega⟩
    cases hdw : rest.dropWhile (fun x => !t.sem x) with
    | nil =>
      obtain ⟨heap', hcont, hF⟩ := hnil hdw
      obtain ⟨k, rfl⟩ : ∃ k, m = k + 1 := ⟨m - 1, by omega⟩
      refine ⟨heap', ?_, hF⟩
      simp [drain, QTree.root_ne_zero h.2.1, read_hdr_some h.1, mapper_list_next, hself0, hcont,
        bind, Except.bind, dropWhile_not_nil rest hdw]
    | cons y post =>
      have hcont := hcons y post hdw
      obtain ⟨hpy, hfilter, hlt, pre, hsplit⟩ := dropWhile_not_cons rest hdw
      have hmove := h.move hsplit
      obtain ⟨heap', hdrain, hF⟩ := ih post (by omega) _ y start m hmove (by omega) (by omega)
      refine ⟨heap', ?_, ?_⟩
      · rw [hfilter]
        simp [drain, QTree.root_ne_zero h.2.1, read_hdr_some h.1, mapper_list_next, hself0,
          hcont, hdrain, bind, Except.bind]
      · refine ⟨hF.1, fun a => ?_, fun a => ?_⟩
        · rw [hF.2.1 a]
          by_cases ha : a ∈ t.hdrs
          · simp [ha]
          · have : a ≠ t.root := fun e => ha (e ▸ t.root_mem_hdrs)
            simp [ha, Heap.set_hdr, this]
        · rw [hF.2.2 a]; rfl

/-! ## Construction of queries -/

theorem query_heap_hdr (heap : Heap) (list size : Nat) (cf : query_compare_func_t)
    (d : List Nat) (a : Nat) :
    (query_heap heap list size cf d).hdr a =
      if a = heap.brk + 1 then
        some ⟨.mapper_list_query_continuation, list, list, heap.brk + 2, .QUERY_DYNAMIC⟩
      else heap.hdr a := by
  by_cases h : a = heap.brk + 1 <;>
    simp [query_heap, Heap.set_hdr, Heap.set_ctx, Heap.malloc_hdr, Heap.malloc_ctx, h]

theorem query_heap_ctx (heap : Heap) (list size : Nat) (cf : query_compare_func_t)
    (d : List Nat) (a : Nat) :
    (query_heap heap list size cf d).ctx a =
      if a = heap.brk + 2 then
        some ⟨sizeof_query_info_t + size, cf, .free_query_single_context, d⟩
      else heap.ctx a := by
  by_cases h : a = heap.brk + 2 <;>
    simp [query_heap, Heap.set_hdr, Heap.set_ctx, Heap.malloc_hdr, Heap.malloc_ctx, h]

theorem query_heap_brk (heap : Heap) (list size : Nat) (cf : query_compare_func_t)
    (d : List Nat) : (query_heap heap list size cf d).brk = heap.brk + 2 := rfl

/-- After the argument buffer is filled, `new_query_internal` evaluates the
first item and otherwise continues like `next`. -/
theorem new_query_internal_eq (fuel : Nat) (heap : Heap) {list size : Nat}
    {cf : query_compare_func_t} {types : List Char} {aq : List arg_t} {d : List Nat} {off : Nat}
    (hcf : cf = .cmp_parallel_query ∨ ∃ f, cf = .user f) (hlist : list ≠ 0) (hsize : size ≠ 0)
    (hloop : new_query_internal_loop types aq (List.replicate size 0) size 0 = .ok (some (d, off))) :
    new_query_internal fuel heap list size cf (some types) aq =
      (do
        if ← call_query_compare (cmp_parallel_query fuel) (query_heap heap list size cf d)
            (heap.brk + 2) list then .ok (query_heap heap list size cf d, heap.brk + 1)
        else
          mapper_list_query_continuation fuel (query_heap heap list size cf d) (heap.brk + 1)) := by
  rcases hcf with rfl | ⟨f, rfl⟩ <;>
    simp only [new_query_internal, hlist, hsize, or_self, if_false, hloop] <;> rfl

theorem vvi_size (a b : Nat) (op : Int) :
    get_query_size (some vvi) [.ptr_ptr [a], .ptr_ptr [b], .int op] = .ok 20 := by
  simp [get_query_size, vvi, get_query_size_loop, get_query_size_case, MAPPER_INT32,
    MAPPER_CHAR, MAPPER_INT64, MAPPER_STRING, MAPPER_PTR]

theorem vvi_loop (a b : Nat) (op : Int) :
    new_query_internal_loop vvi [.ptr_ptr [a], .ptr_ptr [b], .int op] (List.replicate 20 0) 20 0
      = .ok (some (ptr_bytes a ++ ptr_bytes b ++ int_bytes op, 20)) := by
  simp [vvi, new_query_internal_loop, new_query_internal_case, MAPPER_INT32,
    MAPPER_CHAR, MAPPER_INT64, MAPPER_STRING, MAPPER_PTR, memcpy_at, ptr_bytes, int_bytes,
    le_bytes, List.replicate, bind, Except.bind]

theorem bind_ok_inv {α β : Type} {x : Except Err α} {f : α → Except Err β} {y : β}
    (h : (x >>= f) = .ok y) : ∃ a, x = .ok a ∧ f a = .ok y := by
  cases x with
  | error e => cases h
  | ok a => exact ⟨a, rfl, h⟩

theorem memcpy_at_length {d bytes d' : List Nat} {offset : Nat}
    (h : memcpy_at d offset bytes = .ok d') : d'.length = d.length := by
  unfold memcpy_at at h
  split at h
  · cases h
    simp only [List.length_append, List.length_take, List.length_drop]
    omega
  · cases h

theorem snprintf_at_length {d s d' : List Nat} {size offset : Nat}
    (h : snprintf_at d size offset s = .ok d') : d'.length = d.length := by
  unfold snprintf_at at h
  split at h
  · exact memcpy_at_length h
  · split at h
    · cases h; rfl
    · exact memcpy_at_length h

theorem snprintf_fold_length {size offset : Nat} :
    ∀ (l : List (List Nat)) (d d' : List Nat),
      l.foldlM (fun d s => snprintf_at d size offset s) d = .ok d' → d'.length = d.length := by
  intro l
  induction l with
  | nil => intro d d' h; cases h; rfl
  | cons s l ih =>
    intro d d' h
    rw [List.foldlM_cons] at h
    obtain ⟨d1, h1, h2⟩ := bind_ok_inv h
    rw [ih d1 d' h2, snprintf_at_length h1]

/-- A case of the switch of `new_query_internal` keeps the size of the buffer. -/
theorem new_query_internal_case_length {c : Char} {num : Option Nat} {aq : List arg_t}
    {d : List Nat} {size offset : Nat} {r : List Nat × Nat × List arg_t}
    (h : new_query_internal_case c num aq d size offset = .ok (some r)) :
    r.1.length = d.length := by
  unfold new_query_internal_case at h
  split_ifs at h
  all_goals first
    | cases h
    | (split at h
       all_goals first
         | cases h
         | (split_ifs at h
            all_goals first
              | cases h
              | (obtain ⟨d1, h1, h2⟩ := bind_ok_inv h
                 cases h2
                 first
                   | exact memcpy_at_length h1
                   | exact snprintf_at_length h1
                   | exact snprintf_fold_length _ _ _ h1))
         | (obtain ⟨d1, h1, h2⟩ := bind_ok_inv h
            cases h2
            first
              | exact memcpy_at_length h1
              | exact snprintf_at_length h1))

/-- The encoding loop of `new_query_internal` keeps the size of the buffer. -/
theorem new_query_internal_loop_length :
    ∀ (n : Nat) (types : List Char), types.length ≤ n → ∀ (aq : List arg_t) (d : List Nat)
      (size offset : Nat) (r : List Nat × Nat),
      new_query_internal_loop types aq d size offset = .ok (some r) → r.1.length = d.length := by
  intro n
  induction n with
  | zero =>
    intro types hlen aq d size offset r h
    have : types = [] := List.length_eq_zero.1 (by omega)
    subst this
    simp only [new_query_internal_loop] at h
    cases h; rfl
  | succ n ih =>
    intro types hlen aq d size offset r h
    match types, hlen, h with
    | [], _, h =>
      simp only [new_query_internal_loop] at h
      cases h; rfl
    | [c], _, h =>
      simp only [new_query_internal_loop] at h
      split at h
      · cases h
      · cases h
      · rename_i d1 o1 a1 hc
        cases h
        exact new_query_internal_case_length hc
    | c :: t :: ts, hlen, h =>
      simp only [new_query_internal_loop] at h
      simp only [List.length_cons] at hlen
      split_ifs at h
      · split at h
        · cases h
        · cases h
        · rename_i d1 o1 a1 hc
          rw [ih ts (by omega) _ _ _ _ _ h]
          exact new_query_internal_case_length hc
      · split at h
        · cases h
        · cases h
        · rename_i d1 o1 a1 hc
          rw [ih (t :: ts) (by simp only [List.length_cons]; omega) _ _ _ _ _ h]
          exact new_query_internal_case_length hc

/-- The first step of a query whose cursor is at the origin of its source:
either no item of the source satisfies the predicate, the handle is released
and the result is null, or the result is the handle with its cursor at the first
item that satisfies the predicate. -/
theorem query_start {heap : Heap} {t : QTree} {list : Nat} {rest : List Nat} (fuel : Nat)
    (h : DynAt heap t list list rest) (hf : rest.length + t.depth + 1 < fuel) :
    ∃ heap1 h1,
      (do
        if ← call_query_compare (cmp_parallel_query fuel) heap t.ctx list then .ok (heap, t.root)
        else mapper_list_query_continuation fuel heap t.root) = .ok (heap1, h1) ∧
      (((list :: rest).filter t.sem = [] ∧ h1 = 0 ∧ Freed heap heap1 t.hdrs t.ctxs) ∨
       (∃ y post, (list :: rest).filter t.sem = y :: post.filter t.sem ∧ h1 = t.root ∧
          post.length ≤ rest.length ∧ DynAt heap1 t y list post ∧ heap1.brk = heap.brk ∧
          (∀ a, a ≠ t.root → heap1.hdr a = heap.hdr a) ∧ ∀ a, heap1.ctx a = heap.ctx a)) := by
  have hev := t.eval fuel h.2.1 (by omega) list
  rw [hev, bind_ok]
  cases hp : t.sem list with
  | true =>
    refine ⟨heap, t.root, by simp, Or.inr ⟨list, rest, by simp [List.filter, hp], rfl,
      le_refl _, h, rfl, fun _ _ => rfl, fun _ => rfl⟩⟩
  | false =>
    obtain ⟨hnil, hcons⟩ := continuation_spec fuel h hf
    cases hdw : rest.dropWhile (fun x => !t.sem x) with
    | nil =>
      obtain ⟨heap', hcont, hF⟩ := hnil hdw
      refine ⟨heap', 0, by simpa using hcont, Or.inl ⟨?_, rfl, hF⟩⟩
      simp [List.filter, hp, dropWhile_not_nil rest hdw]
    | cons y post =>
      have hcont := hcons y post hdw
      obtain ⟨hpy, hfilter, hlt, pre, hsplit⟩ := dropWhile_not_cons rest hdw
      refine ⟨_, t.root, by simpa using hcont, Or.inr ⟨y, post, ?_, rfl, by omega,
        h.move hsplit, rfl, fun a ha => by simp [Heap.set_hdr, ha], fun _ => rfl⟩⟩
      simp [List.filter, hp, hfilter]

/-- Construction of a query over a non-empty source, in terms of the tree that
the initialised heap holds. -/
theorem new_query_internal_spec (fuel : Nat) (heap : Heap) {list size : Nat}
    {cf : query_compare_func_t} {types : List Char} {aq : List arg_t} {d : List Nat} {off : Nat}
    {t : QTree} {rest : List Nat}
    (hcf : cf = .cmp_parallel_query ∨ ∃ f, cf = .user f) (hsize : size ≠ 0)
    (hloop : new_query_internal_loop types aq (List.replicate size 0) size 0 = .ok (some (d, off)))
    (ht : DynAt (query_heap heap list size cf d) t list list rest)
    (hroot : t.root = heap.brk + 1) (hctx : t.ctx = heap.brk + 2)
    (hf : rest.length + t.depth + 1 < fuel) :
    ∃ heap1 h1, new_query_internal fuel heap list size cf (some types) aq = .ok (heap1, h1) ∧
      (((list :: rest).filter t.sem = [] ∧ h1 = 0 ∧
          Freed (query_heap heap list size cf d) heap1 t.hdrs t.ctxs) ∨
       (∃ y post, (list :: rest).filter t.sem = y :: post.filter t.sem ∧ h1 = t.root ∧
          post.length ≤ rest.length ∧ DynAt heap1 t y list post ∧
          heap1.brk = (query_heap heap list size cf d).brk ∧
          (∀ a, a ≠ t.root → heap1.hdr a = (query_heap heap list size cf d).hdr a) ∧
          ∀ a, heap1.ctx a = (query_heap heap list size cf d).ctx a)) := by
  have hlist : list ≠ 0 := ht.2.2.2.2.2.1
  rw [new_query_internal_eq fuel heap hcf hlist hsize hloop, ← hroot, ← hctx]
  exact query_start fuel ht hf

/-- Draining the result of the first step of a query. -/
theorem drain_result {heap heap1 : Heap} {t : QTree} {list h1 : Nat} {rest : List Nat}
    (fuel : Nat) (hf : rest.length + t.depth + 1 < fuel)
    (h : ((list :: rest).filter t.sem = [] ∧ h1 = 0 ∧ Freed heap heap1 t.hdrs t.ctxs) ∨
       (∃ y post, (list :: rest).filter t.sem = y :: post.filter t.sem ∧ h1 = t.root ∧
          post.length ≤ rest.length ∧ DynAt heap1 t y list post ∧ heap1.brk = heap.brk ∧
          (∀ a, a ≠ t.root → heap1.hdr a = heap.hdr a) ∧ ∀ a, heap1.ctx a = heap.ctx a)) :
    ∃ heap2, drain fuel fuel heap1 h1 = .ok (heap2, (list :: rest).filter t.sem) ∧
      (h1 = 0 ↔ (list :: rest).filter t.sem = []) ∧ Freed heap heap2 t.hdrs t.ctxs := by
  rcases h with ⟨hnil, rfl, hF⟩ | ⟨y, post, hfil, rfl, hlen, hdyn, hb, hh, hc⟩
  · obtain ⟨m, rfl⟩ : ∃ m, fuel = m + 1 := ⟨fuel - 1, by omega⟩
    exact ⟨heap1, by simp [drain, hnil], by simp [hnil], hF⟩
  · obtain ⟨heap2, hdrain, hF⟩ :=
      drain_dynamic fuel post.length post (le_refl _) heap1 y list fuel hdyn (by omega) (by omega)
    refine ⟨heap2, by rw [hdrain, hfil], ?_, hF.1.trans hb, fun a => ?_, fun a => ?_⟩
    · simp [hfil, QTree.root_ne_zero hdyn.2.1]
    · rw [hF.2.1 a]
      by_cases ha : a ∈ t.hdrs
      · simp [ha]
      · have : a ≠ t.root := fun e => ha (e ▸ t.root_mem_hdrs)
        simp [ha, hh a this]
    · rw [hF.2.2 a, hc a]

theorem IsList.le_brk {heap : Heap} (hwf : HeapWf heap) {a : Nat} {xs : List Nat}
    (h : IsList heap a xs) : ∀ x ∈ xs, x ≤ heap.brk := by
  intro x hx
  by_contra hlt
  exact h.live x hx (hwf x (by omega)).1

theorem IsList.to_query_heap {heap : Heap} (hwf : HeapWf heap) {a : Nat} {xs : List Nat}
    (h : IsList heap a xs) (list size : Nat) (cf : query_compare_func_t) (d : List Nat) :
    IsList (query_heap heap list size cf d) a xs := by
  refine h.frame (fun x hx => ?_)
  have := h.le_brk hwf x hx
  rw [query_heap_hdr, if_neg (by omega)]

/-- The heap initialised by `new_query_internal` for a comparison function of
the caller holds a leaf. -/
theorem leaf_dynAt {heap : Heap} (hwf : HeapWf heap) {list : Nat} {rest : List Nat}
    (hl : IsList heap list (list :: rest)) (f : List Nat → Nat → Bool) {d : List Nat}
    {size : Nat} (hd : d.length = size) :
    DynAt (query_heap heap list size (.user f) d) (.leaf (heap.brk + 1) (heap.brk + 2) f d)
      list list rest := by
  refine ⟨by simp [QTree.root, QTree.ctx, query_heap_hdr], ?_, by simp [QTree.hdrs],
    by simp [QTree.ctxs], hl.to_query_heap hwf _ _ _ _⟩
  refine ⟨by omega, by omega, ⟨_, by rw [query_heap_hdr, if_pos rfl], rfl⟩, ?_⟩
  rw [query_heap_ctx, if_pos rfl, hd]

/-- Draining a new query, for the tag strings that the encoder handles: when
pass 1 returns a size that is not zero and fits an `int`, and pass 2 fills the
buffer `d`, the query built by `mapper_list_new_query` from a comparison
function of the caller visits, when it is drained with `next`, exactly the
items of the source list that satisfy the predicate on `d`, in source order;
the handle is null exactly when no item satisfies it. -/
theorem new_query_visits (heap : Heap) (source : Nat) (items : List Nat)
    (f : List Nat → Nat → Bool) (types : List Char) (aq : List arg_t) (size off : Nat)
    (d : List Nat) (fuel : Nat) (hwf : HeapWf heap) (hsrc : IsList heap source items)
    (hsize : get_query_size (some types) aq = .ok size) (hsz : size ≠ 0)
    (_hint : size < 2 ^ 31)
    (henc : new_query_internal_loop types aq (List.replicate size 0) size 0 = .ok (some (d, off)))
    (hfuel : items.length + 1 < fuel) :
    ∃ heap1 h heap2 visited,
      mapper_list_new_query fuel heap source (.user f) (some types) aq = .ok (heap1, h) ∧
      drain fuel fuel heap1 h = .ok (heap2, visited) ∧ visited = items.filter (f d) ∧
      visited.length = items.countP (f d) ∧ (h = 0 ↔ items.countP (f d) = 0) := by
  have hcount : ∀ l : List Nat, (l.filter (f d)).length = l.countP (f d) := fun l =>
    (List.countP_eq_length_filter _ l).symm
  cases items with
  | nil =>
    have hs0 : source = 0 := hsrc
    obtain ⟨m, rfl⟩ : ∃ m, fuel = m + 1 := ⟨fuel - 1, by simp at hfuel; omega⟩
    refine ⟨heap, 0, heap, [], ?_, by simp [drain], rfl, rfl, by simp⟩
    simp [mapper_list_new_query, hsize, new_query_internal, hs0, bind, Except.bind]
  | cons x rest =>
    have hx : source = x := hsrc.1
    subst hx
    have hlen := new_query_internal_loop_length types.length types (le_refl _) _ _ _ _ _ henc
    simp only [List.length_replicate] at hlen
    have hdyn := leaf_dynAt hwf hsrc f hlen
    have hf' : rest.length + (QTree.leaf (heap.brk + 1) (heap.brk + 2) f d).depth + 1 < fuel := by
      simp only [QTree.depth, List.length_cons] at hfuel ⊢; omega
    obtain ⟨heap1, h1, hnew, hstate⟩ :=
      new_query_internal_spec fuel heap (Or.inr ⟨f, rfl⟩) hsz henc hdyn rfl rfl hf'
    obtain ⟨heap2, hdrain, hzero, _⟩ := drain_result fuel hf' hstate
    have hsem : (QTree.leaf (heap.brk + 1) (heap.brk + 2) f d).sem = f d := rfl
    rw [hsem] at hdrain hzero
    refine ⟨heap1, h1, heap2, _, ?_, hdrain, rfl, hcount _, ?_⟩
    · simp only [mapper_list_new_query, hsize, bind_ok]; exact hnew
    · rw [hzero, ← hcount, List.length_eq_zero]

/-! ## Set algebra -/

theorem QTree.cells_live {heap : Heap} :
    ∀ (t : QTree), t.holds heap →
      (∀ a ∈ t.hdrs, heap.hdr a ≠ none) ∧ ∀ a ∈ t.ctxs, heap.ctx a ≠ none := by
  intro t
  induction t with
  | leaf lh qc f data =>
    intro h
    obtain ⟨_, _, ⟨hd, hhd, _⟩, hc⟩ := h
    constructor
    · intro a ha
      simp only [QTree.hdrs, List.mem_singleton] at ha
      subst ha; simp [hhd]
    · intro a ha
      simp only [QTree.ctxs, List.mem_singleton] at ha
      subst ha; simp [hc]
  | node lh qc op l r ihl ihr =>
    intro h
    obtain ⟨_, _, ⟨hd, hhd, _⟩, hc, _, _, _, hl, hr⟩ := h
    constructor
    · intro a ha
      simp only [QTree.hdrs, List.mem_cons, List.mem_append] at ha
      rcases ha with rfl | ha | ha
      · simp [hhd]
      · exact (ihl hl).1 a ha
      · exact (ihr hr).1 a ha
    · intro a ha
      simp only [QTree.ctxs, List.mem_cons, List.mem_append] at ha
      rcases ha with rfl | ha | ha
      · simp [hc]
      · exact (ihl hl).2 a ha
      · exact (ihr hr).2 a ha

theorem QTree.hdrs_le_brk {heap : Heap} (hwf : HeapWf heap) {t : QTree} (h : t.holds heap) :
    ∀ a ∈ t.hdrs, a ≤ heap.brk := by
  intro a ha
  by_contra hlt
  exact (t.cells_live h).1 a ha (hwf a (by omega)).1

theorem QTree.ctxs_le_brk {heap : Heap} (hwf : HeapWf heap) {t : QTree} (h : t.holds heap) :
    ∀ a ∈ t.ctxs, a ≤ heap.brk := by
  intro a ha
  by_contra hlt
  exact (t.cells_live h).2 a ha (hwf a (by omega)).2

theorem QTree.holds_query_heap {heap : Heap} (hwf : HeapWf heap) {t : QTree} (h : t.holds heap)
    (list size : Nat) (cf : query_compare_func_t) (d : List Nat) :
    t.holds (query_heap heap list size cf d) := by
  refine t.holds_frame h (fun a ha hd hhd => ⟨hd, ?_, rfl⟩) (fun a ha => ?_)
  · have := QTree.hdrs_le_brk hwf h a ha
    rw [query_heap_hdr, if_neg (by omega)]; exact hhd
  · have := QTree.ctxs_le_brk hwf h a ha
    rw [query_heap_ctx, if_neg (by omega)]

/-- The heap initialised by `new_query_internal` for a set operation on two
handles holds the node over their trees. -/
theorem node_dynAt {heap : Heap} (hwf : HeapWf heap) {tA tB : QTree} {op list : Nat}
    {rest : List Nat} (hA : tA.holds heap) (hB : tB.holds heap)
    (hnh : (tA.hdrs ++ tB.hdrs).Nodup) (hnc : (tA.ctxs ++ tB.ctxs).Nodup)
    (hA64 : tA.root < 2 ^ 64) (hB64 : tB.root < 2 ^ 64) (hop : op ≤ 2)
    (hl : IsList heap list (list :: rest)) :
    DynAt (query_heap heap list 20 .cmp_parallel_query
        (ptr_bytes tA.root ++ ptr_bytes tB.root ++ int_bytes (op : Int)))
      (.node (heap.brk + 1) (heap.brk + 2) op tA tB) list list rest := by
  have hAh := QTree.hdrs_le_brk hwf hA
  have hBh := QTree.hdrs_le_brk hwf hB
  have hAc := QTree.ctxs_le_brk hwf hA
  have hBc := QTree.ctxs_le_brk hwf hB
  refine ⟨by simp [QTree.root, QTree.ctx, query_heap_hdr], ?_, ?_, ?_, hl.to_query_heap hwf _ _ _ _⟩
  · refine ⟨by omega, by omega, ⟨_, by rw [query_heap_hdr, if_pos rfl], rfl⟩, ?_, hA64, hB64,
      hop, QTree.holds_query_heap hwf hA _ _ _ _, QTree.holds_query_heap hwf hB _ _ _ _⟩
    rw [query_heap_ctx, if_pos rfl]
  · simp only [QTree.hdrs, List.nodup_cons, List.mem_append, not_or]
    refine ⟨⟨fun hm => ?_, fun hm => ?_⟩, hnh⟩
    · have := hAh _ hm; omega
    · have := hBh _ hm; omega
  · simp only [QTree.ctxs, List.nodup_cons, List.mem_append, not_or]
    refine ⟨⟨fun hm => ?_, fun hm => ?_⟩, hnc⟩
    · have := hAc _ hm; omega
    · have := hBc _ hm; omega

/-- The query that the three set operations build from two dynamic handles:
drained, it visits the items of the source of the first handle that satisfy
the combined predicate. -/
theorem parallel_query_spec (fuel : Nat) (heap : Heap) (tA tB : QTree) (start op : Nat)
    (items : List Nat) (hwf : HeapWf heap) (hA : tA.holds heap) (hB : tB.holds heap)
    (hnh : (tA.hdrs ++ tB.hdrs).Nodup) (hnc : (tA.ctxs ++ tB.ctxs).Nodup)
    (hA64 : tA.root < 2 ^ 64) (hB64 : tB.root < 2 ^ 64) (hop : op ≤ 2)
    (hsrc : IsList heap start items)
    (hfuel : items.length + max tA.depth tB.depth + 2 < fuel) :
    ∃ heap1 h heap2,
      mapper_list_new_query fuel heap start .cmp_parallel_query (some vvi)
        [.ptr_ptr [tA.root], .ptr_ptr [tB.root], .int (op : Int)] = .ok (heap1, h) ∧
      drain fuel fuel heap1 h =
        .ok (heap2, items.filter (QTree.node (heap.brk + 1) (heap.brk + 2) op tA tB).sem) ∧
      (h = 0 ↔ items.filter (QTree.node (heap.brk + 1) (heap.brk + 2) op tA tB).sem = []) := by
  cases items with
  | nil =>
    have hs0 : start = 0 := hsrc
    obtain ⟨m, rfl⟩ : ∃ m, fuel = m + 1 := ⟨fuel - 1, by omega⟩
    refine ⟨heap, 0, heap, ?_, by simp [drain], by simp⟩
    simp [mapper_list_new_query, vvi_size, new_query_internal, hs0, bind, Except.bind]
  | cons x rest =>
    have hx : start = x := hsrc.1
    subst hx
    have hdyn := node_dynAt hwf hA hB hnh hnc hA64 hB64 hop hsrc
    have hf' : rest.length + (QTree.node (heap.brk + 1) (heap.brk + 2) op tA tB).depth + 1
        < fuel := by
      simp only [QTree.depth, List.length_cons] at hfuel ⊢; omega
    obtain ⟨heap1, h1, hnew, hstate⟩ :=
      new_query_internal_spec fuel heap (Or.inl rfl) (by decide) (vvi_loop _ _ _) hdyn rfl rfl hf'
    obtain ⟨heap2, hdrain, hzero, _⟩ := drain_result fuel hf' hstate
    refine ⟨heap1, h1, heap2, ?_, hdrain, hzero⟩
    simp only [mapper_list_new_query, vvi_size, bind_ok]; exact hnew

theorem sem_union (lh qc : Nat) (tA tB : QTree) :
    (QTree.node lh qc OP_UNION tA tB).sem = fun x => tA.sem x || tB.sem x := by
  funext x; simp [QTree.sem]

theorem sem_intersection (lh qc : Nat) (tA tB : QTree) :
    (QTree.node lh qc OP_INTERSECTION tA tB).sem = fun x => tA.sem x && tB.sem x := by
  funext x; simp [QTree.sem, OP_INTERSECTION, OP_UNION]

theorem sem_difference (lh qc : Nat) (tA tB : QTree) :
    (QTree.node lh qc OP_DIFFERENCE tA tB).sem = fun x => tA.sem x && !tB.sem x := by
  funext x; simp [QTree.sem, OP_INTERSECTION, OP_UNION, OP_DIFFERENCE]

/-- C3: for two dynamic handles `A` and `B` that the heap holds as trees of any
depth, without a shared header or context, draining `mapper_list_union A B`
visits exactly the items of the source list of `A` that satisfy the predicate
of `A` or the predicate of `B`, in the order of that source. -/
theorem union_visits (fuel : Nat) (heap : Heap) (tA tB : QTree) (hdA : mapper_list_header_t)
    (items : List Nat) (hwf : HeapWf heap) (hA : tA.holds heap) (hB : tB.holds heap)
    (hnh : (tA.hdrs ++ tB.hdrs).Nodup) (hnc : (tA.ctxs ++ tB.ctxs).Nodup)
    (hA64 : tA.root < 2 ^ 64) (hB64 : tB.root < 2 ^ 64)
    (hhA : heap.hdr tA.root = some hdA) (hsrc : IsList heap hdA.start items)
    (hfuel : items.length + max tA.depth tB.depth + 2 < fuel) :
    ∃ heap1 h heap2,
      mapper_list_union fuel heap tA.root tB.root = .ok (heap1, h) ∧
      drain fuel fuel heap1 h = .ok (heap2, items.filter (fun x => tA.sem x || tB.sem x)) ∧
      (h = 0 ↔ items.filter (fun x => tA.sem x || tB.sem x) = []) := by
  have := parallel_query_spec fuel heap tA tB hdA.start OP_UNION items hwf hA hB hnh hnc hA64
    hB64 (by decide) hsrc hfuel
  rw [sem_union] at this
  simpa only [mapper_list_union, QTree.root_ne_zero hA, QTree.root_ne_zero hB, if_false,
    read_hdr_some hhA, bind_ok] using this

/-- C4: for two dynamic handles `A` and `B` that the heap holds as trees of any
depth, without a shared header or context, draining
`mapper_list_intersection A B` visits exactly the items of the source list of
`A` that satisfy both predicates, in the order of that source; the result is
null when there is none. -/
theorem intersection_visits (fuel : Nat) (heap : Heap) (tA tB : QTree)
    (hdA : mapper_list_header_t) (items : List Nat) (hwf : HeapWf heap) (hA : tA.holds heap)
    (hB : tB.holds heap) (hnh : (tA.hdrs ++ tB.hdrs).Nodup) (hnc : (tA.ctxs ++ tB.ctxs).Nodup)
    (hA64 : tA.root < 2 ^ 64) (hB64 : tB.root < 2 ^ 64)
    (hhA : heap.hdr tA.root = some hdA) (hsrc : IsList heap hdA.start items)
    (hfuel : items.length + max tA.depth tB.depth + 2 < fuel) :
    ∃ heap1 h heap2,
      mapper_list_intersection fuel heap tA.root tB.root = .ok (heap1, h) ∧
      drain fuel fuel heap1 h = .ok (heap2, items.filter (fun x => tA.sem x && tB.sem x)) ∧
      (h = 0 ↔ items.filter (fun x => tA.sem x && tB.sem x) = []) := by
  have := parallel_query_spec fuel heap tA tB hdA.start OP_INTERSECTION items hwf hA hB hnh hnc
    hA64 hB64 (by decide) hsrc hfuel
  rw [sem_intersection] at this
  simpa only [mapper_list_intersection, QTree.root_ne_zero hA, QTree.root_ne_zero hB, or_self,
    if_false, read_hdr_some hhA, bind_ok] using this

/-- C5: for two dynamic handles `A` and `B` that the heap holds as trees of any
depth, without a shared header or context, draining
`mapper_list_difference A B` visits exactly the items of the source list of `A`
that satisfy the predicate of `A` and not that of `B`, in the order of that
source; the result is null when there is none. -/
theorem difference_visits (fuel : Nat) (heap : Heap) (tA tB : QTree)
    (hdA : mapper_list_header_t) (items : List Nat) (hwf : HeapWf heap) (hA : tA.holds heap)
    (hB : tB.holds heap) (hnh : (tA.hdrs ++ tB.hdrs).Nodup) (hnc : (tA.ctxs ++ tB.ctxs).Nodup)
    (hA64 : tA.root < 2 ^ 64) (hB64 : tB.root < 2 ^ 64)
    (hhA : heap.hdr tA.root = some hdA) (hsrc : IsList heap hdA.start items)
    (hfuel : items.length + max tA.depth tB.depth + 2 < fuel) :
    ∃ heap1 h heap2,
      mapper_list_difference fuel heap tA.root tB.root = .ok (heap1, h) ∧
      drain fuel fuel heap1 h = .ok (heap2, items.filter (fun x => tA.sem x && !tB.sem x)) ∧
      (h = 0 ↔ items.filter (fun x => tA.sem x && !tB.sem x) = []) := by
  have := parallel_query_spec fuel heap tA tB hdA.start OP_DIFFERENCE items hwf hA hB hnh hnc
    hA64 hB64 (by decide) hsrc hfuel
  rw [sem_difference] at this
  simpa only [mapper_list_difference, QTree.root_ne_zero hA, QTree.root_ne_zero hB,
    if_false, read_hdr_some hhA, bind_ok] using this

/-! ## The example of the specification -/

theorem example_list_isList : IsList example_list 10 example_items := by
  simp [IsList, example_list, example_items]

theorem example_list_wf : HeapWf example_list := by
  intro a ha
  simp only [example_list] at ha ⊢
  simp; omega

theorem example_queries_isList : IsList example_queries 10 example_items := by
  simp [IsList, example_queries, example_items]

theorem example_queries_wf : HeapWf example_queries := by
  intro a ha
  simp only [example_queries] at ha ⊢
  have h1 : ¬ (1 ≤ a ∧ a ≤ 10) := by omega
  have h2 : a ≠ 11 := by omega
  have h3 : a ≠ 13 := by omega
  have h4 : a ≠ 12 := by omega
  have h5 : a ≠ 14 := by omega
  simp [h1, h2, h3, h4, h5]

theorem example_A_holds : example_A.holds example_queries := by
  simp [example_A, QTree.holds, example_queries, int_bytes_length]

theorem example_B_holds : example_B.holds example_queries := by
  simp [example_B, QTree.holds, example_queries, int_bytes_length]

/-- The heap `example_queries` is what two calls of `mapper_list_new_query` on
`example_list` build, with the handles 11 and 13. -/
theorem example_queries_built :
    ∃ heap1 heap2,
      mapper_list_new_query 12 example_list 10 (.user even_index) (some ['i']) [.int 0]
        = .ok (heap1, 11) ∧
      mapper_list_new_query 12 heap1 10 (.user index_lt) (some ['i']) [.int 5]
        = .ok (heap2, 13) ∧
      heap2.brk = example_queries.brk ∧
      ∀ a, heap2.hdr a = example_queries.hdr a ∧ heap2.ctx a = example_queries.ctx a := by
  refine ⟨_, _, rfl, rfl, rfl, fun a => ?_⟩
  simp only [example_queries, example_list, query_heap, Heap.set_hdr, Heap.set_ctx,
    Heap.malloc_hdr, Heap.malloc_ctx]
  by_cases h1 : 1 ≤ a ∧ a ≤ 10
  · have e1 : a ≠ 11 := by omega
    have e2 : a ≠ 12 := by omega
    have e3 : a ≠ 13 := by omega
    have e4 : a ≠ 14 := by omega
    simp [h1, e1, e2, e3, e4]
  · by_cases e1 : a = 11
    · subst e1; simp
    · by_cases e2 : a = 12
      · subst e2; simp [sizeof_query_info_t]; rfl
      · by_cases e3 : a = 13
        · subst e3; simp
        · by_cases e4 : a = 14
          · subst e4; simp [sizeof_query_info_t]; rfl
          · simp [h1, e1, e2, e3, e4]

/-- On the example: the query "even index" over the ten items visits the five
items of index 0, 2, 4, 6, 8. -/
theorem new_query_visits_witness :
    ∃ heap1 h heap2,
      mapper_list_new_query 12 example_list 10 (.user even_index) (some ['i']) [.int 0]
        = .ok (heap1, h) ∧
      drain 12 12 heap1 h = .ok (heap2, [10, 8, 6, 4, 2]) ∧ h ≠ 0 := by
  obtain ⟨heap1, h, heap2, visited, h1, h2, h3, _, h5⟩ :=
    new_query_visits example_list 10 example_items even_index ['i'] [.int 0] 4 4 (int_bytes 0) 12
      example_list_wf example_list_isList rfl (by decide) (by decide) rfl (by decide)
  refine ⟨heap1, h, heap2, h1, ?_, fun e => ?_⟩
  · rw [h2, h3]; rfl
  · have := h5.1 e
    revert this
    decide

/-- C3 on the example: the union of "even index" and "index below 5" over the
ten items has the seven items of index 0, 1, 2, 3, 4, 6, 8. -/
theorem union_visits_witness :
    ∃ heap1 h heap2,
      mapper_list_union 13 example_queries 11 13 = .ok (heap1, h) ∧
      drain 13 13 heap1 h = .ok (heap2, [10, 9, 8, 7, 6, 4, 2]) ∧
      [10, 9, 8, 7, 6, 4, 2].length = 7 := by
  obtain ⟨heap1, h, heap2, h1, h2, _⟩ :=
    union_visits 13 example_queries example_A example_B
      ⟨.mapper_list_query_continuation, 10, 10, 12, .QUERY_DYNAMIC⟩ example_items
      example_queries_wf example_A_holds example_B_holds (by decide) (by decide)
      (by norm_num [example_A, QTree.root]) (by norm_num [example_B, QTree.root]) rfl
      example_queries_isList (by decide)
  refine ⟨heap1, h, heap2, h1, ?_, rfl⟩
  rw [h2]; rfl

/-- C4 on the example: the intersection of "even index" and "index below 5"
over the ten items has the three items of index 0, 2, 4. -/
theorem intersection_visits_witness :
    ∃ heap1 h heap2,
      mapper_list_intersection 13 example_queries 11 13 = .ok (heap1, h) ∧
      drain 13 13 heap1 h = .ok (heap2, [10, 8, 6]) ∧ [10, 8, 6].length = 3 := by
  obtain ⟨heap1, h, heap2, h1, h2, _⟩ :=
    intersection_visits 13 example_queries example_A example_B
      ⟨.mapper_list_query_continuation, 10, 10, 12, .QUERY_DYNAMIC⟩ example_items
      example_queries_wf example_A_holds example_B_holds (by decide) (by decide)
      (by norm_num [example_A, QTree.root]) (by norm_num [example_B, QTree.root]) rfl
      example_queries_isList (by decide)
  refine ⟨heap1, h, heap2, h1, ?_, rfl⟩
  rw [h2]; rfl

/-- C5 on the example: the difference of "even index" and "index below 5" over
the ten items has the two items of index 6 and 8. -/
theorem difference_visits_witness :
    ∃ heap1 h heap2,
      mapper_list_difference 13 example_queries 11 13 = .ok (heap1, h) ∧
      drain 13 13 heap1 h = .ok (heap2, [4, 2]) ∧ [4, 2].length = 2 := by
  obtain ⟨heap1, h, heap2, h1, h2, _⟩ :=
    difference_visits 13 example_queries example_A example_B
      ⟨.mapper_list_query_continuation, 10, 10, 12, .QUERY_DYNAMIC⟩ example_items
      example_queries_wf example_A_holds example_B_holds (by decide) (by decide)
      (by norm_num [example_A, QTree.root]) (by norm_num [example_B, QTree.root]) rfl
      example_queries_isList (by decide)
  refine ⟨heap1, h, heap2, h1, ?_, rfl⟩
  rw [h2]; rfl

/-! ## Absent operands, index zero, filter -/

/-- C6: an absent operand of a set operation is the empty set and no handle is
built: union returns the other operand itself, intersection returns null,
difference returns null for an absent first operand and the first operand
itself for an absent second operand; the heap is left as it is. -/
theorem absent_operands (fuel : Nat) (heap : Heap) (A B : Nat) :
    mapper_list_union fuel heap 0 B = .ok (heap, B) ∧
    mapper_list_union fuel heap A 0 = .ok (heap, A) ∧
    mapper_list_intersection fuel heap 0 B = .ok (heap, 0) ∧
    mapper_list_intersection fuel heap A 0 = .ok (heap, 0) ∧
    mapper_list_difference fuel heap 0 B = .ok (heap, 0) ∧
    mapper_list_difference fuel heap A 0 = .ok (heap, A) := by
  refine ⟨by simp [mapper_list_union], ?_, by simp [mapper_list_intersection],
    by simp [mapper_list_intersection], by simp [mapper_list_difference], ?_⟩
  · by_cases hA : A = 0 <;> simp [mapper_list_union, hA]
  · by_cases hA : A = 0 <;> simp [mapper_list_difference, hA]

/-- C10: for every handle with a live header, static or dynamic,
`mapper_list_get_index` at index 0 returns the origin `start` of the header and
leaves the heap, and with it the cursor of the handle, unchanged. -/
theorem get_index_zero (fuel : Nat) (heap : Heap) (h : Nat) (hd : mapper_list_header_t)
    (hh : h ≠ 0) (hlive : heap.hdr h = some hd) :
    mapper_list_get_index fuel heap h 0 = .ok (heap, hd.start) := by
  simp [mapper_list_get_index, hh, read_hdr_some hlive, bind, Except.bind]

/-- C10 on the example: index 0 of the query `A` is the first item of the list,
and index 0 of the static handle of item 7 is item 7. -/
theorem get_index_zero_witness :
    mapper_list_get_index 5 example_queries 11 0 = .ok (example_queries, 10) ∧
    mapper_list_get_index 5 example_queries 7 0 = .ok (example_queries, 7) :=
  ⟨get_index_zero 5 example_queries 11
      ⟨.mapper_list_query_continuation, 10, 10, 12, .QUERY_DYNAMIC⟩ (by decide) rfl,
    get_index_zero 5 example_queries 7 ⟨.data 6, 7, 7, 0, .QUERY_STATIC⟩ (by decide) rfl⟩

/-- C7, the failing input: on the dynamic handle `A` of the example, a filter
whose fresh query matches nothing faults on the header that it takes from the
null handle, while the intersection of `A` with that fresh query is null. -/
theorem filter_empty_fresh_query :
    mapper_list_filter 13 example_queries 11 (.user fun _ _ => false) (some ['i']) [.int 0]
      = .error .fault ∧
    ∃ heap1, mapper_list_new_query 13 example_queries 10 (.user fun _ _ => false) (some ['i'])
        [.int 0] = .ok (heap1, 0) ∧
      mapper_list_intersection 13 heap1 11 0 = .ok (heap1, 0) := by
  refine ⟨rfl, _, rfl, rfl⟩

/-! ## Copies -/

theorem QTree.holds_of_agree {heap heap' : Heap} {t : QTree} (h : t.holds heap)
    (hh : ∀ a ∈ t.hdrs, heap'.hdr a = heap.hdr a) (hc : ∀ a ∈ t.ctxs, heap'.ctx a = heap.ctx a) :
    t.holds heap' :=
  t.holds_frame h (fun a ha hd hhd => ⟨hd, by rw [hh a ha]; exact hhd, rfl⟩) hc

theorem QTree.holds_preserved {heap heap' : Heap} {t : QTree} (hwf : HeapWf heap)
    (h : t.holds heap) (hp : Preserved heap heap') : t.holds heap' :=
  QTree.holds_of_agree h (fun a ha => (hp a (QTree.hdrs_le_brk hwf h a ha)).1)
    (fun a ha => (hp a (QTree.ctxs_le_brk hwf h a ha)).2)

theorem IsList.preserved_list {heap heap' : Heap} (hwf : HeapWf heap) {a : Nat} {xs : List Nat}
    (h : IsList heap a xs) (hp : Preserved heap heap') : IsList heap' a xs :=
  h.frame (fun x hx => (hp x (h.le_brk hwf x hx)).1)

theorem Preserved.trans {h1 h2 h3 : Heap} (p12 : Preserved h1 h2) (p23 : Preserved h2 h3)
    (hle : h1.brk ≤ h2.brk) : Preserved h1 h3 := by
  intro a ha
  have h23 := p23 a (by omega)
  have h12 := p12 a ha
  exact ⟨h23.1.trans h12.1, h23.2.trans h12.2⟩

theorem memcpy_at_fst {a b c a' : List Nat} (ha : a.length = 8) (ha' : a'.length = 8) :
    memcpy_at (a ++ b ++ c) 0 a' = .ok (a' ++ b ++ c) := by
  have h1 : 0 + a'.length ≤ (a ++ b ++ c).length := by
    simp only [List.length_append, ha, ha']; omega
  rw [memcpy_at, if_pos h1]
  simp only [List.take_zero, List.nil_append, zero_add, ha', List.append_assoc]
  rw [List.drop_left' ha]

theorem memcpy_at_snd {a b c b' : List Nat} (ha : a.length = 8) (hb : b.length = 8)
    (hb' : b'.length = 8) : memcpy_at (a ++ b ++ c) 8 b' = .ok (a ++ b' ++ c) := by
  have h1 : 8 + b'.length ≤ (a ++ b ++ c).length := by
    simp only [List.length_append, ha, hb, hb']; omega
  have h2 : (a ++ b).length = 8 + b'.length := by simp [ha, hb, hb']
  rw [memcpy_at, if_pos h1]
  simp only [List.append_assoc]
  rw [List.take_left' ha]
  rw [← List.append_assoc a b c, List.drop_left' h2]

/-- The copy of a leaf. -/
theorem copy_leaf (n : Nat) (heap : Heap) (lh qc : Nat) (f : List Nat → Nat → Bool)
    (data : List Nat) (hwf : HeapWf heap) (h : (QTree.leaf lh qc f data).holds heap)
    (hroom : heap.brk + 2 < 2 ^ 64) :
    ∃ heap', mapper_list_header_copy (n + 1) heap lh = .ok (heap', heap.brk + 1) ∧
      IsCopy heap (.leaf lh qc f data) heap' (.leaf (heap.brk + 1) (heap.brk + 2) f data) := by
  have hle := QTree.hdrs_le_brk hwf h
  have hlc := QTree.ctxs_le_brk hwf h
  obtain ⟨hlh0, hqc0, ⟨hd, hhd, hq⟩, hc⟩ := h
  have hlh : lh ≤ heap.brk := hle lh (by simp [QTree.hdrs])
  have hqc : qc ≤ heap.brk := hlc qc (by simp [QTree.ctxs])
  refine ⟨((heap.malloc_hdr hd).1.malloc_ctx ⟨sizeof_query_info_t + data.length, .user f,
    .free_query_single_context, data⟩).1.set_hdr (heap.brk + 1)
      (some { hd with query_context := heap.brk + 2 }), ?_, ?_⟩
  · have hq0 : hd.query_context ≠ 0 := by rw [hq]; exact hqc0
    have hne : qc ≠ heap.brk + 1 := by omega
    simp [mapper_list_header_copy, read_hdr_some hhd, Heap.malloc_hdr, Heap.malloc_ctx,
      Heap.read_ctx, hq0, hq, hqc0, hne, hc, sizeof_query_info_t, bind, Except.bind]
  · refine ⟨rfl, ?_, rfl, rfl, rfl, by simp [QTree.hdrs], by simp [QTree.ctxs], ?_, ?_, ?_, rfl,
      ?_, ?_⟩
    · refine ⟨by omega, by omega,
        ⟨{ hd with query_context := heap.brk + 2 }, by simp [Heap.set_hdr], rfl⟩, ?_⟩
      simp [Heap.set_hdr, Heap.malloc_ctx, Heap.malloc_hdr]
    · intro a ha
      simp only [QTree.hdrs, List.mem_singleton] at ha
      subst ha
      simp [Heap.set_hdr, Heap.malloc_ctx, Heap.malloc_hdr]
    · intro a ha
      simp only [QTree.ctxs, List.mem_singleton] at ha
      subst ha
      simp [Heap.set_hdr, Heap.malloc_ctx, Heap.malloc_hdr]
    · intro a ha
      simp only [Heap.set_hdr, Heap.malloc_ctx, Heap.malloc_hdr] at ha ⊢
      have h1 : a ≠ heap.brk + 1 := by omega
      have h2 : a ≠ heap.brk + 1 + 1 := by omega
      simp only [h1, h2, if_false]
      exact hwf a (by omega)
    · intro a ha
      have h1 : a ≠ heap.brk + 1 := by omega
      have h2 : a ≠ heap.brk + 1 + 1 := by omega
      simp [Heap.set_hdr, Heap.malloc_ctx, Heap.malloc_hdr, h1, h2]
    · intro hd' hhd'
      have hroot : (QTree.leaf lh qc f data).root = lh := rfl
      rw [hroot, hhd] at hhd'
      cases hhd'
      simp [QTree.root, QTree.ctx, Heap.set_hdr]

/-- One level of `mapper_list_header_copy` on a header whose context holds
`cmp_parallel_query`. -/
theorem header_copy_node_eq (n : Nat) (heap : Heap) (lh : Nat) (hd : mapper_list_header_t)
    (sz : Nat) (fr : query_free_func_t) (D : List Nat)
    (hhd : heap.hdr lh = some hd) (hq0 : hd.query_context ≠ 0)
    (hc : heap.ctx hd.query_context = some ⟨sz, .cmp_parallel_query, fr, D⟩)
    (hsz : sz = sizeof_query_info_t + D.length) {lh1 lh2 : Nat}
    (h1 : read_ptr D 0 = .ok lh1) (h2 : read_ptr D 8 = .ok lh2)
    {heap4 heap5 : Heap} {l' r' : Nat}
    (hcopy1 : mapper_list_header_copy n
      (copy_heap heap hd ⟨sz, .cmp_parallel_query, fr, D⟩) lh1 = .ok (heap4, l'))
    (hcopy2 : mapper_list_header_copy n heap4 lh2 = .ok (heap5, r')) {d1 d2 : List Nat}
    (hm1 : memcpy_at D 0 (ptr_bytes l') = .ok d1)
    (hm2 : memcpy_at d1 8 (ptr_bytes r') = .ok d2) :
    mapper_list_header_copy (n + 1) heap lh =
      .ok (heap5.set_ctx (heap.brk + 2) (some ⟨sz, .cmp_parallel_query, fr, d2⟩),
        heap.brk + 1) := by
  have hrc : (heap.malloc_hdr hd).1.read_ctx hd.query_context
      = .ok ⟨sz, .cmp_parallel_query, fr, D⟩ := by
    simp [Heap.read_ctx, Heap.malloc_hdr, hc]
  have htake : D.take (sz - sizeof_query_info_t) = D := by
    rw [hsz, Nat.add_sub_cancel_left, List.take_of_length_le (le_refl _)]
  have hcond : ¬ (sz < sizeof_query_info_t ∨ sizeof_query_info_t + D.length < sz) := by
    rw [hsz]; omega
  have hheap : ((heap.malloc_hdr hd).1.malloc_ctx ⟨sz, .cmp_parallel_query, fr, D⟩).1.set_hdr
      (heap.brk + 1)
      (some { hd with query_context := heap.brk + 2 })
      = copy_heap heap hd ⟨sz, .cmp_parallel_query, fr, D⟩ := rfl
  have hqc2 : ((heap.malloc_hdr hd).1.malloc_ctx ⟨sz, .cmp_parallel_query, fr, D⟩).2
      = heap.brk + 2 := rfl
  have hcp : (heap.malloc_hdr hd).2 = heap.brk + 1 := rfl
  simp only [mapper_list_header_copy, read_hdr_some hhd, bind_ok, hq0, if_false, hrc, hcond, htake,
    h1, h2, hcp, hqc2]
  simp only [hheap, hcopy1, hcopy2, hm1, hm2, bind_ok]

theorem copy_heap_hdr (heap : Heap) (hd : mapper_list_header_t) (c : query_info_t) (a : Nat) :
    (copy_heap heap hd c).hdr a =
      if a = heap.brk + 1 then some { hd with query_context := heap.brk + 2 }
      else heap.hdr a := by
  by_cases h : a = heap.brk + 1 <;>
    simp [copy_heap, Heap.set_hdr, Heap.malloc_hdr, Heap.malloc_ctx, h]

theorem copy_heap_ctx (heap : Heap) (hd : mapper_list_header_t) (c : query_info_t) (a : Nat) :
    (copy_heap heap hd c).ctx a = if a = heap.brk + 2 then some c else heap.ctx a := by
  by_cases h : a = heap.brk + 2 <;>
    simp [copy_heap, Heap.set_hdr, Heap.malloc_hdr, Heap.malloc_ctx, h]

theorem copy_heap_wf {heap : Heap} (hwf : HeapWf heap) (hd : mapper_list_header_t)
    (c : query_info_t) : HeapWf (copy_heap heap hd c) := by
  intro a ha
  have hb : (copy_heap heap hd c).brk = heap.brk + 2 := rfl
  rw [hb] at ha
  rw [copy_heap_hdr, copy_heap_ctx, if_neg (by omega), if_neg (by omega)]
  exact hwf a (by omega)

theorem copy_heap_preserved (heap : Heap) (hd : mapper_list_header_t) (c : query_info_t) :
    Preserved heap (copy_heap heap hd c) := by
  intro a ha
  rw [copy_heap_hdr, copy_heap_ctx, if_neg (by omega), if_neg (by omega)]
  exact ⟨rfl, rfl⟩

theorem QTree.two_le_cells (t : QTree) : 2 ≤ t.cells := by
  cases t <;> simp only [QTree.cells] <;> omega

/-- Copying the header of a tree builds a copy of the whole tree in fresh
cells. -/
theorem copy_spec :
    ∀ (t : QTree) (fuel : Nat) (heap : Heap), HeapWf heap → t.holds heap → t.depth < fuel →
      heap.brk + t.cells < 2 ^ 64 →
      ∃ heap' t', mapper_list_header_copy fuel heap t.root = .ok (heap', t'.root) ∧
        IsCopy heap t heap' t' := by
  intro t
  induction t with
  | leaf lh qc f data =>
    intro fuel heap hwf h hd hroom
    obtain ⟨n, rfl⟩ : ∃ n, fuel = n + 1 := ⟨fuel - 1, by omega⟩
    obtain ⟨heap', hrun, hcopy⟩ := copy_leaf n heap lh qc f data hwf h hroom
    exact ⟨heap', .leaf (heap.brk + 1) (heap.brk + 2) f data, hrun, hcopy⟩
  | node lh qc op l r ihl ihr =>
    intro fuel heap hwf h hdep hroom
    obtain ⟨n, rfl⟩ : ∃ n, fuel = n + 1 := ⟨fuel - 1, by omega⟩
    have hdl : l.depth < n := by simp only [QTree.depth] at hdep; omega
    have hdr : r.depth < n := by simp only [QTree.depth] at hdep; omega
    simp only [QTree.cells] at hroom
    have hle := QTree.hdrs_le_brk hwf h
    have hlc := QTree.ctxs_le_brk hwf h
    obtain ⟨hlh0, hqc0, ⟨hd, hhd, hq⟩, hc, hl64, hr64, hop, hl, hr⟩ := h
    have hlh : lh ≤ heap.brk := hle lh (by simp [QTree.hdrs])
    have hqc : qc ≤ heap.brk := hlc qc (by simp [QTree.ctxs])
    have hq0 : hd.query_context ≠ 0 := by rw [hq]; exact hqc0
    -- the heap after the two allocations of this level
    have hwf3 := copy_heap_wf hwf hd ⟨sizeof_query_info_t + 20, .cmp_parallel_query,
      .free_query_single_context, ptr_bytes l.root ++ ptr_bytes r.root ++ int_bytes (op : Int)⟩
    have hp3 := copy_heap_preserved heap hd ⟨sizeof_query_info_t + 20, .cmp_parallel_query,
      .free_query_single_context, ptr_bytes l.root ++ ptr_bytes r.root ++ int_bytes (op : Int)⟩
    generalize hH3 : copy_heap heap hd ⟨sizeof_query_info_t + 20, .cmp_parallel_query,
      .free_query_single_context, ptr_bytes l.root ++ ptr_bytes r.root ++ int_bytes (op : Int)⟩
      = heap3 at hwf3 hp3
    have hb3 : heap3.brk = heap.brk + 2 := by rw [← hH3]; rfl
    have hhdr3 : heap3.hdr (heap.brk + 1) = some { hd with query_context := heap.brk + 2 } := by
      rw [← hH3, copy_heap_hdr, if_pos rfl]
    -- the copies of the two children
    obtain ⟨heap4, l', hcopy1, hL⟩ :=
      ihl n heap3 hwf3 (QTree.holds_preserved hwf hl hp3) hdl (by omega)
    have hp34 := hL.preserved
    have hb4 : heap4.brk = heap.brk + 2 + l.cells := by rw [hL.brk, hb3]
    have hr4 : r.holds heap4 :=
      QTree.holds_preserved hwf3 (QTree.holds_preserved hwf hr hp3) hp34
    obtain ⟨heap5, r', hcopy2, hR⟩ := ihr n heap4 hL.wf hr4 hdr (by omega)
    have hp45 := hR.preserved
    have hb5 : heap5.brk = heap.brk + 2 + l.cells + r.cells := by rw [hR.brk, hb4]
    have hlc2 := l.two_le_cells
    have hrc2 := r.two_le_cells
    have hlroot : l'.root = heap.brk + 3 := by rw [hL.root, hb3]
    have hrroot : r'.root = heap.brk + 2 + l.cells + 1 := by rw [hR.root, hb4]
    have hlenD : (ptr_bytes l.root ++ ptr_bytes r.root ++ int_bytes (op : Int)).length = 20 := by
      simp [ptr_bytes_length, int_bytes_length]
    have hrun := header_copy_node_eq n heap lh hd (sizeof_query_info_t + 20)
      .free_query_single_context (ptr_bytes l.root ++ ptr_bytes r.root ++ int_bytes (op : Int))
      hhd hq0 (by rw [hq]; exact hc) (by rw [hlenD])
      (read_ptr_fst (ptr_bytes_length _))
      (read_ptr_snd (ptr_bytes_length _) (ptr_bytes_length _))
      (by rw [le_val_ptr_bytes hl64, hH3]; exact hcopy1)
      (by rw [le_val_ptr_bytes hr64]; exact hcopy2)
      (memcpy_at_fst (ptr_bytes_length _) (ptr_bytes_length _))
      (memcpy_at_snd (ptr_bytes_length _) (ptr_bytes_length _) (ptr_bytes_length _))
    refine ⟨_, .node (heap.brk + 1) (heap.brk + 2) op l' r', hrun, ?_⟩
    have hhl := hL.fresh_hdrs
    have hcl := hL.fresh_ctxs
    have hhr := hR.fresh_hdrs
    have hcr := hR.fresh_ctxs
    have hl6 : l'.holds (heap5.set_ctx (heap.brk + 2) (some ⟨sizeof_query_info_t + 20,
        .cmp_parallel_query, .free_query_single_context,
        ptr_bytes l'.root ++ ptr_bytes r'.root ++ int_bytes (op : Int)⟩)) := by
      refine QTree.holds_of_agree (QTree.holds_preserved hL.wf hL.holds hp45)
        (fun a _ => rfl) (fun a ha => ?_)
      have := (hcl a ha).1
      simp only [Heap.set_ctx]
      rw [if_neg (by omega)]
    have hr6 : r'.holds (heap5.set_ctx (heap.brk + 2) (some ⟨sizeof_query_info_t + 20,
        .cmp_parallel_query, .free_query_single_context,
        ptr_bytes l'.root ++ ptr_bytes r'.root ++ int_bytes (op : Int)⟩)) := by
      refine QTree.holds_of_agree hR.holds (fun a _ => rfl) (fun a ha => ?_)
      have := (hcr a ha).1
      simp only [Heap.set_ctx]
      rw [if_neg (by omega)]
    have hhdr6 : heap5.hdr (heap.brk + 1) = some { hd with query_context := heap.brk + 2 } := by
      rw [(hp45 _ (by omega)).1, (hp34 _ (by omega)).1, hhdr3]
    refine ⟨rfl, ?_, ?_, ?_, ?_, ?_, ?_, ?_, ?_, ?_, ?_, ?_, ?_⟩
    · exact ⟨by omega, by omega, ⟨_, hhdr6, rfl⟩, by simp [Heap.set_ctx], by omega, by omega, hop,
        hl6, hr6⟩
    · funext x; simp only [QTree.sem, hL.sem, hR.sem]
    · simp only [QTree.depth, hL.depth, hR.depth]
    · simp only [QTree.cells, hL.cells, hR.cells]
    · simp only [QTree.hdrs, List.nodup_cons, List.mem_append, not_or]
      refine ⟨⟨fun hm => ?_, fun hm => ?_⟩, List.nodup_append.2 ⟨hL.nodup_hdrs, hR.nodup_hdrs, ?_⟩⟩
      · have := (hhl _ hm).1; omega
      · have := (hhr _ hm).1; omega
      · intro a ha hb
        have := (hhl a ha).2
        have := (hhr a hb).1
        omega
    · simp only [QTree.ctxs, List.nodup_cons, List.mem_append, not_or]
      refine ⟨⟨fun hm => ?_, fun hm => ?_⟩, List.nodup_append.2 ⟨hL.nodup_ctxs, hR.nodup_ctxs, ?_⟩⟩
      · have := (hcl _ hm).1; omega
      · have := (hcr _ hm).1; omega
      · intro a ha hb
        have := (hcl a ha).2
        have := (hcr a hb).1
        omega
    · intro a ha
      simp only [QTree.hdrs, List.mem_cons, List.mem_append] at ha
      have hb6 : (heap5.set_ctx (heap.brk + 2) (some ⟨sizeof_query_info_t + 20,
        .cmp_parallel_query, .free_query_single_context,
        ptr_bytes l'.root ++ ptr_bytes r'.root ++ int_bytes (op : Int)⟩)).brk = heap5.brk := rfl
      rw [hb6]
      rcases ha with rfl | ha | ha
      · omega
      · have := hhl a ha; omega
      · have := hhr a ha; omega
    · intro a ha
      simp only [QTree.ctxs, List.mem_cons, List.mem_append] at ha
      have hb6 : (heap5.set_ctx (heap.brk + 2) (some ⟨sizeof_query_info_t + 20,
        .cmp_parallel_query, .free_query_single_context,
        ptr_bytes l'.root ++ ptr_bytes r'.root ++ int_bytes (op : Int)⟩)).brk = heap5.brk := rfl
      rw [hb6]
      rcases ha with rfl | ha | ha
      · omega
      · have := hcl a ha; omega
      · have := hcr a ha; omega
    · intro a ha
      have ha' : heap5.brk < a := ha
      have := hR.wf a ha'
      simp only [Heap.set_ctx]
      rw [if_neg (by omega)]
      exact this
    · show heap5.brk = heap.brk + (2 + l.cells + r.cells)
      omega
    · intro a ha
      simp only [Heap.set_ctx]
      rw [if_neg (by omega)]
      have h5 := hp45 a (by omega)
      have h4 := hp34 a (by omega)
      have h3 := hp3 a ha
      exact ⟨h5.1.trans (h4.1.trans h3.1), h5.2.trans (h4.2.trans h3.2)⟩
    · intro hd' hhd'
      have hroot : (QTree.node lh qc op l r).root = lh := rfl
      rw [hroot, hhd] at hhd'
      cases hhd'
      exact hhdr6

/-! ## Length -/

/-- The loop of `mapper_list_length` counts what the loop of a visiting caller
visits, and leaves the same heap. -/
theorem length_loop_of_drain (cfuel : Nat) :
    ∀ (fuel : Nat) (heap : Heap) (list acc : Nat) (heap' : Heap) (vs : List Nat),
      drain fuel cfuel heap list = .ok (heap', vs) →
      mapper_list_length_loop fuel cfuel heap list acc = .ok (heap', acc + vs.length) := by
  intro fuel
  induction fuel with
  | zero => intro heap list acc heap' vs h; cases h
  | succ n ih =>
    intro heap list acc heap' vs h
    unfold drain at h
    unfold mapper_list_length_loop
    by_cases hl : list = 0
    · rw [if_pos hl] at h ⊢
      cases h; rfl
    · rw [if_neg hl] at h ⊢
      obtain ⟨hd, _, h⟩ := bind_ok_inv h
      obtain ⟨⟨heap1, l1⟩, hnext, h⟩ := bind_ok_inv h
      obtain ⟨⟨heap2, rest⟩, hrest, h⟩ := bind_ok_inv h
      cases h
      rw [hnext, bind_ok]
      show mapper_list_length_loop n cfuel heap1 l1 (acc + 1) = _
      rw [ih heap1 l1 (acc + 1) heap' rest hrest]
      simp only [List.length_cons]
      congr 2
      omega

theorem StatAt.next {heap : Heap} {h self : Nat} {rest : List Nat} (cfuel : Nat)
    (hs : StatAt heap h self rest) :
    ∃ nx, mapper_list_next cfuel heap h = .ok (heap, nx) ∧ IsList heap nx rest := by
  obtain ⟨hh, hself, nx, s, hcell, hrest⟩ := hs
  refine ⟨nx, ?_, hrest⟩
  unfold mapper_list_next
  rw [if_neg hh, read_hdr_some hcell, bind_ok]
  simp only [hself, if_false]
  by_cases hnx : nx = 0
  · subst hnx; simp
  · have : (next_t.data nx = next_t.data 0) = False := by simp [hnx]
    simp only [this, if_false]
    rw [from_data_of_list hrest]
    rfl

/-- Draining a static handle visits its cursor and then the items that follow. -/
theorem drain_statAt {heap : Heap} {h self : Nat} {rest : List Nat} (fuel cfuel : Nat)
    (hs : StatAt heap h self rest) (hf : rest.length + 1 < fuel) :
    drain fuel cfuel heap h = .ok (heap, self :: rest) := by
  obtain ⟨m, rfl⟩ : ∃ m, fuel = m + 1 := ⟨fuel - 1, by omega⟩
  obtain ⟨nx, hnext, hrest⟩ := hs.next cfuel
  obtain ⟨hh, hself, nx', s, hcell, _⟩ := hs
  unfold drain
  rw [if_neg hh, read_hdr_some hcell]
  simp only [bind_ok, hnext]
  rw [drain_static cfuel rest nx m hrest (by omega)]
  rfl

theorem StatAt.preserved_static {heap heap' : Heap} (hwf : HeapWf heap) {h self : Nat}
    {rest : List Nat} (hs : StatAt heap h self rest) (hp : Preserved heap heap') :
    StatAt heap' h self rest := by
  obtain ⟨hh, hself, nx, s, hcell, hrest⟩ := hs
  have hle : h ≤ heap.brk := by
    by_contra hlt
    have := (hwf h (by omega)).1
    rw [hcell] at this
    cases this
  exact ⟨hh, hself, nx, s, by rw [(hp h hle).1]; exact hcell, hrest.preserved_list hwf hp⟩

theorem DynAt.preserved_dynamic {heap heap' : Heap} (hwf : HeapWf heap) {t : QTree} {self start : Nat}
    {rest : List Nat} (hd : DynAt heap t self start rest) (hp : Preserved heap heap') :
    DynAt heap' t self start rest := by
  obtain ⟨hroot, hholds, hn1, hn2, hl⟩ := hd
  have hle := QTree.hdrs_le_brk hwf hholds t.root t.root_mem_hdrs
  exact ⟨by rw [(hp _ hle).1]; exact hroot, QTree.holds_preserved hwf hholds hp, hn1, hn2,
    hl.preserved_list hwf hp⟩

/-- The copy of a static handle is a static handle with the same cursor. -/
theorem copy_static {heap : Heap} {h self : Nat} {rest : List Nat} (n : Nat) (hwf : HeapWf heap)
    (hs : StatAt heap h self rest) :
    ∃ heap', mapper_list_header_copy (n + 1) heap h = .ok (heap', heap.brk + 1) ∧
      StatAt heap' (heap.brk + 1) self rest ∧ Preserved heap heap' ∧ HeapWf heap' ∧
      heap'.brk = heap.brk + 1 := by
  obtain ⟨hh, hself, nx, s, hcell, hrest⟩ := hs
  have hp' : Preserved heap (heap.malloc_hdr ⟨.data nx, self, s, 0, .QUERY_STATIC⟩).1 := by
    intro a ha
    have : a ≠ heap.brk + 1 := by omega
    simp [Heap.malloc_hdr, this]
  refine ⟨(heap.malloc_hdr ⟨.data nx, self, s, 0, .QUERY_STATIC⟩).1, ?_, ?_, hp', ?_, rfl⟩
  · simp [mapper_list_header_copy, read_hdr_some hcell, bind, Except.bind, Heap.malloc_hdr]
  · exact ⟨by omega, hself, nx, s, by simp [Heap.malloc_hdr], hrest.preserved_list hwf hp'⟩
  · intro a ha
    have ha' : heap.brk + 1 < a := ha
    have : a ≠ heap.brk + 1 := by omega
    simp only [Heap.malloc_hdr, this, if_false]
    exact hwf a (by omega)

/-- The copy of a dynamic handle is a dynamic handle on a copy of its tree,
with the same cursor and origin. -/
theorem copy_dynamic {heap : Heap} {t : QTree} {self start : Nat} {rest : List Nat} (fuel : Nat)
    (hwf : HeapWf heap) (hd : DynAt heap t self start rest) (hdep : t.depth < fuel)
    (hroom : heap.brk + t.cells < 2 ^ 64) :
    ∃ heap' t', mapper_list_header_copy fuel heap t.root = .ok (heap', t'.root) ∧
      IsCopy heap t heap' t' ∧ DynAt heap' t' self start rest := by
  obtain ⟨heap', t', hrun, hcopy⟩ := copy_spec t fuel heap hwf hd.2.1 hdep hroom
  refine ⟨heap', t', hrun, hcopy, hcopy.hdr _ hd.1, hcopy.holds, hcopy.nodup_hdrs,
    hcopy.nodup_ctxs, hd.2.2.2.2.preserved_list hwf hcopy.preserved⟩

/-- Draining the copy of a dynamic handle leaves every cell of the heap before
the copy as it was. -/
theorem drain_copy_dynamic {heap heap1 : Heap} {t t' : QTree} {self start : Nat}
    {rest : List Nat} (fuel : Nat) (hcopy : IsCopy heap t heap1 t')
    (hd' : DynAt heap1 t' self start rest) (hf : rest.length + t.depth + 2 < fuel) :
    ∃ heap2, drain fuel fuel heap1 t'.root = .ok (heap2, self :: rest.filter t.sem) ∧
      Preserved heap heap2 ∧ HeapWf heap2 ∧ heap2.brk = heap1.brk := by
  have hdep := hcopy.depth
  obtain ⟨heap2, hdrain, hF⟩ :=
    drain_dynamic fuel rest.length rest (le_refl _) heap1 self start fuel hd' (by omega) (by omega)
  rw [hcopy.sem] at hdrain
  refine ⟨heap2, hdrain, fun a ha => ?_, fun a ha => ?_, hF.1⟩
  · have h1 : a ∉ t'.hdrs := fun hm => by have := (hcopy.fresh_hdrs a hm).1; omega
    have h2 : a ∉ t'.ctxs := fun hm => by have := (hcopy.fresh_ctxs a hm).1; omega
    rw [hF.2.1 a, hF.2.2 a, if_neg h1, if_neg h2]
    exact hcopy.preserved a ha
  · rw [hF.1] at ha
    have := hcopy.wf a ha
    rw [hF.2.1 a, hF.2.2 a, this.1, this.2]
    simp

theorem length_absent (fuel : Nat) (heap : Heap) (hf : 0 < fuel) :
    mapper_list_length fuel heap 0 = .ok (heap, 0) := by
  obtain ⟨m, rfl⟩ : ∃ m, fuel = m + 1 := ⟨fuel - 1, by omega⟩
  simp [mapper_list_length, mapper_list_copy, mapper_list_length_loop, bind, Except.bind]

/-- The length of a static handle: the copy is drained, the heap keeps all its
cells. -/
theorem length_static {heap : Heap} {h self : Nat} {rest : List Nat} (fuel : Nat)
    (hwf : HeapWf heap) (hs : StatAt heap h self rest) (hf : rest.length + 1 < fuel) :
    ∃ heap', mapper_list_length fuel heap h = .ok (heap', rest.length + 1) ∧
      Preserved heap heap' ∧ HeapWf heap' := by
  obtain ⟨m, rfl⟩ : ∃ m, fuel = m + 1 := ⟨fuel - 1, by omega⟩
  obtain ⟨heap1, hcopy, hs1, hp, hwf1, _⟩ := copy_static m hwf hs
  refine ⟨heap1, ?_, hp, hwf1⟩
  have hdrain := drain_statAt (m + 1) (m + 1) hs1 hf
  have hloop := length_loop_of_drain (m + 1) (m + 1) heap1 (heap.brk + 1) 0 heap1 _ hdrain
  simp only [mapper_list_length, mapper_list_copy, hs.1, if_false, hcopy, bind_ok]
  rw [hloop]
  simp

/-- The length of a dynamic handle: a copy of its tree is built and drained,
the heap keeps all its cells. -/
theorem length_dynamic {heap : Heap} {t : QTree} {self start : Nat} {rest : List Nat}
    (fuel : Nat) (hwf : HeapWf heap) (hd : DynAt heap t self start rest)
    (hroom : heap.brk + t.cells < 2 ^ 64) (hf : rest.length + t.depth + 2 < fuel) :
    ∃ heap', mapper_list_length fuel heap t.root =
        .ok (heap', (self :: rest.filter t.sem).length) ∧
      Preserved heap heap' ∧ HeapWf heap' := by
  obtain ⟨heap1, t', hcopy, hC, hd'⟩ := copy_dynamic fuel hwf hd (by omega) hroom
  obtain ⟨heap2, hdrain, hp, hwf2, _⟩ := drain_copy_dynamic fuel hC hd' hf
  refine ⟨heap2, ?_, hp, hwf2⟩
  have hloop := length_loop_of_drain fuel fuel heap1 t'.root 0 heap2 _ hdrain
  simp only [mapper_list_length, mapper_list_copy, QTree.root_ne_zero hd.2.1, if_false, hcopy,
    bind_ok]
  rw [hloop]
  simp

/-- C9: `mapper_list_length` of a handle returns the number of items that
iterating from the cursor of the handle visits, the current item and every
later item reached by `next`, and every cell that the heap held before the
call, so the header, context and children of the handle, is the same after it;
the length of the null handle is 0.  The three parts are the null handle, a
static handle and a dynamic handle with a tree of any depth. -/
theorem length_counts :
    (∀ (fuel : Nat) (heap : Heap), 0 < fuel → mapper_list_length fuel heap 0 = .ok (heap, 0)) ∧
    (∀ (fuel : Nat) (heap : Heap) (h self : Nat) (rest : List Nat), HeapWf heap →
      StatAt heap h self rest → rest.length + 1 < fuel →
      ∃ heap' visited, mapper_list_length fuel heap h = .ok (heap', visited.length) ∧
        drain fuel fuel heap h = .ok (heap, visited) ∧ visited = self :: rest ∧
        Preserved heap heap' ∧ StatAt heap' h self rest) ∧
    (∀ (fuel : Nat) (heap : Heap) (t : QTree) (self start : Nat) (rest : List Nat),
      HeapWf heap → DynAt heap t self start rest → heap.brk + t.cells < 2 ^ 64 →
      rest.length + t.depth + 2 < fuel →
      ∃ heap' heap'' visited,
        mapper_list_length fuel heap t.root = .ok (heap', visited.length) ∧
        drain fuel fuel heap t.root = .ok (heap'', visited) ∧
        visited = self :: rest.filter t.sem ∧
        Preserved heap heap' ∧ DynAt heap' t self start rest) := by
  refine ⟨length_absent, ?_, ?_⟩
  · intro fuel heap h self rest hwf hs hf
    obtain ⟨heap', hlen, hp, _⟩ := length_static fuel hwf hs hf
    exact ⟨heap', self :: rest, hlen, drain_statAt fuel fuel hs hf, rfl, hp, hs.preserved_static hwf hp⟩
  · intro fuel heap t self start rest hwf hd hroom hf
    obtain ⟨heap', hlen, hp, _⟩ := length_dynamic fuel hwf hd hroom hf
    obtain ⟨heap'', hdrain, _⟩ :=
      drain_dynamic fuel rest.length rest (le_refl _) heap self start fuel hd (by omega) (by omega)
    exact ⟨heap', heap'', _, hlen, hdrain, rfl, hp, hd.preserved_dynamic hwf hp⟩

/-- C8: the length of a handle equals the length of its copy, and draining the
copy leaves every cell that the heap held before the copy as it was, so the
cursor, the context and the children of the original are unchanged and the
original is still a handle; the copy is made of cells allocated after the
original.  The three parts are the null handle, a static handle and a dynamic
handle with a tree of any depth. -/
theorem copy_independent :
    (∀ (fuel : Nat) (heap : Heap), 0 < fuel →
      mapper_list_copy fuel heap 0 = .ok (heap, 0) ∧
      mapper_list_length fuel heap 0 = .ok (heap, 0)) ∧
    (∀ (fuel : Nat) (heap : Heap) (h self : Nat) (rest : List Nat), HeapWf heap →
      StatAt heap h self rest → rest.length + 1 < fuel →
      ∃ heap1 c heap2 heap3 n visited,
        mapper_list_copy fuel heap h = .ok (heap1, c) ∧
        mapper_list_length fuel heap h = .ok (heap2, n) ∧
        mapper_list_length fuel heap1 c = .ok (heap3, n) ∧
        heap.brk < c ∧
        drain fuel fuel heap1 c = .ok (heap1, visited) ∧
        Preserved heap heap1 ∧ StatAt heap1 h self rest) ∧
    (∀ (fuel : Nat) (heap : Heap) (t : QTree) (self start : Nat) (rest : List Nat),
      HeapWf heap → DynAt heap t self start rest → heap.brk + 2 * t.cells < 2 ^ 64 →
      rest.length + t.depth + 2 < fuel →
      ∃ heap1 t' heap2 heap3 n heap4 visited,
        mapper_list_copy fuel heap t.root = .ok (heap1, t'.root) ∧
        mapper_list_length fuel heap t.root = .ok (heap2, n) ∧
        mapper_list_length fuel heap1 t'.root = .ok (heap3, n) ∧
        DynAt heap1 t' self start rest ∧
        (∀ a ∈ t'.hdrs, a ∉ t.hdrs) ∧ (∀ a ∈ t'.ctxs, a ∉ t.ctxs) ∧
        drain fuel fuel heap1 t'.root = .ok (heap4, visited) ∧
        Preserved heap heap4 ∧ DynAt heap4 t self start rest) := by
  refine ⟨fun fuel heap hf => ⟨by simp [mapper_list_copy], length_absent fuel heap hf⟩, ?_, ?_⟩
  · intro fuel heap h self rest hwf hs hf
    obtain ⟨m, rfl⟩ : ∃ m, fuel = m + 1 := ⟨fuel - 1, by omega⟩
    obtain ⟨heap1, hcopy, hs1, hp, hwf1, _⟩ := copy_static m hwf hs
    obtain ⟨heap2, hlen, _, _⟩ := length_static (m + 1) hwf hs hf
    obtain ⟨heap3, hlen', _, _⟩ := length_static (m + 1) hwf1 hs1 hf
    refine ⟨heap1, heap.brk + 1, heap2, heap3, rest.length + 1, self :: rest, ?_, hlen, hlen',
      by omega, drain_statAt (m + 1) (m + 1) hs1 hf, hp, hs.preserved_static hwf hp⟩
    simp only [mapper_list_copy, hs.1, if_false, hcopy]
  · intro fuel heap t self start rest hwf hd hroom hf
    obtain ⟨heap1, t', hcopy, hC, hd'⟩ := copy_dynamic fuel hwf hd (by omega) (by omega)
    obtain ⟨heap2, hlen, _, _⟩ := length_dynamic fuel hwf hd (by omega) hf
    have hroom' : heap1.brk + t'.cells < 2 ^ 64 := by rw [hC.brk, hC.cells]; omega
    obtain ⟨heap3, hlen', _, _⟩ :=
      length_dynamic fuel hC.wf hd' hroom' (by rw [hC.depth]; exact hf)
    obtain ⟨heap4, hdrain, hp4, _, _⟩ := drain_copy_dynamic fuel hC hd' hf
    rw [hC.sem] at hlen'
    refine ⟨heap1, t', heap2, heap3, _, heap4, _, ?_, hlen, hlen', hd', ?_, ?_, hdrain, hp4,
      hd.preserved_dynamic hwf hp4⟩
    · simp only [mapper_list_copy, QTree.root_ne_zero hd.2.1, if_false, hcopy]
    · intro a ha hm
      have := (hC.fresh_hdrs a ha).1
      have := QTree.hdrs_le_brk hwf hd.2.1 a hm
      omega
    · intro a ha hm
      have := (hC.fresh_ctxs a ha).1
      have := QTree.ctxs_le_brk hwf hd.2.1 a hm
      omega

theorem example_A_dyn : DynAt example_queries example_A 10 10 [9, 8, 7, 6, 5, 4, 3, 2, 1] :=
  ⟨rfl, example_A_holds, by decide, by decide, example_queries_isList⟩

theorem example_static_7 : StatAt example_queries 7 7 [6, 5, 4, 3, 2, 1] := by
  refine ⟨by decide, by decide, 6, 7, rfl, ?_⟩
  simp [IsList, example_queries]

/-- C9 on the example: the null handle has length 0, the static handle of the
item of index 3 has length 7, the query `A` has length 5. -/
theorem length_counts_witness :
    mapper_list_length 14 example_queries 0 = .ok (example_queries, 0) ∧
    (∃ heap', mapper_list_length 14 example_queries 7 = .ok (heap', 7) ∧
      Preserved example_queries heap') ∧
    (∃ heap', mapper_list_length 14 example_queries 11 = .ok (heap', 5) ∧
      Preserved example_queries heap') := by
  refine ⟨length_counts.1 14 example_queries (by decide), ?_, ?_⟩
  · obtain ⟨heap', visited, h1, _, h3, h4, _⟩ :=
      length_counts.2.1 14 example_queries 7 7 [6, 5, 4, 3, 2, 1] example_queries_wf
        example_static_7 (by decide)
    subst h3
    exact ⟨heap', h1, h4⟩
  · obtain ⟨heap', _, visited, h1, _, h3, h4, _⟩ :=
      length_counts.2.2 14 example_queries example_A 10 10 [9, 8, 7, 6, 5, 4, 3, 2, 1]
        example_queries_wf example_A_dyn (by norm_num [example_queries, example_A, QTree.cells])
        (by decide)
    subst h3
    exact ⟨heap', h1, h4⟩

/-- C8 on the example: the query `A` and its copy both have length 5, the
static handle of the item of index 3 and its copy both have length 7, and the
heap keeps its cells when the copy is drained. -/
theorem copy_independent_witness :
    (∃ heap1 c heap2 heap3,
      mapper_list_copy 14 example_queries 7 = .ok (heap1, c) ∧
      mapper_list_length 14 example_queries 7 = .ok (heap2, 7) ∧
      mapper_list_length 14 heap1 c = .ok (heap3, 7) ∧ Preserved example_queries heap1) ∧
    (∃ heap1 c heap2 heap3 heap4 visited,
      mapper_list_copy 14 example_queries 11 = .ok (heap1, c) ∧
      mapper_list_length 14 example_queries 11 = .ok (heap2, 5) ∧
      mapper_list_length 14 heap1 c = .ok (heap3, 5) ∧
      drain 14 14 heap1 c = .ok (heap4, visited) ∧ Preserved example_queries heap4) := by
  constructor
  · obtain ⟨heap1, c, heap2, heap3, n, visited, h1, h2, h3, _, _, h6, _⟩ :=
      copy_independent.2.1 14 example_queries 7 7 [6, 5, 4, 3, 2, 1] example_queries_wf
        example_static_7 (by decide)
    obtain ⟨_, h2', _⟩ := length_static 14 example_queries_wf example_static_7 (by decide)
    have hn : n = 7 := by
      rw [h2] at h2'
      cases h2'
      rfl
    subst hn
    exact ⟨heap1, c, heap2, heap3, h1, h2, h3, h6⟩
  · obtain ⟨heap1, t', heap2, heap3, n, heap4, visited, h1, h2, h3, _, _, _, h7, h8, _⟩ :=
      copy_independent.2.2 14 example_queries example_A 10 10 [9, 8, 7, 6, 5, 4, 3, 2, 1]
        example_queries_wf example_A_dyn (by norm_num [example_queries, example_A, QTree.cells])
        (by decide)
    obtain ⟨_, h2', _⟩ := length_dynamic 14 example_queries_wf example_A_dyn
      (by norm_num [example_queries, example_A, QTree.cells]) (by decide)
    have hn : n = 5 := by
      rw [h2] at h2'
      cases h2'
      rfl
    subst hn
    exact ⟨heap1, t'.root, heap2, heap3, heap4, visited, h1, h2, h3, h7, h8⟩

/-! ## Absent handles, release, advance -/

/-- C15: every public operation on the null handle is a no-op or gives the
empty result without a fault: `next` returns the end, also on a handle whose
cursor is null, `get_index` returns none, `copy` returns null, `length`
returns 0, `filter` returns null, `free` changes nothing, also on a handle
whose cursor is null, `free_item` of null changes nothing and `from_data` of
null is null. -/
theorem absent_handle_ops (fuel : Nat) (heap : Heap) (hf : 0 < fuel) :
    mapper_list_next fuel heap 0 = .ok (heap, 0) ∧
    (∀ h hd, heap.hdr h = some hd → hd.self = 0 →
      mapper_list_next fuel heap h = .ok (heap, 0)) ∧
    (∀ i, mapper_list_get_index fuel heap 0 i = .ok (heap, 0)) ∧
    mapper_list_copy fuel heap 0 = .ok (heap, 0) ∧
    mapper_list_length fuel heap 0 = .ok (heap, 0) ∧
    (∀ cf types aq, mapper_list_filter fuel heap 0 cf types aq = .ok (heap, 0)) ∧
    mapper_list_free fuel heap 0 = .ok heap ∧
    (∀ h hd, heap.hdr h = some hd → hd.self = 0 → mapper_list_free fuel heap h = .ok heap) ∧
    mapper_list_free_item heap 0 = .ok heap ∧
    mapper_list_from_data heap 0 = .ok 0 := by
  refine ⟨by simp [mapper_list_next], ?_, by simp [mapper_list_get_index],
    by simp [mapper_list_copy], length_absent fuel heap hf, by simp [mapper_list_filter],
    by simp [mapper_list_free], ?_, by simp [mapper_list_free_item],
    by simp [mapper_list_from_data]⟩
  · intro h hd hh hs
    by_cases h0 : h = 0
    · simp [mapper_list_next, h0]
    · simp [mapper_list_next, h0, read_hdr_some hh, hs, bind, Except.bind]
  · intro h hd hh hs
    by_cases h0 : h = 0
    · simp [mapper_list_free, h0]
    · simp [mapper_list_free, h0, read_hdr_some hh, hs, bind, Except.bind]

/-- C15 on the empty heap with fuel 1. -/
theorem absent_handle_ops_witness :
    mapper_list_next 1 Heap.empty 0 = .ok (Heap.empty, 0) ∧
    mapper_list_length 1 Heap.empty 0 = .ok (Heap.empty, 0) ∧
    mapper_list_get_index 1 Heap.empty 0 3 = .ok (Heap.empty, 0) ∧
    mapper_list_free 1 Heap.empty 0 = .ok Heap.empty :=
  have h := absent_handle_ops 1 Heap.empty (by decide)
  ⟨h.1, h.2.2.2.2.1, h.2.2.1 3, h.2.2.2.2.2.2.1⟩

theorem QTree.hdrs_have_ctx {heap : Heap} :
    ∀ (t : QTree), t.holds heap →
      ∀ a ∈ t.hdrs, ∃ hd, heap.hdr a = some hd ∧ hd.query_context ≠ 0 := by
  intro t
  induction t with
  | leaf lh qc f data =>
    intro h a ha
    obtain ⟨_, hq0, ⟨hd, hhd, hq⟩, _⟩ := h
    simp only [QTree.hdrs, List.mem_singleton] at ha
    subst ha
    exact ⟨hd, hhd, by rw [hq]; exact hq0⟩
  | node lh qc op l r ihl ihr =>
    intro h a ha
    obtain ⟨_, hq0, ⟨hd, hhd, hq⟩, _, _, _, _, hl, hr⟩ := h
    simp only [QTree.hdrs, List.mem_cons, List.mem_append] at ha
    rcases ha with rfl | ha | ha
    · exact ⟨hd, hhd, by rw [hq]; exact hq0⟩
    · exact ihl hl a ha
    · exact ihr hr a ha

/-- C16: `mapper_list_free` on a dynamic handle, leaf or composite of any depth
and with its cursor anywhere in the source, succeeds, so no cell is released
twice, and releases exactly the headers and the contexts of the tree of the
handle; every header without a query context, so every item of a static list,
is kept. -/
theorem free_releases_tree (fuel : Nat) (heap : Heap) (t : QTree) (self start : Nat)
    (rest : List Nat) (hd : DynAt heap t self start rest) (hf : t.depth < fuel) :
    ∃ heap', mapper_list_free fuel heap t.root = .ok heap' ∧
      Freed heap heap' t.hdrs t.ctxs ∧
      (∀ x hx, heap.hdr x = some hx → hx.query_context = 0 → heap'.hdr x = some hx) ∧
      IsList heap' self (self :: rest) := by
  obtain ⟨hroot, hholds, hn1, hn2, hl⟩ := hd
  obtain ⟨heap', hfree, hF⟩ := free_spec t fuel heap hholds hn1 hn2 hf
  obtain ⟨c, hc, hcf⟩ := QTree.holds_ctx_free hholds
  have hkeep : ∀ x hx, heap.hdr x = some hx → hx.query_context = 0 →
      heap'.hdr x = some hx := by
    intro x hx hhx hq
    have hni : x ∉ t.hdrs := fun hm => by
      obtain ⟨hd', hhd', hq'⟩ := QTree.hdrs_have_ctx t hholds x hm
      rw [hhx] at hhd'
      cases hhd'
      exact hq' hq
    rw [hF.2.1 x, if_neg hni]
    exact hhx
  refine ⟨heap', ?_, hF, hkeep, ?_⟩
  · have hself0 : self ≠ 0 := hl.2.1
    simp [mapper_list_free, QTree.root_ne_zero hholds, read_hdr_some hroot, hself0,
      read_ctx_some hc, hcf, hfree, bind, Except.bind]
  · refine hl.frame (fun x hx => ?_)
    obtain ⟨nx, s, hcell⟩ := hl.cell x hx
    rw [hkeep x _ hcell rfl, hcell]

/-- C16 on the example: freeing the query `A` releases its header 11 and its
context 12 and keeps the ten items. -/
theorem free_releases_tree_witness :
    ∃ heap', mapper_list_free 1 example_queries 11 = .ok heap' ∧
      heap'.hdr 11 = none ∧ heap'.ctx 12 = none ∧
      IsList heap' 10 example_items := by
  obtain ⟨heap', h1, h2, _, h4⟩ :=
    free_releases_tree 1 example_queries example_A 10 10 [9, 8, 7, 6, 5, 4, 3, 2, 1]
      example_A_dyn (by decide)
  refine ⟨heap', h1, ?_, ?_, h4⟩
  · rw [h2.2.1 11]; rfl
  · rw [h2.2.2 12]; rfl

theorem dropWhile_first_true {p : Nat → Bool} {y : Nat} {post : List Nat} :
    ∀ (pre : List Nat), (∀ x ∈ pre, p x = false) → p y = true →
      (pre ++ y :: post).dropWhile (fun x => !p x) = y :: post := by
  intro pre
  induction pre with
  | nil => intro _ hy; simp [List.dropWhile, hy]
  | cons x xs ih =>
    intro h hy
    have hx := h x (List.mem_cons_self _ _)
    simp only [List.cons_append, List.dropWhile, hx, Bool.not_false]
    exact ih (fun z hz => h z (List.mem_cons_of_mem _ hz)) hy

theorem next_dynamic_eq {heap : Heap} {t : QTree} {self start : Nat} {rest : List Nat}
    (fuel : Nat) (hd : DynAt heap t self start rest) :
    mapper_list_next fuel heap t.root = mapper_list_query_continuation fuel heap t.root := by
  have hself0 : self ≠ 0 := hd.2.2.2.2.2.1
  simp [mapper_list_next, QTree.root_ne_zero hd.2.1, read_hdr_some hd.1, hself0, bind,
    Except.bind]

theorem get_query_size_case_bad {c : Char} (hc : is_tag c = false) (num : Option Nat)
    (aq : List arg_t) : get_query_size_case c num aq = .ok none := by
  simp only [is_tag, Bool.or_eq_false_iff, decide_eq_false_iff_not] at hc
  obtain ⟨⟨⟨⟨h1, h2⟩, h3⟩, h4⟩, h5⟩ := hc
  simp [get_query_size_case, h1, h2, h3, h4, h5]

theorem get_query_size_case_error {c : Char} {num : Option Nat} {aq : List arg_t} {e : Err}
    (h : get_query_size_case c num aq = .error e) : e = .fault := by
  unfold get_query_size_case at h
  split_ifs at h
  all_goals first
    | cases h
    | (split at h
       all_goals first
         | (cases h <;> rfl)
         | (split_ifs at h
            all_goals (cases h; rfl)))

theorem isDigit_not_tag {c : Char} (h : c.isDigit = true) : is_tag c = false := by
  by_contra hne
  have ht : is_tag c = true := by simpa using hne
  simp only [is_tag, Bool.or_eq_true, decide_eq_true_eq] at ht
  rcases ht with (((rfl | rfl) | rfl) | rfl) | rfl <;> revert h <;> decide

/-- Pass 1 on a tag string with an unknown tag returns 0, unless reading an
argument before it is undefined. -/
theorem get_query_size_loop_bad :
    ∀ (n : Nat) (types : List Char), types.length ≤ n → ∀ (after : Bool) (aq : List arg_t)
      (size : Nat), bad_tag_from after types = true →
      get_query_size_loop types aq size = .ok 0 ∨
        get_query_size_loop types aq size = .error .fault := by
  intro n
  induction n with
  | zero =>
    intro types hlen after aq size hbad
    have : types = [] := List.length_eq_zero.1 (by omega)
    subst this
    simp [bad_tag_from] at hbad
  | succ n ih =>
    intro types hlen after aq size hbad
    match types, hlen, hbad with
    | [], _, hbad => simp [bad_tag_from] at hbad
    | [c], _, hbad =>
      cases htag : is_tag c with
      | false =>
        left
        simp [get_query_size_loop, get_query_size_case_bad htag]
      | true =>
        have hnd : c.isDigit = false := by
          by_contra hd
          have := isDigit_not_tag (by simpa using hd : c.isDigit = true)
          rw [htag] at this
          cases this
        simp [bad_tag_from, htag, hnd] at hbad
    | c :: d :: ts, hlen, hbad =>
      simp only [List.length_cons] at hlen
      cases htag : is_tag c with
      | false =>
        left
        by_cases hd : d.isDigit = true <;>
          simp [get_query_size_loop, get_query_size_case_bad htag, hd]
      | true =>
        have hnd : c.isDigit = false := by
          by_contra hd
          have := isDigit_not_tag (by simpa using hd : c.isDigit = true)
          rw [htag] at this
          cases this
        have hbad' : bad_tag_from true (d :: ts) = true := by
          simpa [bad_tag_from, htag, hnd] using hbad
        by_cases hd : d.isDigit = true
        · have hbad'' : bad_tag_from true ts = true := by
            simpa [bad_tag_from, hd] using hbad'
          simp only [get_query_size_loop, hd, if_true]
          cases hcase : get_query_size_case c (some (atoi (d :: ts))) aq with
          | error e =>
            right
            rw [get_query_size_case_error hcase]
          | ok r =>
            cases r with
            | none => left; rfl
            | some r => exact ih ts (by omega) true r.2 (size + r.1) hbad''
        · simp only [get_query_size_loop, hd]
          cases hcase : get_query_size_case c none aq with
          | error e =>
            right
            rw [get_query_size_case_error hcase]
            rfl
          | ok r =>
            cases r with
            | none => left; rfl
            | some r =>
              exact ih (d :: ts) (by simp only [List.length_cons]; omega) true r.2 (size + r.1)
                hbad'

/-- C14: for a tag string with, at a tag position, a character other than
`i`, `h`, `c`, `s`, `v`, and an argument list that pass 1 can read up to that
character, `mapper_list_new_query` returns the null handle for every source and
predicate and leaves the heap as it is, so nothing is allocated; and when the
encoder of `new_query_internal` itself reaches an unknown tag, the header and
the context it had allocated are released and the null handle is returned. -/
theorem bad_tag_absent (fuel : Nat) (heap : Heap) (list : Nat) (cf : query_compare_func_t)
    (types : List Char) (aq : List arg_t) (hbad : has_bad_tag types = true) :
    (get_query_size (some types) aq ≠ .error .fault →
      mapper_list_new_query fuel heap list cf (some types) aq = .ok (heap, 0)) ∧
    (∀ size, HeapWf heap →
      new_query_internal_loop types aq (List.replicate size 0) size 0 = .ok none →
      ∃ heap', new_query_internal fuel heap list size cf (some types) aq = .ok (heap', 0) ∧
        ∀ a, heap'.hdr a = heap.hdr a ∧ heap'.ctx a = heap.ctx a) := by
  constructor
  · intro hread
    have h := get_query_size_loop_bad types.length types (le_refl _) false aq 0 hbad
    have h0 : get_query_size (some types) aq = .ok 0 := by
      rcases h with h | h
      · exact h
      · exact absurd h hread
    cases cf <;> simp [mapper_list_new_query, h0, new_query_internal, bind, Except.bind]
  · intro size hwf hloop
    by_cases hgate : list = 0 ∨ size = 0
    · exact ⟨heap, by cases cf <;> simp [new_query_internal, hgate], fun a => ⟨rfl, rfl⟩⟩
    · have h1 := (hwf (heap.brk + 1) (by omega)).1
      have h2 := (hwf (heap.brk + 2) (by omega)).2
      cases cf with
      | null => exact ⟨heap, by simp [new_query_internal], fun a => ⟨rfl, rfl⟩⟩
      | cmp_parallel_query =>
        refine ⟨_, by
          simp [new_query_internal, hgate, hloop, Heap.free_ctx, Heap.free_hdr, Heap.set_hdr,
            Heap.set_ctx, Heap.malloc_hdr, Heap.malloc_ctx, bind, Except.bind]
          rfl, fun a => ?_⟩
        by_cases ha1 : a = heap.brk + 1 <;> by_cases ha2 : a = heap.brk + 1 + 1 <;>
          simp_all [Heap.set_hdr, Heap.set_ctx]
      | user f =>
        refine ⟨_, by
          simp [new_query_internal, hgate, hloop, Heap.free_ctx, Heap.free_hdr, Heap.set_hdr,
            Heap.set_ctx, Heap.malloc_hdr, Heap.malloc_ctx, bind, Except.bind]
          rfl, fun a => ?_⟩
        by_cases ha1 : a = heap.brk + 1 <;> by_cases ha2 : a = heap.brk + 1 + 1 <;>
          simp_all [Heap.set_hdr, Heap.set_ctx]

/-! ## Inclusion and exclusion -/

theorem length_dynamic_brk {heap : Heap} {t : QTree} {self start : Nat} {rest : List Nat}
    (fuel : Nat) (hwf : HeapWf heap) (hd : DynAt heap t self start rest)
    (hroom : heap.brk + t.cells < 2 ^ 64) (hf : rest.length + t.depth + 2 < fuel) :
    ∃ heap', mapper_list_length fuel heap t.root =
        .ok (heap', (self :: rest.filter t.sem).length) ∧
      Preserved heap heap' ∧ HeapWf heap' ∧ heap'.brk = heap.brk + t.cells := by
  obtain ⟨heap1, t', hcopy, hC, hd'⟩ := copy_dynamic fuel hwf hd (by omega) hroom
  obtain ⟨heap2, hdrain, hp, hwf2, hb⟩ := drain_copy_dynamic fuel hC hd' hf
  refine ⟨heap2, ?_, hp, hwf2, by rw [hb, hC.brk]⟩
  have hloop := length_loop_of_drain fuel fuel heap1 t'.root 0 heap2 _ hdrain
  simp only [mapper_list_length, mapper_list_copy, QTree.root_ne_zero hd.2.1, if_false, hcopy,
    bind_ok]
  rw [hloop]
  simp

theorem query_heap_wf {heap : Heap} (hwf : HeapWf heap) (list size : Nat)
    (cf : query_compare_func_t) (d : List Nat) : HeapWf (query_heap heap list size cf d) := by
  intro a ha
  rw [query_heap_brk] at ha
  rw [query_heap_hdr, query_heap_ctx, if_neg (by omega), if_neg (by omega)]
  exact hwf a (by omega)

theorem filter_or_and_length (p q : Nat → Bool) :
    ∀ (l : List Nat), (l.filter (fun x => p x || q x)).length +
        (l.filter (fun x => p x && q x)).length = (l.filter p).length + (l.filter q).length := by
  intro l
  induction l with
  | nil => rfl
  | cons x xs ih =>
    cases hp : p x <;> cases hq : q x <;> simp [List.filter, hp, hq] <;> omega

/-- The query of a set operation and its length: the length is the number of
items of the source that satisfy the combined predicate; cells outside the two
operands are kept. -/
theorem parallel_query_length (fuel : Nat) (heap : Heap) (tA tB : QTree) (start op : Nat)
    (items : List Nat) (hwf : HeapWf heap) (hA : tA.holds heap) (hB : tB.holds heap)
    (hnh : (tA.hdrs ++ tB.hdrs).Nodup) (hnc : (tA.ctxs ++ tB.ctxs).Nodup)
    (hA64 : tA.root < 2 ^ 64) (hB64 : tB.root < 2 ^ 64) (hop : op ≤ 2)
    (hsrc : IsList heap start items)
    (hroom : heap.brk + 2 + (2 + tA.cells + tB.cells) < 2 ^ 64)
    (hfuel : items.length + max tA.depth tB.depth + 3 < fuel) :
    ∃ heap1 h heap2,
      mapper_list_new_query fuel heap start .cmp_parallel_query (some vvi)
        [.ptr_ptr [tA.root], .ptr_ptr [tB.root], .int (op : Int)] = .ok (heap1, h) ∧
      mapper_list_length fuel heap1 h = .ok (heap2,
        (items.filter (QTree.node (heap.brk + 1) (heap.brk + 2) op tA tB).sem).length) ∧
      HeapWf heap2 ∧ heap2.brk ≤ heap.brk + 2 + (2 + tA.cells + tB.cells) ∧
      heap.brk ≤ heap2.brk ∧
      (∀ a, a ≤ heap.brk → a ∉ tA.hdrs → a ∉ tB.hdrs → heap2.hdr a = heap.hdr a) ∧
      (∀ a, a ≤ heap.brk → a ∉ tA.ctxs → a ∉ tB.ctxs → heap2.ctx a = heap.ctx a) := by
  cases items with
  | nil =>
    have hs0 : start = 0 := hsrc
    refine ⟨heap, 0, heap, ?_, length_absent fuel heap (by omega), hwf, by omega, le_refl _,
      fun _ _ _ _ => rfl, fun _ _ _ _ => rfl⟩
    simp [mapper_list_new_query, vvi_size, new_query_internal, hs0, bind, Except.bind]
  | cons x rest =>
    have hx : start = x := hsrc.1
    subst hx
    have hdyn := node_dynAt hwf hA hB hnh hnc hA64 hB64 hop hsrc
    have hdepth : (QTree.node (heap.brk + 1) (heap.brk + 2) op tA tB).depth
        = max tA.depth tB.depth + 1 := rfl
    have hf' : rest.length + (QTree.node (heap.brk + 1) (heap.brk + 2) op tA tB).depth + 1
        < fuel := by
      simp only [List.length_cons] at hfuel
      rw [hdepth]; omega
    obtain ⟨heap1, h1, hnew, hstate⟩ :=
      new_query_internal_spec fuel heap (Or.inl rfl) (by decide) (vvi_loop _ _ _) hdyn rfl rfl hf'
    have hnew' : mapper_list_new_query fuel heap start .cmp_parallel_query (some vvi)
        [.ptr_ptr [tA.root], .ptr_ptr [tB.root], .int (op : Int)] = .ok (heap1, h1) := by
      simp only [mapper_list_new_query, vvi_size, bind_ok]; exact hnew
    have hwfq := query_heap_wf hwf start 20 .cmp_parallel_query
      (ptr_bytes tA.root ++ ptr_bytes tB.root ++ int_bytes (op : Int))
    rcases hstate with ⟨hnil, rfl, hF⟩ | ⟨y, post, hfil, rfl, hlen, hd1, hb1, hh1, hc1⟩
    · refine ⟨heap1, 0, heap1, hnew', ?_, ?_, ?_, ?_, ?_, ?_⟩
      · rw [hnil]; exact length_absent fuel heap1 (by omega)
      · intro a ha
        rw [hF.1, query_heap_brk] at ha
        have := hwfq a (by rw [query_heap_brk]; exact ha)
        rw [hF.2.1 a, hF.2.2 a, this.1, this.2]
        simp
      · rw [hF.1, query_heap_brk]; omega
      · rw [hF.1, query_heap_brk]; omega
      · intro a ha hna hnb
        have hni : a ∉ (QTree.node (heap.brk + 1) (heap.brk + 2) op tA tB).hdrs := by
          simp only [QTree.hdrs, List.mem_cons, List.mem_append, not_or]
          exact ⟨by omega, hna, hnb⟩
        rw [hF.2.1 a, if_neg hni, query_heap_hdr, if_neg (by omega)]
      · intro a ha hna hnb
        have hni : a ∉ (QTree.node (heap.brk + 1) (heap.brk + 2) op tA tB).ctxs := by
          simp only [QTree.ctxs, List.mem_cons, List.mem_append, not_or]
          exact ⟨by omega, hna, hnb⟩
        rw [hF.2.2 a, if_neg hni, query_heap_ctx, if_neg (by omega)]
    · have hb1' : heap1.brk = heap.brk + 2 := hb1
      have hroot : (QTree.node (heap.brk + 1) (heap.brk + 2) op tA tB).root = heap.brk + 1 := rfl
      have hwf1 : HeapWf heap1 := by
        intro a ha
        rw [hb1'] at ha
        have := hwfq a (by rw [query_heap_brk]; exact ha)
        rw [hh1 a (by rw [hroot]; omega), hc1 a]
        exact this
      have hcells : (QTree.node (heap.brk + 1) (heap.brk + 2) op tA tB).cells
          = 2 + tA.cells + tB.cells := rfl
      obtain ⟨heap2, hlen2, hp2, hwf2, hb2⟩ := length_dynamic_brk fuel hwf1 hd1
        (by rw [hb1', hcells]; exact hroom) (by rw [hdepth]; simp only [List.length_cons] at hfuel; omega)
      refine ⟨heap1, _, heap2, hnew', ?_, hwf2, by rw [hb2, hb1', hcells], by omega, ?_, ?_⟩
      · rw [hlen2, hfil]
      · intro a ha _ _
        rw [(hp2 a (by omega)).1, hh1 a (by rw [hroot]; omega), query_heap_hdr,
          if_neg (by omega)]
      · intro a ha _ _
        rw [(hp2 a (by omega)).2, hc1 a, query_heap_ctx, if_neg (by omega)]

theorem sem_node_congr (lh qc lh' qc' op : Nat) {a b a' b' : QTree} (ha : a'.sem = a.sem)
    (hb : b'.sem = b.sem) :
    (QTree.node lh' qc' op a' b').sem = (QTree.node lh qc op a b).sem := by
  funext x
  simp only [QTree.sem, ha, hb]

/-- The length of a set operation on independent copies of two dynamic handles
over the source `items`: the number of items that satisfy the combined
predicate; the heap keeps every cell it had. -/
theorem composite_length_spec
    (setop : Nat → Heap → Nat → Nat → Except Err (Heap × Nat)) (op : Nat) (hop : op ≤ 2)
    (hsetop : ∀ (fuel : Nat) (heap : Heap) (a b : Nat) (hd : mapper_list_header_t),
      a ≠ 0 → b ≠ 0 → heap.hdr a = some hd →
      setop fuel heap a b = mapper_list_new_query fuel heap hd.start .cmp_parallel_query
        (some vvi) [.ptr_ptr [a], .ptr_ptr [b], .int (op : Int)])
    (fuel : Nat) (heap : Heap) (tA tB : QTree) (selfA selfB start startB : Nat)
    (restA restB items : List Nat) (hwf : HeapWf heap) (hA : DynAt heap tA selfA start restA)
    (hB : DynAt heap tB selfB startB restB) (hsrc : IsList heap start items)
    (hroom : heap.brk + 2 * (tA.cells + tB.cells) + 4 < 2 ^ 64)
    (hfuel : items.length + max tA.depth tB.depth + 3 < fuel) :
    ∃ heap', composite_length setop fuel heap tA.root tB.root =
        .ok (heap', (items.filter (QTree.node 0 0 op tA tB).sem).length) ∧
      Preserved heap heap' ∧ HeapWf heap' ∧ heap.brk ≤ heap'.brk ∧
      heap'.brk ≤ heap.brk + 2 * (tA.cells + tB.cells) + 4 := by
  have hdA : tA.depth < fuel := by have := le_max_left tA.depth tB.depth; omega
  have hdB : tB.depth < fuel := by have := le_max_right tA.depth tB.depth; omega
  obtain ⟨heapa, tA', hcopyA, hCa, hdA'⟩ := copy_dynamic fuel hwf hA hdA (by omega)
  have hBa := hB.preserved_dynamic hwf hCa.preserved
  have hba : heapa.brk = heap.brk + tA.cells := hCa.brk
  obtain ⟨heapb, tB', hcopyB, hCb, hdB'⟩ := copy_dynamic fuel hCa.wf hBa hdB (by omega)
  have hbb : heapb.brk = heap.brk + tA.cells + tB.cells := by rw [hCb.brk, hba]
  have hAb := hdA'.preserved_dynamic hCa.wf hCb.preserved
  have hsrcb : IsList heapb start items :=
    (hsrc.preserved_list hwf hCa.preserved).preserved_list hCa.wf hCb.preserved
  have hnh : (tA'.hdrs ++ tB'.hdrs).Nodup := by
    refine List.nodup_append.2 ⟨hCa.nodup_hdrs, hCb.nodup_hdrs, fun a ha hb => ?_⟩
    have := (hCa.fresh_hdrs a ha).2
    have := (hCb.fresh_hdrs a hb).1
    omega
  have hnc : (tA'.ctxs ++ tB'.ctxs).Nodup := by
    refine List.nodup_append.2 ⟨hCa.nodup_ctxs, hCb.nodup_ctxs, fun a ha hb => ?_⟩
    have := (hCa.fresh_ctxs a ha).2
    have := (hCb.fresh_ctxs a hb).1
    omega
  have hcA := hCa.cells
  have hcB := hCb.cells
  have h2A := tA.two_le_cells
  obtain ⟨heap1, h, heap2, hnew, hlen, hwf2, hb2, hb2', hfh, hfc⟩ :=
    parallel_query_length fuel heapb tA' tB' start op items hCb.wf hAb.2.1 hdB'.2.1 hnh hnc
      (by rw [hCa.root]; omega) (by rw [hCb.root, hba]; omega) hop hsrcb
      (by rw [hbb, hcA, hcB]; omega) (by rw [hCa.depth, hCb.depth]; exact hfuel)
  rw [sem_node_congr 0 0 (heapb.brk + 1) (heapb.brk + 2) op hCa.sem hCb.sem] at hlen
  refine ⟨heap2, ?_, ?_, hwf2, by omega, by rw [hcA, hcB] at hb2; omega⟩
  · simp only [composite_length, mapper_list_copy, QTree.root_ne_zero hA.2.1,
      QTree.root_ne_zero hB.2.1, if_false, hcopyA, hcopyB, bind_ok,
      hsetop fuel heapb tA'.root tB'.root _ (QTree.root_ne_zero hAb.2.1)
        (QTree.root_ne_zero hdB'.2.1) hAb.1, hnew, hlen]
  · intro a ha
    have h1 : a ∉ tA'.hdrs := fun hm => by have := (hCa.fresh_hdrs a hm).1; omega
    have h2 : a ∉ tB'.hdrs := fun hm => by have := (hCb.fresh_hdrs a hm).1; omega
    have h3 : a ∉ tA'.ctxs := fun hm => by have := (hCa.fresh_ctxs a hm).1; omega
    have h4 : a ∉ tB'.ctxs := fun hm => by have := (hCb.fresh_ctxs a hm).1; omega
    have hpa := hCa.preserved a ha
    have hpb := hCb.preserved a (by omega)
    exact ⟨(hfh a (by omega) h1 h2).trans (hpb.1.trans hpa.1),
      (hfc a (by omega) h3 h4).trans (hpb.2.trans hpa.2)⟩

theorem union_is_query (fuel : Nat) (heap : Heap) (a b : Nat) (hd : mapper_list_header_t)
    (ha : a ≠ 0) (hb : b ≠ 0) (hh : heap.hdr a = some hd) :
    mapper_list_union fuel heap a b = mapper_list_new_query fuel heap hd.start
      .cmp_parallel_query (some vvi) [.ptr_ptr [a], .ptr_ptr [b], .int (OP_UNION : Int)] := by
  simp only [mapper_list_union, ha, hb, if_false, read_hdr_some hh, bind_ok]

theorem intersection_is_query (fuel : Nat) (heap : Heap) (a b : Nat)
    (hd : mapper_list_header_t) (ha : a ≠ 0) (hb : b ≠ 0) (hh : heap.hdr a = some hd) :
    mapper_list_intersection fuel heap a b = mapper_list_new_query fuel heap hd.start
      .cmp_parallel_query (some vvi)
      [.ptr_ptr [a], .ptr_ptr [b], .int (OP_INTERSECTION : Int)] := by
  simp only [mapper_list_intersection, ha, hb, or_self, if_false, read_hdr_some hh, bind_ok]

/-- C20: for two dynamic handles `A` and `B` over the same source list, both
fresh, so with the cursor on the first item of the source that satisfies the
predicate, the length of the union of independent copies of `A` and `B` plus
the length of the intersection of independent copies equals the length of `A`
plus the length of `B`; the four lengths are the numbers of source items that
satisfy the respective predicates. -/
theorem inclusion_exclusion (fuel : Nat) (heap : Heap) (tA tB : QTree)
    (selfA selfB start : Nat) (preA restA preB restB items : List Nat) (hwf : HeapWf heap)
    (hA : DynAt heap tA selfA start restA) (hB : DynAt heap tB selfB start restB)
    (hsrc : IsList heap start items)
    (hfreshA : items = preA ++ selfA :: restA ∧ (∀ x ∈ preA, tA.sem x = false) ∧
      tA.sem selfA = true)
    (hfreshB : items = preB ++ selfB :: restB ∧ (∀ x ∈ preB, tB.sem x = false) ∧
      tB.sem selfB = true)
    (hroom : heap.brk + 5 * (tA.cells + tB.cells) + 8 < 2 ^ 64)
    (hfuel : items.length + max tA.depth tB.depth + 3 < fuel) :
    ∃ heap1 heap2 heap3 heap4 a b u i,
      mapper_list_length fuel heap tA.root = .ok (heap1, a) ∧
      mapper_list_length fuel heap1 tB.root = .ok (heap2, b) ∧
      composite_length mapper_list_union fuel heap2 tA.root tB.root = .ok (heap3, u) ∧
      composite_length mapper_list_intersection fuel heap3 tA.root tB.root = .ok (heap4, i) ∧
      u + i = a + b ∧
      a = items.countP tA.sem ∧ b = items.countP tB.sem ∧
      u = items.countP (fun x => tA.sem x || tB.sem x) ∧
      i = items.countP (fun x => tA.sem x && tB.sem x) := by
  obtain ⟨hiA, hpreA, hselfA⟩ := hfreshA
  obtain ⟨hiB, hpreB, hselfB⟩ := hfreshB
  have hmA := le_max_left tA.depth tB.depth
  have hmB := le_max_right tA.depth tB.depth
  have hlenA : restA.length < items.length := by rw [hiA]; simp; omega
  have hlenB : restB.length < items.length := by rw [hiB]; simp; omega
  have hfilA : items.filter tA.sem = selfA :: restA.filter tA.sem := by
    have := @dropWhile_first_true tA.sem selfA restA preA hpreA hselfA
    rw [← hiA] at this
    exact (dropWhile_not_cons items this).2.1
  have hfilB : items.filter tB.sem = selfB :: restB.filter tB.sem := by
    have := @dropWhile_first_true tB.sem selfB restB preB hpreB hselfB
    rw [← hiB] at this
    exact (dropWhile_not_cons items this).2.1
  -- the lengths of A and B
  obtain ⟨heap1, hl1, hp1, hwf1, hb1⟩ := length_dynamic_brk fuel hwf hA (by omega) (by omega)
  have hB1 := hB.preserved_dynamic hwf hp1
  have hA1 := hA.preserved_dynamic hwf hp1
  have hsrc1 := hsrc.preserved_list hwf hp1
  obtain ⟨heap2, hl2, hp2, hwf2, hb2⟩ := length_dynamic_brk fuel hwf1 hB1 (by omega) (by omega)
  have hA2 := hA1.preserved_dynamic hwf1 hp2
  have hB2 := hB1.preserved_dynamic hwf1 hp2
  have hsrc2 := hsrc1.preserved_list hwf1 hp2
  -- the union and the intersection of copies
  obtain ⟨heap3, hu, hp3, hwf3, hb3, hb3'⟩ :=
    composite_length_spec mapper_list_union OP_UNION (by decide) union_is_query fuel heap2 tA tB
      selfA selfB start start restA restB items hwf2 hA2 hB2 hsrc2 (by omega) hfuel
  have hA3 := hA2.preserved_dynamic hwf2 hp3
  have hB3 := hB2.preserved_dynamic hwf2 hp3
  have hsrc3 := hsrc2.preserved_list hwf2 hp3
  obtain ⟨heap4, hi, _⟩ :=
    composite_length_spec mapper_list_intersection OP_INTERSECTION (by decide)
      intersection_is_query fuel heap3 tA tB selfA selfB start start restA restB items hwf3 hA3
      hB3 hsrc3 (by omega) hfuel
  rw [sem_union] at hu
  rw [sem_intersection] at hi
  rw [← hfilA] at hl1
  rw [← hfilB] at hl2
  refine ⟨heap1, heap2, heap3, heap4, _, _, _, _, hl1, hl2, hu, hi,
    filter_or_and_length tA.sem tB.sem items, ?_, ?_, ?_, ?_⟩ <;>
    exact (List.countP_eq_length_filter _ _).symm

/-! ## Evaluations at failing inputs -/

/-- C11, the failing input: the query "odd index" over the ten items is built
with handle 11 and has length 5, and `mapper_list_get_index` at index 5 returns
item 1 (index 9), not none: the index restarts at the origin of the source,
which does not satisfy the predicate, and counts the five items after it. -/
theorem get_index_at_length :
    ∃ heap1 heap2 heap3,
      mapper_list_new_query 12 example_list 10 (.user odd_index) (some ['i']) [.int 0]
        = .ok (heap1, 11) ∧
      mapper_list_length 12 heap1 11 = .ok (heap2, 5) ∧
      mapper_list_get_index 12 heap1 11 5 = .ok (heap3, 1) :=
  ⟨_, _, _, rfl, rfl, rfl⟩

/-- C13, the failing input: for the tag string `i12` with an array of twelve
integers pass 1 returns 0, not 48: the count is read by `atoi` but only its
first digit is skipped, and the second digit is taken for an unknown tag. With
the one-digit count of `i9` pass 1 returns 36. -/
theorem size_two_digit_count :
    get_query_size (some ['i', '1', '2']) [.int_ptr (List.replicate 12 0)] = .ok 0 ∧
    get_query_size (some ['i', '9']) [.int_ptr (List.replicate 9 0)] = .ok 36 :=
  ⟨rfl, rfl⟩

/-- C12, the failing input: for the tag string `hi12`, a scalar and an array
tag with count 12, pass 1 returns 0 instead of 56, the encoder of pass 2 stops
at the second digit of the count without a buffer, and
`mapper_list_new_query` returns the null handle, so no buffer can be read
back. -/
theorem round_trip_two_digit_count :
    get_query_size (some ['h', 'i', '1', '2']) [.int64 7, .int_ptr (List.replicate 12 3)]
      = .ok 0 ∧
    new_query_internal_loop ['h', 'i', '1', '2'] [.int64 7, .int_ptr (List.replicate 12 3)]
      (List.replicate 56 0) 56 0 = .ok none ∧
    mapper_list_new_query 12 example_list 10 (.user even_index) (some ['h', 'i', '1', '2'])
      [.int64 7, .int_ptr (List.replicate 12 3)] = .ok (example_list, 0) :=
  ⟨rfl, rfl, rfl⟩

/-- C18, the failing input: for the tag string `s2` and an array that starts
with the strings `a` and `bc`, pass 1 returns 5.  Pass 2 writes both strings at
offset 0, the second over the first, and advances the offset by the length of
the string after the two: with a third string `d` in the array the final offset
is 2 and the buffer holds `bc` only; with an array of exactly two strings the
read is past the end of the array. -/
theorem string_array_offset :
    get_query_size (some ['s', '2']) [.str_ptr [[97], [98, 99], [100]]] = .ok 5 ∧
    new_query_internal_loop ['s', '2'] [.str_ptr [[97], [98, 99], [100]]]
      (List.replicate 5 0) 5 0 = .ok (some ([98, 99, 0, 0, 0], 2)) ∧
    get_query_size (some ['s', '2']) [.str_ptr [[97], [98, 99]]] = .ok 5 ∧
    new_query_internal_loop ['s', '2'] [.str_ptr [[97], [98, 99]]]
      (List.replicate 5 0) 5 0 = .error .fault :=
  ⟨rfl, rfl, rfl, rfl⟩

/-- C19, the failing input: with the static handle of item 10 as first operand
and the query `B` as second, union, intersection and difference fault when the
new query evaluates its first item, on the query context that the static
header does not have; with the query `A` first and the static handle second the
union is built, and the first `next` faults. -/
theorem static_operand_fault :
    mapper_list_union 13 example_queries 10 13 = .error .fault ∧
    mapper_list_intersection 13 example_queries 10 13 = .error .fault ∧
    mapper_list_difference 13 example_queries 10 13 = .error .fault ∧
    mapper_list_intersection 13 example_queries 11 10 = .error .fault ∧
    mapper_list_difference 13 example_queries 11 10 = .error .fault ∧
    ∃ heap1, mapper_list_union 13 example_queries 11 10 = .ok (heap1, 15) ∧
      mapper_list_next 13 heap1 15 = .error .fault :=
  ⟨rfl, rfl, rfl, rfl, rfl, _, rfl, rfl⟩

/-- C14 on the example: the tag string `iXi` with one integer argument gives
the null handle and leaves the heap as it is. -/
theorem bad_tag_absent_witness :
    has_bad_tag ['i', 'X', 'i'] = true ∧
    mapper_list_new_query 5 example_list 10 (.user even_index) (some ['i', 'X', 'i']) [.int 1]
      = .ok (example_list, 0) :=
  ⟨by decide, (bad_tag_absent 5 example_list 10 (.user even_index) ['i', 'X', 'i'] [.int 1]
    (by decide)).1 (by
      rw [show get_query_size (some ['i', 'X', 'i']) [.int 1] = .ok 0 from rfl]
      intro h
      cases h)⟩

theorem example_B_dyn : DynAt example_queries example_B 10 10 [9, 8, 7, 6, 5, 4, 3, 2, 1] :=
  ⟨rfl, example_B_holds, by decide, by decide, example_queries_isList⟩

/-- C20 on the example: the queries `A` (even index) and `B` (index below 5)
have lengths 5 and 5, their union 7 and their intersection 3. -/
theorem inclusion_exclusion_witness :
    ∃ heap1 heap2 heap3 heap4,
      mapper_list_length 14 example_queries 11 = .ok (heap1, 5) ∧
      mapper_list_length 14 heap1 13 = .ok (heap2, 5) ∧
      composite_length mapper_list_union 14 heap2 11 13 = .ok (heap3, 7) ∧
      composite_length mapper_list_intersection 14 heap3 11 13 = .ok (heap4, 3) ∧
      7 + 3 = 5 + 5 := by
  obtain ⟨heap1, heap2, heap3, heap4, a, b, u, i, h1, h2, h3, h4, _, ha, hb, hu, hi⟩ :=
    inclusion_exclusion 14 example_queries example_A example_B 10 10 10 []
      [9, 8, 7, 6, 5, 4, 3, 2, 1] [] [9, 8, 7, 6, 5, 4, 3, 2, 1] example_items example_queries_wf
      example_A_dyn example_B_dyn example_queries_isList ⟨rfl, by simp, by decide⟩
      ⟨rfl, by simp, by decide⟩ (by norm_num [example_queries, example_A, example_B, QTree.cells])
      (by decide)
  have ea : a = 5 := by rw [ha]; decide
  have eb : b = 5 := by rw [hb]; decide
  have eu : u = 7 := by rw [hu]; decide
  have ei : i = 3 := by rw [hi]; decide
  subst ea eb eu ei
  exact ⟨heap1, heap2, heap3, heap4, h1, h2, h3, h4, rfl⟩

/-! ## Queries with an empty argument buffer -/

theorem array_arg_not_digit {c : Char} {a : arg_t} (h : array_arg c a = true) :
    c.isDigit = false := by
  cases a <;> simp [array_arg] at h
  · rcases h with rfl | rfl <;> decide
  · subst h; decide
  · subst h; decide
  · subst h; decide

theorem atoi_zero_count {tags : List Char} {aq : List arg_t} (h : array_args tags aq = true) :
    atoi ('0' :: zero_count_types tags) = 0 := by
  cases tags with
  | nil => rfl
  | cons c tags =>
    cases aq with
    | nil => simp [array_args] at h
    | cons a aq =>
      simp only [array_args, Bool.and_eq_true] at h
      have hd := array_arg_not_digit h.1
      have h0 : ('0' : Char).isDigit = true := by decide
      simp [atoi, zero_count_types, List.takeWhile, hd, h0]

theorem get_query_size_case_zero {c : Char} {a : arg_t} (aq : List arg_t)
    (h : array_arg c a = true) :
    get_query_size_case c (some 0) (a :: aq) = .ok (some (0, aq)) := by
  cases a <;> simp [array_arg] at h
  · rcases h with rfl | rfl <;> simp [get_query_size_case, MAPPER_INT32, MAPPER_CHAR]
  · subst h; simp [get_query_size_case, MAPPER_INT32, MAPPER_CHAR, MAPPER_INT64]
  · subst h
    simp [get_query_size_case, MAPPER_INT32, MAPPER_CHAR, MAPPER_INT64, MAPPER_STRING]
  · subst h
    simp [get_query_size_case, MAPPER_INT32, MAPPER_CHAR, MAPPER_INT64, MAPPER_STRING,
      MAPPER_PTR]

/-- Pass 1 adds nothing for a tag string of arrays with repeat count 0. -/
theorem get_query_size_loop_zero :
    ∀ (tags : List Char) (aq : List arg_t) (size : Nat), array_args tags aq = true →
      get_query_size_loop (zero_count_types tags) aq size = .ok size := by
  intro tags
  induction tags with
  | nil => intro aq size _; rfl
  | cons c tags ih =>
    intro aq size h
    cases aq with
    | nil => simp [array_args] at h
    | cons a aq =>
      have h' := h
      simp only [array_args, Bool.and_eq_true] at h'
      have h0 : ('0' : Char).isDigit = true := by decide
      simp only [zero_count_types, get_query_size_loop, h0, if_true]
      rw [atoi_zero_count h'.2, get_query_size_case_zero aq h'.1]
      simpa using ih aq size h'.2

/-- C21: `mapper_list_new_query` returns the null handle and leaves the heap as
it is, for every source and every predicate, whenever pass 1 computes the size
0; this is the case for the empty tag string and for every tag string whose
tags are all arrays with repeat count 0. -/
theorem zero_size_absent (fuel : Nat) (heap : Heap) (list : Nat) (cf : query_compare_func_t)
    (types : Option (List Char)) (aq : List arg_t) :
    (get_query_size types aq = .ok 0 →
      mapper_list_new_query fuel heap list cf types aq = .ok (heap, 0)) ∧
    mapper_list_new_query fuel heap list cf (some []) aq = .ok (heap, 0) ∧
    (∀ tags, array_args tags aq = true →
      get_query_size (some (zero_count_types tags)) aq = .ok 0 ∧
      mapper_list_new_query fuel heap list cf (some (zero_count_types tags)) aq
        = .ok (heap, 0)) := by
  have key : ∀ ty, get_query_size ty aq = .ok 0 →
      mapper_list_new_query fuel heap list cf ty aq = .ok (heap, 0) := by
    intro ty h0
    cases cf <;> cases ty <;>
      simp [mapper_list_new_query, h0, new_query_internal, bind, Except.bind]
  refine ⟨key types, key (some []) rfl, fun tags h => ?_⟩
  have h0 : get_query_size (some (zero_count_types tags)) aq = .ok 0 :=
    get_query_size_loop_zero tags aq 0 h
  exact ⟨h0, key _ h0⟩

/-- C21 on the example: with a predicate that matches every item of the list of
ten items, the tag string `i0h0` gives size 0 and the null handle. -/
theorem zero_size_absent_witness :
    get_query_size (some ['i', '0', 'h', '0']) [.int_ptr [], .int64_ptr [5]] = .ok 0 ∧
    mapper_list_new_query 12 example_list 10 (.user match_all) (some ['i', '0', 'h', '0'])
      [.int_ptr [], .int64_ptr [5]] = .ok (example_list, 0) :=
  (zero_size_absent 12 example_list 10 (.user match_all) none [.int_ptr [], .int64_ptr [5]]).2.2
    ['i', 'h'] (by decide)

/-! ## Indexing -/

theorem Heap.set_hdr_set_hdr (heap : Heap) (a : Nat) (v w : Option mapper_list_header_t) :
    (heap.set_hdr a v).set_hdr a w = heap.set_hdr a w := by
  simp only [Heap.set_hdr]
  congr 1
  funext x
  by_cases hx : x = a <;> simp [hx]

theorem Heap.set_hdr_same {heap : Heap} {a : Nat} {v : mapper_list_header_t}
    (h : heap.hdr a = some v) : heap.set_hdr a (some v) = heap := by
  cases heap with
  | mk hdr ctx brk =>
    simp only [Heap.set_hdr]
    congr 1
    funext x
    by_cases hx : x = a
    · subst hx; simp [← h]
    · simp [hx]

/-- Resetting the cursor of a dynamic handle to the first item of its source
keeps the handle. -/
theorem DynAt.reset {heap : Heap} {t : QTree} {self start : Nat} {rest xs : List Nat}
    (h : DynAt heap t self start rest) (hsrc : IsList heap start (start :: xs)) :
    DynAt (heap.set_hdr t.root
      (some ⟨.mapper_list_query_continuation, start, start, t.ctx, .QUERY_DYNAMIC⟩))
      t start start xs := by
  obtain ⟨hroot, hholds, hn1, hn2, _⟩ := h
  refine ⟨by simp [Heap.set_hdr], ?_, hn1, hn2, ?_⟩
  · refine t.holds_frame hholds (fun a _ hd hhd => ?_) (fun a _ => rfl)
    by_cases ha : a = t.root
    · subst ha
      rw [hroot] at hhd
      cases hhd
      exact ⟨⟨.mapper_list_query_continuation, start, start, t.ctx, .QUERY_DYNAMIC⟩,
        by simp [Heap.set_hdr], rfl⟩
    · exact ⟨hd, by simp [Heap.set_hdr, ha, hhd], rfl⟩
  · refine hsrc.frame (fun x hx => ?_)
    have : x ≠ t.root := by
      intro e
      obtain ⟨nx, s, hc⟩ := hsrc.cell x hx
      rw [e, hroot] at hc
      cases hc
    simp [Heap.set_hdr, this]

/-- The loop of `mapper_list_get_index` on a dynamic handle, entered with
`index = i + k`: it returns the match number `k` (from 0) among the items after
the cursor and leaves the cursor there, or releases the handle and returns none
when there are not so many. -/
theorem get_index_loop_dynamic {t : QTree} (cfuel : Nat) :
    ∀ (m : Nat) (rest : List Nat), rest.length ≤ m → ∀ (heap : Heap) (self start n k : Nat)
      (i : Int), DynAt heap t self start rest → rest.length + t.depth + 1 < cfuel →
      rest.length < n →
      (∀ y, (rest.filter t.sem)[k]? = some y →
        mapper_list_get_index_loop n cfuel heap t.root (i + k) i =
          .ok (heap.set_hdr t.root
            (some ⟨.mapper_list_query_continuation, y, start, t.ctx, .QUERY_DYNAMIC⟩), y) ∧
        ∃ pre post, rest = pre ++ y :: post ∧
          DynAt (heap.set_hdr t.root
            (some ⟨.mapper_list_query_continuation, y, start, t.ctx, .QUERY_DYNAMIC⟩))
            t y start post) ∧
      ((rest.filter t.sem)[k]? = none →
        ∃ heap', mapper_list_get_index_loop n cfuel heap t.root (i + k) i = .ok (heap', 0) ∧
          Freed heap heap' t.hdrs t.ctxs) := by
  intro m
  induction m with
  | zero =>
    intro rest hlen heap self start n k i h hcf hn
    have hrest : rest = [] := List.length_eq_zero.1 (by omega)
    subst hrest
    obtain ⟨hnil, _⟩ := continuation_spec cfuel h hcf
    obtain ⟨heap', hcont, hF⟩ := hnil rfl
    obtain ⟨n', rfl⟩ : ∃ n', n = n' + 1 := ⟨n - 1, by simp at hn; omega⟩
    refine ⟨fun y hy => by simp at hy, fun _ => ⟨heap', ?_, hF⟩⟩
    simp [mapper_list_get_index_loop, next_dynamic_eq cfuel h, hcont, bind, Except.bind]
  | succ m ih =>
    intro rest hlen heap self start n k i h hcf hn
    obtain ⟨hnil, hcons⟩ := continuation_spec cfuel h hcf
    obtain ⟨n', rfl⟩ : ∃ n', n = n' + 1 := ⟨n - 1, by omega⟩
    have hroot0 := QTree.root_ne_zero h.2.1
    cases hdw : rest.dropWhile (fun x => !t.sem x) with
    | nil =>
      obtain ⟨heap', hcont, hF⟩ := hnil hdw
      have hfil := dropWhile_not_nil rest hdw
      refine ⟨fun y hy => by simp [hfil] at hy, fun _ => ⟨heap', ?_, hF⟩⟩
      simp [mapper_list_get_index_loop, next_dynamic_eq cfuel h, hcont, bind, Except.bind]
    | cons y post =>
      have hcont := hcons y post hdw
      obtain ⟨hpy, hfilter, hlt, pre, hsplit⟩ := dropWhile_not_cons rest hdw
      have hmove := h.move hsplit
      have hstep : ∀ index : Int,
          mapper_list_get_index_loop (n' + 1) cfuel heap t.root index i =
            if i = index then
              .ok (heap.set_hdr t.root (some ⟨.mapper_list_query_continuation, y, start,
                t.ctx, .QUERY_DYNAMIC⟩), y)
            else
              mapper_list_get_index_loop n' cfuel (heap.set_hdr t.root
                (some ⟨.mapper_list_query_continuation, y, start, t.ctx, .QUERY_DYNAMIC⟩))
                t.root index (i + 1) := by
        intro index
        simp only [mapper_list_get_index_loop, next_dynamic_eq cfuel h, hcont, bind_ok,
          hroot0, if_false, read_hdr_some hmove.1]
      cases k with
      | zero =>
        refine ⟨fun z hz => ?_, fun hz => by simp [hfilter] at hz⟩
        have hzy : y = z := by simpa [hfilter] using hz
        subst hzy
        refine ⟨?_, pre, post, hsplit, hmove⟩
        rw [hstep]
        simp
      | succ k =>
        have hidx : (i : Int) + ((k + 1 : Nat) : Int) = (i + 1) + (k : Int) := by
          push_cast; ring
        have hne : ¬ (i = i + ((k + 1 : Nat) : Int)) := by
          push_cast; omega
        obtain ⟨ihs, ihn⟩ := ih post (by omega) _ y start n' k (i + 1) hmove (by omega) (by omega)
        rw [hstep, if_neg hne, hidx]
        have hget : (rest.filter t.sem)[k + 1]? = (post.filter t.sem)[k]? := by
          rw [hfilter]; simp
        rw [hget]
        constructor
        · intro z hz
          obtain ⟨hrun, pre', post', hsplit', hd'⟩ := ihs z hz
          rw [Heap.set_hdr_set_hdr] at hrun hd'
          refine ⟨hrun, pre ++ y :: pre', post', ?_, hd'⟩
          rw [hsplit, hsplit']
          simp
        · intro hz
          obtain ⟨heap', hrun, hF⟩ := ihn hz
          refine ⟨heap', hrun, hF.1, fun a => ?_, fun a => ?_⟩
          · rw [hF.2.1 a]
            by_cases ha : a ∈ t.hdrs
            · simp [ha]
            · have : a ≠ t.root := fun e => ha (e ▸ t.root_mem_hdrs)
              simp [ha, Heap.set_hdr, this]
          · rw [hF.2.2 a]; rfl

/-- The function `mapper_list_get_index` at the index `k + 1` on a dynamic
handle whose source is `start :: xs`. -/
theorem get_index_dynamic_spec {heap : Heap} {t : QTree} {self start : Nat}
    {rest xs : List Nat} (fuel k : Nat) (hd : DynAt heap t self start rest)
    (hsrc : IsList heap start (start :: xs)) (hf : xs.length + t.depth + 1 < fuel) :
    (∀ y, (xs.filter t.sem)[k]? = some y →
      mapper_list_get_index fuel heap t.root ((k : Int) + 1) =
        .ok (heap.set_hdr t.root
          (some ⟨.mapper_list_query_continuation, y, start, t.ctx, .QUERY_DYNAMIC⟩), y) ∧
      ∃ pre post, xs = pre ++ y :: post ∧
        DynAt (heap.set_hdr t.root
          (some ⟨.mapper_list_query_continuation, y, start, t.ctx, .QUERY_DYNAMIC⟩))
          t y start post) ∧
    ((xs.filter t.sem)[k]? = none →
      ∃ heap', mapper_list_get_index fuel heap t.root ((k : Int) + 1) = .ok (heap', 0) ∧
        Freed heap heap' t.hdrs t.ctxs) := by
  have hreset := hd.reset hsrc
  have hroot0 := QTree.root_ne_zero hd.2.1
  have hneg : ¬ ((k : Int) + 1 < 0) := by omega
  have hnz : ¬ ((k : Int) + 1 = 0) := by omega
  have hrun : mapper_list_get_index fuel heap t.root ((k : Int) + 1) =
      mapper_list_get_index_loop fuel fuel (heap.set_hdr t.root
        (some ⟨.mapper_list_query_continuation, start, start, t.ctx, .QUERY_DYNAMIC⟩))
        t.root (1 + (k : Int)) 1 := by
    simp only [mapper_list_get_index, hroot0, hneg, or_self, if_false, read_hdr_some hd.1,
      bind_ok, hnz]
    rw [add_comm]
  obtain ⟨hs, hn⟩ := get_index_loop_dynamic fuel xs.length xs (le_refl _) _ start start fuel k 1
    hreset hf (by omega)
  rw [hrun]
  constructor
  · intro y hy
    obtain ⟨h1, pre, post, hsplit, hd'⟩ := hs y hy
    rw [Heap.set_hdr_set_hdr] at h1 hd'
    exact ⟨h1, pre, post, hsplit, hd'⟩
  · intro hy
    obtain ⟨heap', h1, hF⟩ := hn hy
    refine ⟨heap', h1, hF.1, fun a => ?_, fun a => ?_⟩
    · rw [hF.2.1 a]
      by_cases ha : a ∈ t.hdrs
      · simp [ha]
      · have : a ≠ t.root := fun e => ha (e ▸ t.root_mem_hdrs)
        simp [ha, Heap.set_hdr, this]
    · rw [hF.2.2 a]; rfl

theorem StatOwn.statAt {heap : Heap} {h self : Nat} {rest : List Nat}
    (hs : StatOwn heap h self rest) : StatAt heap h self rest := by
  obtain ⟨hh, hself, nx, hcell, hrest⟩ := hs
  exact ⟨hh, hself, nx, self, hcell, hrest⟩

/-- The loop of `mapper_list_get_index` on a static handle, entered with
`index = i + k`: it returns the item number `k` (from 0) after the cursor, or
none when there are not so many, and changes nothing. -/
theorem get_index_loop_static {heap : Heap} (cfuel : Nat) :
    ∀ (rest : List Nat) (h self n k : Nat) (i : Int), StatAt heap h self rest →
      rest.length < n →
      mapper_list_get_index_loop n cfuel heap h (i + k) i = .ok (heap, (rest[k]?).getD 0) := by
  intro rest
  induction rest with
  | nil =>
    intro h self n k i hs hn
    obtain ⟨n', rfl⟩ : ∃ n', n = n' + 1 := ⟨n - 1, by simp at hn; omega⟩
    obtain ⟨nx, hnext, hl⟩ := hs.next cfuel
    have hnx : nx = 0 := hl
    subst hnx
    simp [mapper_list_get_index_loop, hnext, bind, Except.bind]
  | cons y ys ih =>
    intro h self n k i hs hn
    obtain ⟨n', rfl⟩ : ∃ n', n = n' + 1 := ⟨n - 1, by omega⟩
    obtain ⟨nx, hnext, hl⟩ := hs.next cfuel
    have hl' := hl
    obtain ⟨hnx, hy0, ny, sy, hcy, hys⟩ := hl'
    subst hnx
    have hstep : ∀ index : Int,
        mapper_list_get_index_loop (n' + 1) cfuel heap h index i =
          if i = index then .ok (heap, nx)
          else mapper_list_get_index_loop n' cfuel heap nx index (i + 1) := by
      intro index
      simp only [mapper_list_get_index_loop, hnext, bind_ok, hy0, if_false, read_hdr_some hcy]
    cases k with
    | zero =>
      rw [hstep]
      simp
    | succ k =>
      have hidx : (i : Int) + ((k + 1 : Nat) : Int) = (i + 1) + (k : Int) := by
        push_cast; ring
      have hne : ¬ (i = i + ((k + 1 : Nat) : Int)) := by
        push_cast; omega
      rw [hstep, if_neg hne, hidx,
        ih nx nx n' k (i + 1) ⟨hy0, hy0, ny, sy, hcy, hys⟩ (by simp at hn; omega)]
      simp

/-- The function `mapper_list_get_index` on a static handle: index 0 is the
item of the handle, the index `k + 1` is the item number `k` (from 0) after it,
a negative index gives none, and the heap stays as it is. -/
theorem get_index_static_spec {heap : Heap} {h self : Nat} {rest : List Nat} (fuel : Nat)
    (hs : StatOwn heap h self rest) (hf : rest.length < fuel) :
    (∀ k : Nat, mapper_list_get_index fuel heap h ((k : Int) + 1) =
      .ok (heap, (rest[k]?).getD 0)) ∧
    mapper_list_get_index fuel heap h 0 = .ok (heap, self) ∧
    (∀ index : Int, index < 0 → mapper_list_get_index fuel heap h index = .ok (heap, 0)) := by
  have hsa := hs.statAt
  obtain ⟨hh, hself, nx, hcell, hrest⟩ := hs
  refine ⟨fun k => ?_, ?_, fun index hneg => ?_⟩
  · have hneg : ¬ ((k : Int) + 1 < 0) := by omega
    have hnz : ¬ ((k : Int) + 1 = 0) := by omega
    simp only [mapper_list_get_index, hh, hneg, or_self, if_false, read_hdr_some hcell,
      bind_ok, hnz]
    rw [Heap.set_hdr_same hcell, add_comm]
    exact get_index_loop_static fuel rest h self fuel k 1 hsa hf
  · simp [mapper_list_get_index, hh, read_hdr_some hcell, bind, Except.bind]
  · simp [mapper_list_get_index, hneg]

theorem getD_eq_zero_iff {l : List Nat} (hl : ∀ x ∈ l, x ≠ 0) (k : Nat) :
    (l[k]?).getD 0 = 0 ↔ l.length ≤ k := by
  constructor
  · intro h
    by_contra hlt
    have hk : k < l.length := by omega
    rw [List.getElem?_eq_getElem hk] at h
    exact hl _ (List.getElem_mem hk) h
  · intro h
    rw [List.getElem?_eq_none h]
    rfl

/-- C22: for every index `k + 1 ≥ 1`, `mapper_list_get_index` on a live dynamic
handle over the source `start :: xs` returns the item number `k + 1` (from 1)
among the items of `xs` that satisfy the predicate, and none exactly when there
are fewer, wherever the cursor of the handle was and whether or not `start`
satisfies the predicate; on a static handle it returns the item number `k + 1`
after the item of the handle in the list, or none past the end. -/
theorem get_index_successors (fuel : Nat) (heap : Heap) (k : Nat) :
    (∀ t self start rest xs, DynAt heap t self start rest →
      IsList heap start (start :: xs) → xs.length + t.depth + 1 < fuel →
      ∃ heap' r, mapper_list_get_index fuel heap t.root ((k : Int) + 1) = .ok (heap', r) ∧
        r = ((xs.filter t.sem)[k]?).getD 0 ∧ (r = 0 ↔ (xs.filter t.sem).length ≤ k)) ∧
    (∀ h self rest, StatOwn heap h self rest → rest.length < fuel →
      mapper_list_get_index fuel heap h ((k : Int) + 1) = .ok (heap, (rest[k]?).getD 0) ∧
        ((rest[k]?).getD 0 = 0 ↔ rest.length ≤ k)) := by
  constructor
  · intro t self start rest xs hd hsrc hf
    obtain ⟨hs, hn⟩ := get_index_dynamic_spec fuel k hd hsrc hf
    have hxs : ∀ x ∈ xs.filter t.sem, x ≠ 0 := fun x hx =>
      hsrc.ne_zero x (List.mem_cons_of_mem _ (List.mem_filter.1 hx).1)
    cases hget : (xs.filter t.sem)[k]? with
    | none =>
      obtain ⟨heap', h1, _⟩ := hn hget
      refine ⟨heap', 0, h1, rfl, ?_⟩
      have := getD_eq_zero_iff hxs k
      rw [hget] at this
      exact this
    | some y =>
      obtain ⟨h1, _⟩ := hs y hget
      refine ⟨_, y, h1, rfl, ?_⟩
      have := getD_eq_zero_iff hxs k
      rw [hget] at this
      exact this
  · intro h self rest hs hf
    refine ⟨(get_index_static_spec fuel hs hf).1 k, getD_eq_zero_iff ?_ k⟩
    obtain ⟨_, _, nx, _, hrest⟩ := hs
    exact hrest.ne_zero

theorem example_own_7 : StatOwn example_queries 7 7 [6, 5, 4, 3, 2, 1] := by
  refine ⟨by decide, by decide, 6, rfl, ?_⟩
  simp [IsList, example_queries]

/-- C22 on the example: index 2 of the query `A` (even index) is item 6, the
second item after the first with an even index, index 6 is none, and index 3 of
the static handle of item 7 is item 4. -/
theorem get_index_successors_witness :
    (∃ heap', mapper_list_get_index 12 example_queries 11 2 = .ok (heap', 6)) ∧
    (∃ heap', mapper_list_get_index 12 example_queries 11 6 = .ok (heap', 0)) ∧
    mapper_list_get_index 12 example_queries 7 3 = .ok (example_queries, 4) := by
  refine ⟨?_, ?_, ?_⟩
  · obtain ⟨heap', r, h1, h2, _⟩ := (get_index_successors 12 example_queries 1).1 example_A 10 10
      [9, 8, 7, 6, 5, 4, 3, 2, 1] [9, 8, 7, 6, 5, 4, 3, 2, 1] example_A_dyn
      example_queries_isList (by decide)
    have hr : r = 6 := by rw [h2]; decide
    subst hr
    exact ⟨heap', h1⟩
  · obtain ⟨heap', r, h1, h2, _⟩ := (get_index_successors 12 example_queries 5).1 example_A 10 10
      [9, 8, 7, 6, 5, 4, 3, 2, 1] [9, 8, 7, 6, 5, 4, 3, 2, 1] example_A_dyn
      example_queries_isList (by decide)
    have hr : r = 0 := by rw [h2]; decide
    subst hr
    exact ⟨heap', h1⟩
  · exact ((get_index_successors 12 example_queries 2).2 7 7 [6, 5, 4, 3, 2, 1] example_own_7
      (by decide)).1

/-- C23: `mapper_list_get_index` at an index `k + 1 ≥ 1` on a live dynamic
handle moves the cursor: when it returns an item, the header of the handle has
its cursor on that item and nothing else in the heap has changed; when it
returns none, the headers and contexts of the whole tree of the handle are
released, so the handle is no longer live.  On a static handle the heap after
`mapper_list_get_index` is the heap before it, for every index. -/
theorem get_index_cursor (fuel : Nat) (heap : Heap) (k : Nat) :
    (∀ t self start rest xs, DynAt heap t self start rest →
      IsList heap start (start :: xs) → xs.length + t.depth + 1 < fuel →
      (∀ y, (xs.filter t.sem)[k]? = some y →
        mapper_list_get_index fuel heap t.root ((k : Int) + 1) =
          .ok (heap.set_hdr t.root
            (some ⟨.mapper_list_query_continuation, y, start, t.ctx, .QUERY_DYNAMIC⟩), y) ∧
        ∃ pre post, xs = pre ++ y :: post ∧
          DynAt (heap.set_hdr t.root
            (some ⟨.mapper_list_query_continuation, y, start, t.ctx, .QUERY_DYNAMIC⟩))
            t y start post) ∧
      ((xs.filter t.sem)[k]? = none →
        ∃ heap', mapper_list_get_index fuel heap t.root ((k : Int) + 1) = .ok (heap', 0) ∧
          Freed heap heap' t.hdrs t.ctxs ∧ heap'.hdr t.root = none ∧
          heap'.ctx t.ctx = none)) ∧
    (∀ h self rest (index : Int), StatOwn heap h self rest → rest.length < fuel →
      ∃ r, mapper_list_get_index fuel heap h index = .ok (heap, r)) := by
  constructor
  · intro t self start rest xs hd hsrc hf
    obtain ⟨hs, hn⟩ := get_index_dynamic_spec fuel k hd hsrc hf
    refine ⟨hs, fun hget => ?_⟩
    obtain ⟨heap', h1, hF⟩ := hn hget
    refine ⟨heap', h1, hF, ?_, ?_⟩
    · rw [hF.2.1 t.root]; simp [t.root_mem_hdrs]
    · rw [hF.2.2 t.ctx]; simp [t.ctx_mem_ctxs]
  · intro h self rest index hs hf
    obtain ⟨hpos, hzero, hneg⟩ := get_index_static_spec fuel hs hf
    rcases lt_trichotomy index 0 with hlt | heq | hgt
    · exact ⟨0, hneg index hlt⟩
    · subst heq; exact ⟨self, hzero⟩
    · obtain ⟨k', hk'⟩ : ∃ k' : Nat, index = (k' : Int) + 1 :=
        ⟨(index - 1).toNat, by omega⟩
      subst hk'
      exact ⟨_, hpos k'⟩

/-- C23 on the example: index 2 of the query `A`, whose cursor is on item 10,
leaves the cursor on item 6; index 6 returns none and releases the header 11
and the context 12 of `A`; index 3 of the static handle of item 7 leaves the
heap as it is. -/
theorem get_index_cursor_witness :
    (∃ heap', mapper_list_get_index 12 example_queries 11 2 = .ok (heap', 6) ∧
      example_queries.hdr 11 =
        some ⟨.mapper_list_query_continuation, 10, 10, 12, .QUERY_DYNAMIC⟩ ∧
      heap'.hdr 11 = some ⟨.mapper_list_query_continuation, 6, 10, 12, .QUERY_DYNAMIC⟩) ∧
    (∃ heap', mapper_list_get_index 12 example_queries 11 6 = .ok (heap', 0) ∧
      heap'.hdr 11 = none ∧ heap'.ctx 12 = none) ∧
    (∃ r, mapper_list_get_index 12 example_queries 7 3 = .ok (example_queries, r)) := by
  refine ⟨?_, ?_, ?_⟩
  · obtain ⟨h1, _⟩ := ((get_index_cursor 12 example_queries 1).1 example_A 10 10
      [9, 8, 7, 6, 5, 4, 3, 2, 1] [9, 8, 7, 6, 5, 4, 3, 2, 1] example_A_dyn
      example_queries_isList (by decide)).1 6 (by decide)
    exact ⟨_, h1, rfl, by simp [Heap.set_hdr, example_A, QTree.root, QTree.ctx]⟩
  · obtain ⟨heap', h1, _, h3, h4⟩ := ((get_index_cursor 12 example_queries 5).1 example_A 10 10
      [9, 8, 7, 6, 5, 4, 3, 2, 1] [9, 8, 7, 6, 5, 4, 3, 2, 1] example_A_dyn
      example_queries_isList (by decide)).2 (by decide)
    exact ⟨heap', h1, h3, h4⟩
  · exact (get_index_cursor 12 example_queries 0).2 7 7 [6, 5, 4, 3, 2, 1] 3 example_own_7
      (by decide)

/-! ## New queries and the repeat count -/

/-- C1, the failing input: over the list of ten items, with the predicate that
matches every item, `mapper_list_new_query` with the tag string `i12` and an
array of twelve integers returns the null handle, so the drain visits nothing,
although all ten items satisfy the predicate; with the one-digit count of `i9`
the handle is header 11 and the drain visits the ten items.  With the tag
string `s2` and an array of two strings `mapper_list_new_query` faults. -/
theorem new_query_two_digit_count :
    mapper_list_new_query 12 example_list 10 (.user match_all) (some ['i', '1', '2'])
      [.int_ptr (List.replicate 12 0)] = .ok (example_list, 0) ∧
    drain 12 12 example_list 0 = .ok (example_list, []) ∧
    (∀ d, example_items.filter (match_all d) = example_items) ∧
    (∃ heap1 heap2,
      mapper_list_new_query 12 example_list 10 (.user match_all) (some ['i', '9'])
        [.int_ptr (List.replicate 9 0)] = .ok (heap1, 11) ∧
      drain 12 12 heap1 11 = .ok (heap2, example_items)) ∧
    mapper_list_new_query 12 example_list 10 (.user match_all) (some ['s', '2'])
      [.str_ptr [[97], [98, 99]]] = .error .fault :=
  ⟨rfl, rfl, fun _ => rfl, ⟨_, _, rfl, rfl⟩, rfl⟩

end GuitarAMI
